import Mathlib

/-!
Verification of the `ser-not-de` binary codec.

The deserializer (`src/protocol/deserializer.rs`) is embedded shallowly:
the byte cursor is a `List Nat` of bytes (each `< 256`), and every parser
is a function `List Nat → DResult α` returning the result together with
the remaining input, an error together with the remaining input, or
`fatal` (the embedding of a Rust panic/abort, which in the source arises
from an out-of-bounds slice or an `unwrap` on `None`).

The serializer and error enum of the repository are not part of the
sources available here (only the deserializer and the demo `main.rs`
are), so the wire-format constants, the error constructors not named in
the deserializer, and the encoder are modelled from the specification,
as marked on their doc comments.
-/

/-- Modelled from the spec: the ten wire-format delimiter constants of
`serializer.rs` (not among the given sources). The spec fixes only that
they are ten mutually distinct byte values; the concrete values below are
one such choice. -/
def STRING_DELIMITER : Nat := 1

/-- Modelled from the spec: see `STRING_DELIMITER`. -/
def BYTE_DELIMITER : Nat := 2

/-- Modelled from the spec: see `STRING_DELIMITER`. -/
def UNIT : Nat := 3

/-- Modelled from the spec: see `STRING_DELIMITER`. -/
def SEQ_DELIMITER : Nat := 4

/-- Modelled from the spec: see `STRING_DELIMITER`. -/
def SEQ_VALUE_DELIMITER : Nat := 5

/-- Modelled from the spec: see `STRING_DELIMITER`. -/
def MAP_DELIMITER : Nat := 6

/-- Modelled from the spec: see `STRING_DELIMITER`. -/
def MAP_KEY_DELIMITER : Nat := 7

/-- Modelled from the spec: see `STRING_DELIMITER`. -/
def MAP_VALUE_DELIMITER : Nat := 8

/-- Modelled from the spec: see `STRING_DELIMITER`. -/
def MAP_VALUE_SEPARATOR : Nat := 9

/-- Modelled from the spec: see `STRING_DELIMITER`. -/
def ENUM_DELIMITER : Nat := 10

/-- The error enum of `error.rs` (itself not among the given sources);
the constructors are exactly those applied in `deserializer.rs`, plus
`InvalidVariantIndex`, `UnknownField`, `MissingField` and `InvalidLength`
which model the errors produced by the visitor side (serde-derive
generated code, out of scope per the spec) and `OutOfFuel`, an artifact
of the fuel-based embedding of the decode loops that is never returned
when the fuel exceeds the size of the value being decoded. -/
inductive Error : Type where
  | NoByte
  | UnexpectedEOF
  | ConversionError
  | InvalidTypeSize
  | ExpectedStringDelimiter
  | ExpectedByteDelimiter
  | ExpectedUnit
  | ExpectedEnumDelimiter
  | ExpectedSeqDelimiter
  | ExpectedSeqValueDelimiter
  | ExpectedMapDelimiter
  | ExpectedMapKeyDelimiter
  | ExpectedMapValueDelimiter
  | ExpectedMapValueSeparator
  | InvalidVariantIndex
  | UnknownField
  | MissingField
  | InvalidLength
  | OutOfFuel
deriving DecidableEq, Repr

/-- Outcome of running a deserializer method: success or error, each with
the remaining input (the `data` field of `CustomDeserializer` after the
call), or `fatal`, the embedding of a Rust panic (out-of-bounds slice in
`eat_bytes`, `unwrap` in `parse_char`), after which no state exists. -/
inductive DResult (α : Type) : Type where
  | ok : α → List Nat → DResult α
  | err : Error → List Nat → DResult α
  | fatal : DResult α
deriving DecidableEq, Repr

/-- A deserializer method: a state transformer over the remaining input. -/
abbrev Dm (α : Type) : Type := List Nat → DResult α

/-- Return: succeed without touching the input. -/
def dok {α : Type} (a : α) : Dm α := fun s => DResult.ok a s

/-- Raise an error, leaving the input where it is (as `?` does in Rust). -/
def derr {α : Type} (e : Error) : Dm α := fun s => DResult.err e s

/-- Sequence two deserializer methods, threading the remaining input and
propagating errors and panics, as `?` does in the Rust source. -/
def dbind {α β : Type} (m : Dm α) (f : α → Dm β) : Dm β := fun s =>
  match m s with
  | DResult.ok a s' => f a s'
  | DResult.err e s' => DResult.err e s'
  | DResult.fatal => DResult.fatal

/-- The remaining input recorded in a result (`none` after a panic). -/
def resultState {α : Type} : DResult α → Option (List Nat)
  | DResult.ok _ s => some s
  | DResult.err _ s => some s
  | DResult.fatal => none

/-- `CustomDeserializer::peek_byte`: first byte of the data, not consumed;
`NoByte` when the data is empty. -/
def peek_byte : Dm Nat := fun s =>
  match s with
  | [] => DResult.err Error.NoByte []
  | b :: _ => DResult.ok b s

/-- `CustomDeserializer::eat_byte`: peek the first byte, then advance past
it. -/
def eat_byte : Dm Nat := fun s =>
  match s with
  | [] => DResult.err Error.NoByte []
  | b :: rest => DResult.ok b rest

/-- `CustomDeserializer::eat_bytes`: take the slice `data[..n]` and keep
`data[n..]`. The Rust source indexes without a bounds check, so when
fewer than `n` bytes remain the slice operation panics: this is the
`fatal` branch. -/
def eat_bytes (n : Nat) : Dm (List Nat) := fun s =>
  if n ≤ s.length then DResult.ok (s.take n) (s.drop n)
  else DResult.fatal

/-- Little-endian reassembly of a byte list, as `uN::from_le_bytes`. -/
def fromLE : List Nat → Nat
  | [] => 0
  | b :: rest => b + 256 * fromLE rest

/-- Little-endian byte decomposition, width `w`: the encoding of the
fixed-width primitives. -/
def leBytes : Nat → Nat → List Nat
  | 0, _ => []
  | w + 1, n => n % 256 :: leBytes w (n / 256)

/-- Reinterpret a `w`-byte unsigned reassembly as the signed value, as
`iN::from_le_bytes` does (two's complement). -/
def toSigned (w n : Nat) : Int :=
  if n < 2 ^ (8 * w - 1) then (n : Int) else (n : Int) - 2 ^ (8 * w)

/-- `CustomDeserializer::parse_bool`: eat one byte; any nonzero byte is
`true`. -/
def parse_bool : Dm Bool :=
  dbind eat_byte (fun b => dok (decide (b ≠ 0)))

/-- `CustomDeserializer::parse_unsigned::<T>` where `w` is
`size_of::<T>()`: guard the length (else `UnexpectedEOF`), then read and
reassemble `w` little-endian bytes; widths other than 1, 2, 4, 8 are
`InvalidTypeSize`. The `try_into` of the source is between equal widths
and never fails. -/
def parse_unsigned (w : Nat) : Dm Nat := fun s =>
  if s.length < w then DResult.err Error.UnexpectedEOF s
  else match w with
    | 1 => dbind eat_byte (fun b => dok b) s
    | 2 => dbind (eat_bytes 2) (fun bs => dok (fromLE bs)) s
    | 4 => dbind (eat_bytes 4) (fun bs => dok (fromLE bs)) s
    | 8 => dbind (eat_bytes 8) (fun bs => dok (fromLE bs)) s
    | _ => DResult.err Error.InvalidTypeSize s

/-- `CustomDeserializer::parse_signed::<T>`: as `parse_unsigned`, but the
reassembled bytes are reinterpreted two's-complement. -/
def parse_signed (w : Nat) : Dm Int := fun s =>
  if s.length < w then DResult.err Error.UnexpectedEOF s
  else match w with
    | 1 => dbind eat_byte (fun b => dok (toSigned 1 b)) s
    | 2 => dbind (eat_bytes 2) (fun bs => dok (toSigned 2 (fromLE bs))) s
    | 4 => dbind (eat_bytes 4) (fun bs => dok (toSigned 4 (fromLE bs))) s
    | 8 => dbind (eat_bytes 8) (fun bs => dok (toSigned 8 (fromLE bs))) s
    | _ => DResult.err Error.InvalidTypeSize s

/-- `CustomDeserializer::parse_f32`: `eat_bytes(4)` with no length guard
(hence a panic on short input), reassembled little-endian. The float is
kept as its 32-bit pattern. -/
def parse_f32 : Dm Nat :=
  dbind (eat_bytes 4) (fun bs => dok (fromLE bs))

/-- `CustomDeserializer::parse_f64`: `eat_bytes(8)` with no length guard
(hence a panic on short input), reassembled little-endian. The float is
kept as its 64-bit pattern. -/
def parse_f64 : Dm Nat :=
  dbind (eat_bytes 8) (fun bs => dok (fromLE bs))

/-- Unicode scalar values: what `char::from_u32` accepts. -/
def validScalar (n : Nat) : Bool :=
  decide (n < 0xD800 ∨ (0xE000 ≤ n ∧ n < 0x110000))

/-- `CustomDeserializer::parse_char`: read a `u32`, then
`char::from_u32(value).unwrap()` — the `unwrap` panics on an invalid
scalar value, which is the `fatal` branch. -/
def parse_char : Dm Nat :=
  dbind (parse_unsigned 4) (fun n => fun s =>
    if validScalar n then DResult.ok n s else DResult.fatal)

/-- The loop of `CustomDeserializer::parse_str`: eat bytes until one
equals `STRING_DELIMITER` (not included in the payload); `NoByte` at end
of input. -/
def parse_str_loop : List Nat → DResult (List Nat)
  | [] => DResult.err Error.NoByte []
  | b :: rest =>
    if b = STRING_DELIMITER then DResult.ok [] rest
    else
      match parse_str_loop rest with
      | DResult.ok bs s' => DResult.ok (b :: bs) s'
      | DResult.err e s' => DResult.err e s'
      | DResult.fatal => DResult.fatal

/-- Well-formed UTF-8, as validated by `String::from_utf8`: ASCII,
2-byte (C2..DF), 3-byte (E0 A0..BF / ED 80..9F excluding surrogates /
other E1..EF with plain continuations) and 4-byte (F0 90..BF / F4
80..8F / F1..F3 plain) sequences, continuation bytes in 80..BF. -/
def isCont (b : Nat) : Bool := decide (0x80 ≤ b ∧ b ≤ 0xBF)

/-- See `isCont`. -/
def utf8WellFormed : List Nat → Bool
  | [] => true
  | b :: rest =>
    if b ≤ 0x7F then utf8WellFormed rest
    else if b < 0xC2 then false
    else if b ≤ 0xDF then
      match rest with
      | c1 :: rest2 => isCont c1 && utf8WellFormed rest2
      | [] => false
    else if b ≤ 0xEF then
      match rest with
      | c1 :: c2 :: rest2 =>
        (if b = 0xE0 then decide (0xA0 ≤ c1 ∧ c1 ≤ 0xBF)
         else if b = 0xED then decide (0x80 ≤ c1 ∧ c1 ≤ 0x9F)
         else isCont c1) && isCont c2 && utf8WellFormed rest2
      | _ => false
    else if b ≤ 0xF4 then
      match rest with
      | c1 :: c2 :: c3 :: rest2 =>
        (if b = 0xF0 then decide (0x90 ≤ c1 ∧ c1 ≤ 0xBF)
         else if b = 0xF4 then decide (0x80 ≤ c1 ∧ c1 ≤ 0x8F)
         else isCont c1) && isCont c2 && isCont c3 && utf8WellFormed rest2
      | _ => false
    else false

/-- `CustomDeserializer::parse_str`: scan to the string delimiter, then
validate the accumulated bytes as UTF-8 (`String::from_utf8`, with
failure mapped to `ConversionError`). The payload is kept as its byte
list. -/
def parse_str : Dm (List Nat) :=
  dbind parse_str_loop (fun bs =>
    if utf8WellFormed bs then dok bs else derr Error.ConversionError)

/-- `CustomDeserializer::parse_bytes`: eat bytes until a terminator —
the source scans for `STRING_DELIMITER`, not `BYTE_DELIMITER` (the
defect flagged by the spec); `NoByte` at end of input. -/
def parse_bytes : List Nat → DResult (List Nat)
  | [] => DResult.err Error.NoByte []
  | b :: rest =>
    if b = STRING_DELIMITER then DResult.ok [] rest
    else
      match parse_bytes rest with
      | DResult.ok bs s' => DResult.ok (b :: bs) s'
      | DResult.err e s' => DResult.err e s'
      | DResult.fatal => DResult.fatal

mutual
/-- Variant kinds of an enum schema, as dispatched by the
`VariantAccess` impl: unit, newtype, tuple (decoded as a seq) and
struct (decoded as a map keyed by field-name strings). -/
inductive Var : Type where
  | vUnit : Var
  | vNewtype : Sch → Var
  | vTuple : List Sch → Var
  | vStruct : List (List Nat × Sch) → Var

/-- The shape the caller asks the deserializer for: one constructor per
`deserialize_*` entry point exercised by the data model (`uns w` and
`sgn w` cover the four fixed widths each, mirroring
`parse_unsigned`/`parse_signed`). -/
inductive Sch : Type where
  | bool : Sch
  | uns : Nat → Sch
  | sgn : Nat → Sch
  | f32 : Sch
  | f64 : Sch
  | char : Sch
  | str : Sch
  | bytes : Sch
  | unit : Sch
  | option : Sch → Sch
  | seq : Sch → Sch
  | map : Sch → Sch → Sch
  | enum : List Var → Sch
end

/-- The decoded values: primitives carry their in-memory payload
(floats as raw bit patterns, chars as scalar values, strings as their
UTF-8 bytes); composites nest. An enum value is a variant index plus an
optional payload (`none` for a unit variant; a tuple payload is a
`seqV`, a struct payload a `mapV` of string keys, matching how those
variants are put on the wire). -/
inductive Value : Type where
  | boolV : Bool → Value
  | unsV : Nat → Nat → Value
  | sgnV : Nat → Int → Value
  | f32V : Nat → Value
  | f64V : Nat → Value
  | charV : Nat → Value
  | strV : List Nat → Value
  | bytesV : List Nat → Value
  | unitV : Value
  | noneV : Value
  | someV : Value → Value
  | seqV : List Value → Value
  | mapV : List (Value × Value) → Value
  | enumV : Nat → Option Value → Value

/-- The byte payload of a decoded string value (used by the struct-field
loop to compare a decoded identifier with the declared field name; the
identifier decoder only ever produces `strV`). -/
def keyBytes : Value → List Nat
  | Value.strV bs => bs
  | _ => []

/-- `Deserializer::deserialize_str` (and `deserialize_string`): read one
byte through `parse_unsigned::<u8>`, require the string delimiter, then
`parse_str`. -/
def deserialize_str : Dm Value :=
  dbind (parse_unsigned 1) (fun b =>
    if b = STRING_DELIMITER then dbind parse_str (fun bs => dok (Value.strV bs))
    else derr Error.ExpectedStringDelimiter)

/-- `Deserializer::deserialize_bytes` (and `deserialize_byte_buf`): read
one byte through `parse_unsigned::<u8>`, require the byte delimiter,
then `parse_bytes`. -/
def deserialize_bytes : Dm Value :=
  dbind (parse_unsigned 1) (fun b =>
    if b = BYTE_DELIMITER then fun s =>
      match parse_bytes s with
      | DResult.ok bs s' => DResult.ok (Value.bytesV bs) s'
      | DResult.err e s' => DResult.err e s'
      | DResult.fatal => DResult.fatal
    else derr Error.ExpectedByteDelimiter)

/-- `Deserializer::deserialize_unit`: read one byte through
`parse_unsigned::<u8>` and require `UNIT`. -/
def deserialize_unit : Dm Value :=
  dbind (parse_unsigned 1) (fun b =>
    if b = UNIT then dok Value.unitV else derr Error.ExpectedUnit)

/-- `Deserializer::deserialize_option`: peek one byte; on `UNIT` eat it
and yield none (`visit_none`), otherwise decode the inner value from the
current position (`visit_some`). -/
def deserialize_option (d : Dm Value) : Dm Value :=
  dbind peek_byte (fun b =>
    if b = UNIT then dbind eat_byte (fun _ => dok Value.noneV)
    else dbind d (fun v => dok (Value.someV v)))

/-- `Deserializer::deserialize_seq` / `deserialize_map` framing: read one
byte through `parse_unsigned::<u8>` and require the delimiter, run the
visitor, then read one byte again and require the same delimiter. -/
def deserialize_frame {α : Type} (delim : Nat) (e : Error) (visit : Dm α) : Dm α :=
  dbind (parse_unsigned 1) (fun b =>
    if b = delim then
      dbind visit (fun a =>
        dbind (parse_unsigned 1) (fun c =>
          if c = delim then dok a else derr e))
    else derr e)

/-- The sequence element loop: `SeqAccess::next_element_seed` driven by a
`Vec`-style visitor that collects elements until `None`. Each step peeks
— a `SEQ_DELIMITER` ends the loop without being consumed — and for every
element after the first eats and requires `SEQ_VALUE_DELIMITER` before
decoding the element. The fuel only bounds the number of iterations. -/
def seq_elements (d : Dm Value) : Nat → Bool → Dm (List Value)
  | 0, _ => derr Error.OutOfFuel
  | fuel + 1, first =>
    dbind peek_byte (fun b =>
      if b = SEQ_DELIMITER then dok []
      else
        dbind
          (if first then dok 0
           else dbind eat_byte (fun c =>
             if c = SEQ_VALUE_DELIMITER then dok 0
             else derr Error.ExpectedSeqValueDelimiter))
          (fun _ =>
            dbind d (fun v =>
              dbind (seq_elements d fuel false) (fun vs => dok (v :: vs)))))

/-- The tuple element loop: `next_element_seed` driven by a fixed-arity
visitor (tuple or tuple variant), which asks for exactly one element per
component schema; a premature end-of-sequence peek is the visitor's
invalid-length error. -/
def tuple_elements (dV : Sch → Dm Value) : List Sch → Bool → Dm (List Value)
  | [], _ => dok []
  | t :: ts, first =>
    dbind peek_byte (fun b =>
      if b = SEQ_DELIMITER then derr Error.InvalidLength
      else
        dbind
          (if first then dok 0
           else dbind eat_byte (fun c =>
             if c = SEQ_VALUE_DELIMITER then dok 0
             else derr Error.ExpectedSeqValueDelimiter))
          (fun _ =>
            dbind (dV t) (fun v =>
              dbind (tuple_elements dV ts false) (fun vs => dok (v :: vs)))))

/-- The map entry loop: `MapAccess::next_key_seed` then
`next_value_seed`, driven by a visitor that collects entries until the
key seed yields `None`. A peeked `MAP_DELIMITER` ends the loop; for
every entry after the first an eaten byte must be `MAP_VALUE_SEPARATOR`;
the key is bracketed by two required `MAP_KEY_DELIMITER` bytes (read via
`parse_unsigned::<u8>`), the value by two required `MAP_VALUE_DELIMITER`
bytes (read via `eat_byte`). -/
def map_entries (dk dv : Dm Value) : Nat → Bool → Dm (List (Value × Value))
  | 0, _ => derr Error.OutOfFuel
  | fuel + 1, first =>
    dbind peek_byte (fun b =>
      if b = MAP_DELIMITER then dok []
      else
        dbind
          (if first then dok 0
           else dbind eat_byte (fun c =>
             if c = MAP_VALUE_SEPARATOR then dok 0
             else derr Error.ExpectedMapValueSeparator))
          (fun _ =>
            dbind (parse_unsigned 1) (fun c =>
              if c = MAP_KEY_DELIMITER then
                dbind dk (fun k =>
                  dbind (parse_unsigned 1) (fun c2 =>
                    if c2 = MAP_KEY_DELIMITER then
                      dbind eat_byte (fun c3 =>
                        if c3 = MAP_VALUE_DELIMITER then
                          dbind dv (fun v =>
                            dbind eat_byte (fun c4 =>
                              if c4 = MAP_VALUE_DELIMITER then
                                dbind (map_entries dk dv fuel false)
                                  (fun es => dok ((k, v) :: es))
                              else derr Error.ExpectedMapValueDelimiter))
                        else derr Error.ExpectedMapValueDelimiter)
                    else derr Error.ExpectedMapKeyDelimiter))
              else derr Error.ExpectedMapKeyDelimiter)))

/-- The struct-variant field loop: as `map_entries`, but driven by the
derived struct visitor, which asks for one entry per declared field;
each key is decoded as an identifier string (`deserialize_identifier`
delegates to `deserialize_str`) and must match the declared field name.
The visitor side is serde-derive generated code, out of scope of the
sources; it is modelled from the spec (a map keyed by field-name
strings, fields in declaration order). -/
def struct_fields (dV : Sch → Dm Value) : List (List Nat × Sch) → Bool → Dm (List (Value × Value))
  | [], _ => dok []
  | (name, tv) :: fs, first =>
    dbind peek_byte (fun b =>
      if b = MAP_DELIMITER then derr Error.MissingField
      else
        dbind
          (if first then dok 0
           else dbind eat_byte (fun c =>
             if c = MAP_VALUE_SEPARATOR then dok 0
             else derr Error.ExpectedMapValueSeparator))
          (fun _ =>
            dbind (parse_unsigned 1) (fun c =>
              if c = MAP_KEY_DELIMITER then
                dbind deserialize_str (fun k =>
                  if keyBytes k = name then
                    dbind (parse_unsigned 1) (fun c2 =>
                      if c2 = MAP_KEY_DELIMITER then
                        dbind eat_byte (fun c3 =>
                          if c3 = MAP_VALUE_DELIMITER then
                            dbind (dV tv) (fun v =>
                              dbind eat_byte (fun c4 =>
                                if c4 = MAP_VALUE_DELIMITER then
                                  dbind (struct_fields dV fs false)
                                    (fun es => dok ((k, v) :: es))
                                else derr Error.ExpectedMapValueDelimiter))
                          else derr Error.ExpectedMapValueDelimiter)
                      else derr Error.ExpectedMapKeyDelimiter)
                  else derr Error.UnknownField)
              else derr Error.ExpectedMapKeyDelimiter)))

/-- The `EnumAccess`/`VariantAccess` impls: after the enum delimiter and
the `u32` variant index, the visitor picks the variant with that index
(an out-of-range index is the derived visitor's invalid-variant error)
and the payload is decoded per the variant kind — nothing for a unit
variant, a bare value for a newtype variant, a seq for a tuple variant,
a map for a struct variant. -/
def deserialize_variant (dV : Sch → Dm Value) (idx : Nat) : Option Var → Dm Value
  | Option.none => derr Error.InvalidVariantIndex
  | Option.some Var.vUnit => dok (Value.enumV idx Option.none)
  | Option.some (Var.vNewtype t') =>
    dbind (dV t') (fun v => dok (Value.enumV idx (Option.some v)))
  | Option.some (Var.vTuple ts) =>
    dbind
      (deserialize_frame SEQ_DELIMITER Error.ExpectedSeqDelimiter
        (tuple_elements dV ts true))
      (fun vs => dok (Value.enumV idx (Option.some (Value.seqV vs))))
  | Option.some (Var.vStruct fs) =>
    dbind
      (deserialize_frame MAP_DELIMITER Error.ExpectedMapDelimiter
        (struct_fields dV fs true))
      (fun es => dok (Value.enumV idx (Option.some (Value.mapV es))))

/-- The whole decoder, schema-driven: the body of `T::deserialize(&mut
CustomDeserializer)` for each shape `T` of the data model, dispatching to
the corresponding `deserialize_*` method of the source. The fuel only
bounds the recursion depth of the embedding; any fuel larger than the
size of the decoded value is enough. -/
def decodeV : Nat → Sch → Dm Value
  | 0, _ => derr Error.OutOfFuel
  | fuel + 1, t =>
    match t with
    | Sch.bool => dbind parse_bool (fun b => dok (Value.boolV b))
    | Sch.uns w => dbind (parse_unsigned w) (fun n => dok (Value.unsV w n))
    | Sch.sgn w => dbind (parse_signed w) (fun z => dok (Value.sgnV w z))
    | Sch.f32 => dbind parse_f32 (fun n => dok (Value.f32V n))
    | Sch.f64 => dbind parse_f64 (fun n => dok (Value.f64V n))
    | Sch.char => dbind parse_char (fun n => dok (Value.charV n))
    | Sch.str => deserialize_str
    | Sch.bytes => deserialize_bytes
    | Sch.unit => deserialize_unit
    | Sch.option t' => deserialize_option (decodeV fuel t')
    | Sch.seq t' =>
      deserialize_frame SEQ_DELIMITER Error.ExpectedSeqDelimiter
        (dbind (seq_elements (decodeV fuel t') fuel true)
          (fun vs => dok (Value.seqV vs)))
    | Sch.map tk tv =>
      deserialize_frame MAP_DELIMITER Error.ExpectedMapDelimiter
        (dbind (map_entries (decodeV fuel tk) (decodeV fuel tv) fuel true)
          (fun es => dok (Value.mapV es)))
    | Sch.enum vars =>
      dbind (parse_unsigned 1) (fun b =>
        if b = ENUM_DELIMITER then
          dbind (parse_unsigned 4) (fun idx =>
            deserialize_variant (decodeV fuel) idx vars[idx]?)
        else derr Error.ExpectedEnumDelimiter)

mutual
/-- Modelled from the spec: the encoder (`serializer.rs`, not among the
given sources). Primitives are their little-endian bytes (booleans one
byte, canonically 1/0; chars their `u32` scalar; floats their IEEE-754
bit patterns); strings and byte buffers are wrapped in their delimiter;
unit and an absent option are the single `UNIT` byte; a present option
is the bare inner encoding; sequences wrap `SEQ_VALUE_DELIMITER`
separated elements in `SEQ_DELIMITER`s; maps wrap entries in
`MAP_DELIMITER`s; an enum value is `ENUM_DELIMITER`, the `u32` variant
index, then the payload encoding (nothing / bare value / seq / map). -/
def encodeV : Value → List Nat
  | Value.boolV b => [if b then 1 else 0]
  | Value.unsV w n => leBytes w n
  | Value.sgnV w z => leBytes w (Int.toNat (z % (2 ^ (8 * w))))
  | Value.f32V n => leBytes 4 n
  | Value.f64V n => leBytes 8 n
  | Value.charV n => leBytes 4 n
  | Value.strV p => STRING_DELIMITER :: p ++ [STRING_DELIMITER]
  | Value.bytesV p => BYTE_DELIMITER :: p ++ [BYTE_DELIMITER]
  | Value.unitV => [UNIT]
  | Value.noneV => [UNIT]
  | Value.someV v => encodeV v
  | Value.seqV vs => SEQ_DELIMITER :: encodeSeqBody vs true ++ [SEQ_DELIMITER]
  | Value.mapV es => MAP_DELIMITER :: encodeMapBody es true ++ [MAP_DELIMITER]
  | Value.enumV idx p =>
    ENUM_DELIMITER :: (leBytes 4 idx ++ encodePayload p)

/-- Modelled from the spec: the payload of an enum variant — nothing for
a unit variant, the bare encoding otherwise. -/
def encodePayload : Option Value → List Nat
  | Option.none => []
  | Option.some v => encodeV v

/-- Modelled from the spec: sequence body — `SEQ_VALUE_DELIMITER` before
every element except the first. -/
def encodeSeqBody : List Value → Bool → List Nat
  | [], _ => []
  | v :: vs, first =>
    (if first then [] else [SEQ_VALUE_DELIMITER]) ++ encodeV v ++ encodeSeqBody vs false

/-- Modelled from the spec: map body — `MAP_VALUE_SEPARATOR` before every
entry except the first, the key bracketed by `MAP_KEY_DELIMITER`s, the
value by `MAP_VALUE_DELIMITER`s. -/
def encodeMapBody : List (Value × Value) → Bool → List Nat
  | [], _ => []
  | (k, v) :: es, first =>
    (if first then [] else [MAP_VALUE_SEPARATOR]) ++
    (MAP_KEY_DELIMITER :: (encodeV k ++ [MAP_KEY_DELIMITER])) ++
    (MAP_VALUE_DELIMITER :: (encodeV v ++ [MAP_VALUE_DELIMITER])) ++
    encodeMapBody es false
end

mutual
/-- A measure of a value that dominates the recursion depth of decoding
its encoding: any fuel above `sizeV v` lets `decodeV` finish. -/
def sizeV : Value → Nat
  | Value.someV v => 1 + sizeV v
  | Value.seqV vs => 2 + sizeVList vs
  | Value.mapV es => 2 + sizeVPairs es
  | Value.enumV _ p => 2 + sizeVPayload p
  | _ => 1

/-- See `sizeV`. -/
def sizeVPayload : Option Value → Nat
  | Option.none => 0
  | Option.some v => sizeV v

/-- See `sizeV`. -/
def sizeVList : List Value → Nat
  | [] => 0
  | v :: vs => 1 + sizeV v + sizeVList vs

/-- See `sizeV`. -/
def sizeVPairs : List (Value × Value) → Nat
  | [] => 0
  | (k, v) :: es => 1 + sizeV k + sizeV v + sizeVPairs es
end

/-- Whether a decoded map key is the string with the given payload (used
to state that a struct-variant key matches the declared field name). -/
def isStrKey : Value → List Nat → Bool
  | Value.strV kb, name => decide (kb = name)
  | _, _ => false

/-- Whether a list of sequence or tuple-variant elements starts
unambiguously: the element loop's end-of-sequence peek only ever lands on
the first element's leading byte — before every later element the peeked
byte is the separator the encoder wrote — so only the first element's
encoding must not begin with `SEQ_DELIMITER`. -/
def headOk : List Value → Bool
  | [] => true
  | v :: _ => decide ((encodeV v).head? ≠ some SEQ_DELIMITER)

mutual
/-- Value/schema pairs on which the codec is lossless: the value fits the
schema within its width, byte buffers are excluded entirely (their decode
scans for the wrong terminator), string payloads are valid UTF-8 and
avoid the string delimiter byte, a present option's inner encoding must
not begin with the `UNIT` byte, a sequence's or tuple-variant's first
element's encoding must not begin with `SEQ_DELIMITER` (see `headOk`),
and enum variant indices are in range of the variant list and of
`u32`. -/
def good : Sch → Value → Bool
  | Sch.bool, Value.boolV _ => true
  | Sch.uns w, Value.unsV w' n =>
    decide (w = w') && (decide (w = 1) || decide (w = 2) || decide (w = 4) || decide (w = 8)) &&
    decide (n < 2 ^ (8 * w))
  | Sch.sgn w, Value.sgnV w' z =>
    decide (w = w') && (decide (w = 1) || decide (w = 2) || decide (w = 4) || decide (w = 8)) &&
    decide (-(2 ^ (8 * w - 1) : Int) ≤ z) && decide (z < (2 ^ (8 * w - 1) : Int))
  | Sch.f32, Value.f32V n => decide (n < 2 ^ 32)
  | Sch.f64, Value.f64V n => decide (n < 2 ^ 64)
  | Sch.char, Value.charV n => validScalar n
  | Sch.str, Value.strV p => utf8WellFormed p && !(p.contains STRING_DELIMITER)
  | Sch.unit, Value.unitV => true
  | Sch.option _, Value.noneV => true
  | Sch.option t, Value.someV v =>
    good t v && decide ((encodeV v).head? ≠ some UNIT)
  | Sch.seq t, Value.seqV vs => goodList t vs && headOk vs
  | Sch.map tk tv, Value.mapV es => goodPairs tk tv es
  | Sch.enum vars, Value.enumV idx p =>
    decide (idx < 2 ^ 32) && goodVariant vars[idx]? p
  | _, _ => false

/-- See `good`. -/
def goodVariant : Option Var → Option Value → Bool
  | some Var.vUnit, Option.none => true
  | some (Var.vNewtype t), Option.some v => good t v
  | some (Var.vTuple ts), Option.some (Value.seqV vs) => goodTuple ts vs && headOk vs
  | some (Var.vStruct fs), Option.some (Value.mapV es) => goodFields fs es
  | _, _ => false

/-- See `good`. -/
def goodList : Sch → List Value → Bool
  | _, [] => true
  | t, v :: vs => good t v && goodList t vs

/-- See `good`. -/
def goodPairs : Sch → Sch → List (Value × Value) → Bool
  | _, _, [] => true
  | tk, tv, (k, v) :: es => good tk k && good tv v && goodPairs tk tv es

/-- See `good`. -/
def goodTuple : List Sch → List Value → Bool
  | [], [] => true
  | t :: ts, v :: vs => good t v && goodTuple ts vs
  | _, _ => false

/-- See `good`. -/
def goodFields : List (List Nat × Sch) → List (Value × Value) → Bool
  | [], [] => true
  | (name, tv) :: fs, (k, v) :: es =>
    isStrKey k name &&
    utf8WellFormed name && !(name.contains STRING_DELIMITER) &&
    good tv v && goodFields fs es
  | _, _ => false
end

mutual
/-- Values containing no float leaf: the one family whose truncated
decode panics (`parse_f32`/`parse_f64` call `eat_bytes` unguarded). -/
def floatFree : Value → Bool
  | Value.f32V _ => false
  | Value.f64V _ => false
  | Value.someV v => floatFree v
  | Value.seqV vs => floatFreeList vs
  | Value.mapV es => floatFreePairs es
  | Value.enumV _ p => floatFreePayload p
  | _ => true

/-- See `floatFree`. -/
def floatFreePayload : Option Value → Bool
  | Option.none => true
  | Option.some v => floatFree v

/-- See `floatFree`. -/
def floatFreeList : List Value → Bool
  | [] => true
  | v :: vs => floatFree v && floatFreeList vs

/-- See `floatFree`. -/
def floatFreePairs : List (Value × Value) → Bool
  | [] => true
  | (k, v) :: es => floatFree k && floatFree v && floatFreePairs es
end

/-- Byte buffers whose decode, though wrong about the terminator (the
bytes claims), is still truncation-safe: with no `STRING_DELIMITER` byte
in the payload the scan of any proper prefix runs past every byte —
including the closing `BYTE_DELIMITER` — to the end of the input and
fails with `NoByte`. -/
def bytesClean : Sch → Value → Bool
  | Sch.bytes, Value.bytesV p => decide (STRING_DELIMITER ∉ p)
  | _, _ => false

/-- The value class whose encodings decode safely under truncation: the
unambiguously encoded values plus the delimiter-free byte buffers, which
do not round-trip but still fail cleanly on every proper prefix. -/
def goodPfx (t : Sch) (v : Value) : Bool := good t v || bytesClean t v

/-- `p` is a (not necessarily proper) leading slice of `b`. -/
def Pref (p b : List Nat) : Prop := ∃ c, p ++ c = b

/-- `a` is a (not necessarily proper) trailing slice of `b`. -/
def Suff (a b : List Nat) : Prop := ∃ c, c ++ a = b

/-- The errors the truncation-safety property allows: the end-of-input
kinds (`NoByte` and `UnexpectedEOF`, the spec's `EndOfInput`) and the
required-delimiter mismatch kinds. -/
def truncErr : Error → Bool
  | Error.NoByte => true
  | Error.UnexpectedEOF => true
  | Error.ExpectedStringDelimiter => true
  | Error.ExpectedByteDelimiter => true
  | Error.ExpectedUnit => true
  | Error.ExpectedEnumDelimiter => true
  | Error.ExpectedSeqDelimiter => true
  | Error.ExpectedSeqValueDelimiter => true
  | Error.ExpectedMapDelimiter => true
  | Error.ExpectedMapKeyDelimiter => true
  | Error.ExpectedMapValueDelimiter => true
  | Error.ExpectedMapValueSeparator => true
  | _ => false

/-- The remaining input recorded in a non-panicking result is a trailing
slice of the input the step started from. -/
def SuffRes {α : Type} (res : DResult α) (s : List Nat) : Prop :=
  ∀ s', resultState res = some s' → Suff s' s

/-- Cursor monotonicity of a deserializer method: whether it succeeds or
errors, the remaining input is a suffix of the starting input — no
method ever restores consumed bytes or moves the cursor backwards. -/
def Mono {α : Type} (m : Dm α) : Prop := ∀ s, SuffRes (m s) s

/-! Basic lemmas about the monadic plumbing and the cursor. -/

theorem dok_apply {α : Type} (a : α) (s : List Nat) : dok a s = DResult.ok a s := rfl

theorem derr_apply {α : Type} (e : Error) (s : List Nat) :
    (derr e s : DResult α) = DResult.err e s := rfl

theorem dbind_apply {α β : Type} (m : Dm α) (f : α → Dm β) (s : List Nat) :
    dbind m f s =
      match m s with
      | DResult.ok a s' => f a s'
      | DResult.err e s' => DResult.err e s'
      | DResult.fatal => DResult.fatal := rfl

theorem dbind_ok {α β : Type} {m : Dm α} {f : α → Dm β} {s s' : List Nat} {a : α}
    (h : m s = DResult.ok a s') : dbind m f s = f a s' := by
  simp [dbind, h]

theorem dbind_err {α β : Type} {m : Dm α} {f : α → Dm β} {s s' : List Nat} {e : Error}
    (h : m s = DResult.err e s') : dbind m f s = DResult.err e s' := by
  simp [dbind, h]

theorem dbind_fatal {α β : Type} {m : Dm α} {f : α → Dm β} {s : List Nat}
    (h : m s = DResult.fatal) : dbind m f s = DResult.fatal := by
  simp [dbind, h]

theorem peek_byte_nil : peek_byte [] = DResult.err Error.NoByte [] := rfl

theorem peek_byte_cons (b : Nat) (r : List Nat) :
    peek_byte (b :: r) = DResult.ok b (b :: r) := rfl

theorem eat_byte_nil : eat_byte [] = DResult.err Error.NoByte [] := rfl

theorem eat_byte_cons (b : Nat) (r : List Nat) :
    eat_byte (b :: r) = DResult.ok b r := rfl

theorem eat_bytes_append {bs : List Nat} {n : Nat} (r : List Nat) (h : bs.length = n) :
    eat_bytes n (bs ++ r) = DResult.ok bs r := by
  subst h
  simp [eat_bytes, List.take_append, List.drop_append]

theorem eat_bytes_short {n : Nat} {s : List Nat} (h : s.length < n) :
    eat_bytes n s = DResult.fatal := by
  simp [eat_bytes]
  omega

theorem leBytes_length (w n : Nat) : (leBytes w n).length = w := by
  induction w generalizing n with
  | zero => rfl
  | succ w ih => simp [leBytes, ih]

theorem fromLE_leBytes (w n : Nat) (h : n < 256 ^ w) : fromLE (leBytes w n) = n := by
  induction w generalizing n with
  | zero =>
    simp [leBytes, fromLE]
    omega
  | succ w ih =>
    have hdiv : n / 256 < 256 ^ w := by
      rw [Nat.div_lt_iff_lt_mul (by norm_num : 0 < 256)]
      calc n < 256 ^ (w + 1) := h
        _ = 256 ^ w * 256 := by ring
    simp [leBytes, fromLE, ih (n / 256) hdiv]
    omega

theorem parse_unsigned_one_cons (b : Nat) (r : List Nat) :
    parse_unsigned 1 (b :: r) = DResult.ok b r := by
  simp [parse_unsigned, dbind, eat_byte, dok]

theorem parse_unsigned_empty {w : Nat} (h : 0 < w) :
    parse_unsigned w [] = DResult.err Error.UnexpectedEOF [] := by
  simp [parse_unsigned, h]

theorem parse_unsigned_short {w : Nat} {s : List Nat} (h : s.length < w) :
    parse_unsigned w s = DResult.err Error.UnexpectedEOF s := by
  simp [parse_unsigned, h]

theorem parse_unsigned_le (w n : Nat) (r : List Nat)
    (hw : w = 1 ∨ w = 2 ∨ w = 4 ∨ w = 8) (hn : n < 256 ^ w) :
    parse_unsigned w (leBytes w n ++ r) = DResult.ok n r := by
  have hlen : (leBytes w n ++ r).length = w + r.length := by
    simp [leBytes_length]
  have hguard : ¬ (leBytes w n ++ r).length < w := by omega
  have hfrom := fromLE_leBytes w n hn
  rcases hw with h | h | h | h <;> subst h
  · have : leBytes 1 n = [n % 256] := rfl
    rw [this] at hfrom ⊢
    simp [fromLE] at hfrom
    simp [parse_unsigned, dbind, eat_byte, dok, hfrom]
  all_goals
    simp only [parse_unsigned, hguard, if_false]
    rw [dbind_ok (eat_bytes_append r (leBytes_length _ n))]
    rw [dok_apply, hfrom]

theorem toSigned_round (w : Nat) (z : Int) (hwpos : 0 < w)
    (hlo : -(2 ^ (8 * w - 1) : Int) ≤ z) (hhi : z < (2 ^ (8 * w - 1) : Int)) :
    toSigned w (Int.toNat (z % (2 ^ (8 * w)))) = z := by
  have hMpos : (0 : Int) < 2 ^ (8 * w) := by positivity
  have hmodge : 0 ≤ z % (2 ^ (8 * w) : Int) := Int.emod_nonneg z (by positivity)
  have hmodlt : z % (2 ^ (8 * w) : Int) < 2 ^ (8 * w) := Int.emod_lt_of_pos z hMpos
  have hcast : ((Int.toNat (z % 2 ^ (8 * w)) : Nat) : Int) = z % 2 ^ (8 * w) :=
    Int.toNat_of_nonneg hmodge
  have hH : (((2 : Nat) ^ (8 * w - 1) : Nat) : Int) = (2 : Int) ^ (8 * w - 1) := by
    push_cast
    ring
  have hMH : (2 : Int) ^ (8 * w) = 2 ^ (8 * w - 1) * 2 := by
    rw [← pow_succ]
    congr 1
    omega
  by_cases hz : 0 ≤ z
  · have hzM : z < 2 ^ (8 * w) := by
      calc z < 2 ^ (8 * w - 1) := hhi
        _ ≤ 2 ^ (8 * w) := by
          apply pow_le_pow_right₀ <;> omega
    have hmod : z % (2 ^ (8 * w) : Int) = z := Int.emod_eq_of_lt hz hzM
    have hbranch : Int.toNat (z % 2 ^ (8 * w)) < 2 ^ (8 * w - 1) := by
      have : ((Int.toNat (z % 2 ^ (8 * w)) : Nat) : Int) < (((2 : Nat) ^ (8 * w - 1) : Nat) : Int) := by
        rw [hcast, hH, hmod]
        exact hhi
      exact_mod_cast this
    rw [toSigned, if_pos hbranch, hcast, hmod]
  · push_neg at hz
    have hmod : z % (2 ^ (8 * w) : Int) = z + 2 ^ (8 * w) := by
      have h := @Int.add_mul_emod_self_left z (2 ^ (8 * w)) 1
      rw [mul_one] at h
      rw [← h]
      exact Int.emod_eq_of_lt (by omega) (by omega)
    have hbranch : ¬ (Int.toNat (z % 2 ^ (8 * w)) < 2 ^ (8 * w - 1)) := by
      intro hab
      have : ((Int.toNat (z % 2 ^ (8 * w)) : Nat) : Int) < (((2 : Nat) ^ (8 * w - 1) : Nat) : Int) := by
        exact_mod_cast hab
      rw [hcast, hH, hmod] at this
      omega
    rw [toSigned, if_neg hbranch, hcast, hmod]
    ring

theorem toNat_mod_lt (w : Nat) (z : Int) :
    Int.toNat (z % (2 ^ (8 * w))) < 256 ^ w := by
  have hMpos : (0 : Int) < 2 ^ (8 * w) := by positivity
  have hmodge : 0 ≤ z % (2 ^ (8 * w) : Int) := Int.emod_nonneg z (by positivity)
  have hmodlt : z % (2 ^ (8 * w) : Int) < 2 ^ (8 * w) := Int.emod_lt_of_pos z hMpos
  have h256 : ((256 : Nat) ^ w : Nat) = 2 ^ (8 * w) := by
    rw [show (256 : Nat) = 2 ^ 8 by norm_num, ← pow_mul]
  have hcastM : (((2 : Nat) ^ (8 * w) : Nat) : Int) = (2 : Int) ^ (8 * w) := by
    push_cast
    ring
  have : ((Int.toNat (z % 2 ^ (8 * w)) : Nat) : Int) < (((2 : Nat) ^ (8 * w) : Nat) : Int) := by
    rw [Int.toNat_of_nonneg hmodge, hcastM]
    exact hmodlt
  have hnat : Int.toNat (z % 2 ^ (8 * w)) < 2 ^ (8 * w) := by exact_mod_cast this
  rw [h256]
  exact hnat

theorem parse_signed_le (w : Nat) (z : Int) (r : List Nat)
    (hw : w = 1 ∨ w = 2 ∨ w = 4 ∨ w = 8)
    (hlo : -(2 ^ (8 * w - 1) : Int) ≤ z) (hhi : z < (2 ^ (8 * w - 1) : Int)) :
    parse_signed w (leBytes w (Int.toNat (z % (2 ^ (8 * w)))) ++ r) = DResult.ok z r := by
  have hwpos : 0 < w := by rcases hw with h | h | h | h <;> omega
  have hs := toSigned_round w z hwpos hlo hhi
  have hn := toNat_mod_lt w z
  set n : Nat := Int.toNat (z % (2 ^ (8 * w))) with hndef
  have hlen : (leBytes w n ++ r).length = w + r.length := by simp [leBytes_length]
  have hguard : ¬ ((leBytes w n ++ r).length < w) := by omega
  rcases hw with h | h | h | h <;> subst h
  · have hn256 : n < 256 := by
      have := hn
      norm_num at this
      exact this
    have hcons : leBytes 1 n ++ r = n :: r := by
      simp [leBytes, Nat.mod_eq_of_lt hn256]
    rw [hcons] at hguard ⊢
    simp only [parse_signed, hguard, if_false]
    rw [dbind_ok (eat_byte_cons n r), dok_apply, hs]
  all_goals
    simp only [parse_signed, hguard, if_false]
    rw [dbind_ok (eat_bytes_append r (leBytes_length _ n))]
    rw [dok_apply, fromLE_leBytes _ n hn, hs]

theorem parse_bool_encode (b : Bool) (r : List Nat) :
    parse_bool (encodeV (Value.boolV b) ++ r) = DResult.ok b r := by
  cases b <;> simp [encodeV, parse_bool, dbind, eat_byte, dok]

theorem parse_char_le (n : Nat) (r : List Nat) (h : validScalar n = true) :
    parse_char (leBytes 4 n ++ r) = DResult.ok n r := by
  have hn : n < 256 ^ 4 := by
    simp [validScalar] at h
    norm_num
    omega
  rw [parse_char, dbind_ok (parse_unsigned_le 4 n r (by norm_num) hn)]
  simp [h]

theorem parse_f32_le (n : Nat) (r : List Nat) (h : n < 2 ^ 32) :
    parse_f32 (leBytes 4 n ++ r) = DResult.ok n r := by
  rw [parse_f32, dbind_ok (eat_bytes_append r (leBytes_length 4 n))]
  rw [dok_apply, fromLE_leBytes 4 n (by norm_num at h ⊢; omega)]

theorem parse_f64_le (n : Nat) (r : List Nat) (h : n < 2 ^ 64) :
    parse_f64 (leBytes 8 n ++ r) = DResult.ok n r := by
  rw [parse_f64, dbind_ok (eat_bytes_append r (leBytes_length 8 n))]
  rw [dok_apply, fromLE_leBytes 8 n (by norm_num at h ⊢; omega)]

theorem parse_str_loop_encode (p : List Nat) (r : List Nat)
    (h : STRING_DELIMITER ∉ p) :
    parse_str_loop (p ++ STRING_DELIMITER :: r) = DResult.ok p r := by
  induction p with
  | nil => simp [parse_str_loop]
  | cons b p ih =>
    have hb : b ≠ STRING_DELIMITER := fun hc => h (by simp [hc])
    have hp : STRING_DELIMITER ∉ p := fun hc => h (by simp [hc])
    simp [parse_str_loop, hb, ih hp]

theorem parse_str_loop_no_delim (q : List Nat) (h : STRING_DELIMITER ∉ q) :
    parse_str_loop q = DResult.err Error.NoByte [] := by
  induction q with
  | nil => simp [parse_str_loop]
  | cons b q ih =>
    have hb : b ≠ STRING_DELIMITER := fun hc => h (by simp [hc])
    have hq : STRING_DELIMITER ∉ q := fun hc => h (by simp [hc])
    simp [parse_str_loop, hb, ih hq]

theorem parse_bytes_encode (p : List Nat) (r : List Nat)
    (h : STRING_DELIMITER ∉ p) :
    parse_bytes (p ++ STRING_DELIMITER :: r) = DResult.ok p r := by
  induction p with
  | nil => simp [parse_bytes]
  | cons b p ih =>
    have hb : b ≠ STRING_DELIMITER := fun hc => h (by simp [hc])
    have hp : STRING_DELIMITER ∉ p := fun hc => h (by simp [hc])
    simp [parse_bytes, hb, ih hp]

theorem parse_bytes_no_delim (q : List Nat) (h : STRING_DELIMITER ∉ q) :
    parse_bytes q = DResult.err Error.NoByte [] := by
  induction q with
  | nil => simp [parse_bytes]
  | cons b q ih =>
    have hb : b ≠ STRING_DELIMITER := fun hc => h (by simp [hc])
    have hq : STRING_DELIMITER ∉ q := fun hc => h (by simp [hc])
    simp [parse_bytes, hb, ih hq]

theorem deserialize_str_encode (p : List Nat) (r : List Nat)
    (hut : utf8WellFormed p = true) (hnd : STRING_DELIMITER ∉ p) :
    deserialize_str (encodeV (Value.strV p) ++ r) = DResult.ok (Value.strV p) r := by
  have harr : encodeV (Value.strV p) ++ r =
      STRING_DELIMITER :: (p ++ STRING_DELIMITER :: r) := by
    simp [encodeV]
  have hloop := parse_str_loop_encode p r hnd
  rw [harr]
  simp [deserialize_str, parse_str, dbind, dok, derr, parse_unsigned_one_cons, hloop, hut]

theorem deserialize_unit_encode (r : List Nat) :
    deserialize_unit (encodeV Value.unitV ++ r) = DResult.ok Value.unitV r := by
  simp [encodeV, deserialize_unit, parse_unsigned_one_cons, dbind, dok, UNIT]

theorem leBytes_ne_nil {w : Nat} (n : Nat) (h : 0 < w) : leBytes w n ≠ [] := by
  cases w with
  | zero => omega
  | succ w => simp [leBytes]

theorem sizeV_pos (v : Value) : 1 ≤ sizeV v := by
  cases v with
  | someV v => simp [sizeV]
  | seqV vs => simp [sizeV]; omega
  | mapV es => simp [sizeV]; omega
  | enumV i p => simp [sizeV]; omega
  | _ => simp [sizeV]

theorem good_ne_nil : ∀ (N : Nat) (t : Sch) (v : Value),
    sizeV v ≤ N → good t v = true → encodeV v ≠ [] := by
  intro N
  induction N with
  | zero =>
    intro t v hle _
    have := sizeV_pos v
    omega
  | succ N ih =>
    intro t v hle hg
    cases v with
    | boolV b => cases b <;> simp [encodeV]
    | unsV w' n =>
      cases t <;> simp [good] at hg
      rename_i w
      have hww : w = w' := by tauto
      have hor : w = 1 ∨ w = 2 ∨ w = 4 ∨ w = 8 := by tauto
      subst hww
      exact fun hnil =>
        @leBytes_ne_nil w n (by rcases hor with h | h | h | h <;> omega)
          (by simpa [encodeV] using hnil)
    | sgnV w' z =>
      cases t <;> simp [good] at hg
      rename_i w
      have hww : w = w' := by tauto
      have hor : w = 1 ∨ w = 2 ∨ w = 4 ∨ w = 8 := by tauto
      subst hww
      exact fun hnil =>
        @leBytes_ne_nil w _ (by rcases hor with h | h | h | h <;> omega)
          (by simpa [encodeV] using hnil)
    | f32V n => simp [encodeV, leBytes]
    | f64V n => simp [encodeV, leBytes]
    | charV n => simp [encodeV, leBytes]
    | strV p => simp [encodeV]
    | bytesV p => cases t <;> simp [good] at hg
    | unitV => simp [encodeV]
    | noneV => simp [encodeV]
    | someV v' =>
      cases t <;> simp [good] at hg
      rename_i t'
      obtain ⟨hg', -⟩ := hg
      have hsz : sizeV v' ≤ N := by
        have := hle
        simp [sizeV] at this
        omega
      simpa [encodeV] using ih t' v' hsz hg'
    | seqV vs => simp [encodeV]
    | mapV es => simp [encodeV]
    | enumV i p => simp [encodeV]

theorem seq_elements_encode (d : Dm Value) (vs : List Value) :
    ∀ (first : Bool) (fuel : Nat) (r : List Nat),
    (∀ v ∈ vs, ∀ r', d (encodeV v ++ r') = DResult.ok v r') →
    (∀ v ∈ vs, encodeV v ≠ []) →
    (first = true → headOk vs = true) →
    vs.length < fuel →
    seq_elements d fuel first (encodeSeqBody vs first ++ SEQ_DELIMITER :: r) =
      DResult.ok vs (SEQ_DELIMITER :: r) := by
  induction vs with
  | nil =>
    intro first fuel r _ _ _ hf
    cases fuel with
    | zero => omega
    | succ fuel =>
      simp [encodeSeqBody, seq_elements, dbind, peek_byte, dok]
  | cons v vs ih =>
    intro first fuel r hd hne hhd hf
    cases fuel with
    | zero => omega
    | succ fuel =>
      have hnil := hne v (by simp)
      obtain ⟨b, tail, hb⟩ := List.exists_cons_of_ne_nil hnil
      have hdv := hd v (by simp)
      have hrest := ih false fuel r
        (fun u hu r' => hd u (List.mem_cons_of_mem _ hu) r')
        (fun u hu => hne u (List.mem_cons_of_mem _ hu))
        (fun hc => absurd hc (by decide))
        (by simp at hf ⊢; omega)
      have hinput : encodeSeqBody (v :: vs) first ++ SEQ_DELIMITER :: r =
          (if first then ([] : List Nat) else [SEQ_VALUE_DELIMITER]) ++
            (b :: (tail ++ (encodeSeqBody vs false ++ SEQ_DELIMITER :: r))) := by
        simp [encodeSeqBody, hb]
      have helem : d (b :: (tail ++ (encodeSeqBody vs false ++ SEQ_DELIMITER :: r))) =
          DResult.ok v (encodeSeqBody vs false ++ SEQ_DELIMITER :: r) := by
        have := hdv (encodeSeqBody vs false ++ SEQ_DELIMITER :: r)
        rw [hb] at this
        simpa using this
      have hsvd : ¬ (SEQ_VALUE_DELIMITER = SEQ_DELIMITER) := by decide
      cases first with
      | true =>
        have hbne : b ≠ SEQ_DELIMITER := by
          have h1 := hhd rfl
          simp only [headOk, hb] at h1
          simpa using h1
        have hinput2 : encodeSeqBody (v :: vs) true ++ SEQ_DELIMITER :: r =
            b :: (tail ++ (encodeSeqBody vs false ++ SEQ_DELIMITER :: r)) := by
          simp [encodeSeqBody, hb]
        rw [hinput2, seq_elements]
        simp only [dbind, peek_byte, dok, hbne, helem, hrest, ite_true, ite_false, if_neg,
          not_false_eq_true, if_false]
      | false =>
        have hinput2 : encodeSeqBody (v :: vs) false ++ SEQ_DELIMITER :: r =
            SEQ_VALUE_DELIMITER ::
              (b :: (tail ++ (encodeSeqBody vs false ++ SEQ_DELIMITER :: r))) := by
          simp [encodeSeqBody, hb]
        rw [hinput2, seq_elements]
        simp only [dbind, peek_byte, eat_byte, dok, hsvd, helem, hrest, ite_true,
          ite_false, if_neg, not_false_eq_true, if_false, Bool.false_eq_true]

theorem sizeVList_mem {v : Value} {vs : List Value} (h : v ∈ vs) :
    sizeV v ≤ sizeVList vs := by
  induction vs with
  | nil => cases h
  | cons u vs ih =>
    rcases List.mem_cons.mp h with h | h
    · subst h
      simp [sizeVList]
      omega
    · have := ih h
      simp [sizeVList]
      omega

theorem length_le_sizeVList (vs : List Value) : vs.length ≤ sizeVList vs := by
  induction vs with
  | nil => simp [sizeVList]
  | cons u vs ih =>
    have := sizeV_pos u
    simp [sizeVList]
    omega

theorem sizeVPairs_mem {k v : Value} {es : List (Value × Value)} (h : (k, v) ∈ es) :
    sizeV k ≤ sizeVPairs es ∧ sizeV v ≤ sizeVPairs es := by
  induction es with
  | nil => cases h
  | cons e es ih =>
    obtain ⟨k', v'⟩ := e
    rcases List.mem_cons.mp h with h | h
    · rw [Prod.mk.injEq] at h
      obtain ⟨h1, h2⟩ := h
      subst h1
      subst h2
      simp [sizeVPairs]
      omega
    · have := ih h
      simp [sizeVPairs]
      omega

theorem length_le_sizeVPairs (es : List (Value × Value)) : es.length ≤ sizeVPairs es := by
  induction es with
  | nil => simp [sizeVPairs]
  | cons e es ih =>
    obtain ⟨k, v⟩ := e
    have := sizeV_pos k
    simp [sizeVPairs]
    omega

theorem goodList_mem {t : Sch} {vs : List Value} {v : Value}
    (hg : goodList t vs = true) (h : v ∈ vs) : good t v = true := by
  induction vs with
  | nil => cases h
  | cons u vs ih =>
    simp [goodList] at hg
    obtain ⟨h1, h3⟩ := hg
    rcases List.mem_cons.mp h with h | h
    · subst h
      exact h1
    · exact ih h3 h

theorem goodPairs_mem {tk tv : Sch} {es : List (Value × Value)} {k v : Value}
    (hg : goodPairs tk tv es = true) (h : (k, v) ∈ es) :
    good tk k = true ∧ good tv v = true := by
  induction es with
  | nil => cases h
  | cons e es ih =>
    obtain ⟨k', v'⟩ := e
    simp [goodPairs] at hg
    obtain ⟨⟨h1, h2⟩, h3⟩ := hg
    rcases List.mem_cons.mp h with h | h
    · rw [Prod.mk.injEq] at h
      obtain ⟨hk, hv⟩ := h
      subst hk
      subst hv
      exact ⟨h1, h2⟩
    · exact ih h3 h

theorem goodTuple_length {ts : List Sch} {vs : List Value}
    (hg : goodTuple ts vs = true) : ts.length = vs.length := by
  induction ts generalizing vs with
  | nil => cases vs <;> simp [goodTuple] at hg ⊢
  | cons t ts ih =>
    cases vs with
    | nil => simp [goodTuple] at hg
    | cons v vs =>
      simp [goodTuple] at hg
      simp [ih hg.2]

theorem goodTuple_zip {ts : List Sch} {vs : List Value} {t : Sch} {v : Value}
    (hg : goodTuple ts vs = true) (h : (t, v) ∈ List.zip ts vs) :
    good t v = true := by
  induction ts generalizing vs with
  | nil => cases vs <;> simp [List.zip] at h
  | cons t' ts ih =>
    cases vs with
    | nil => simp [List.zip] at h
    | cons v' vs =>
      simp [goodTuple] at hg
      obtain ⟨h1, h3⟩ := hg
      simp [List.zip] at h
      rcases h with ⟨ha, hb⟩ | h
      · subst ha
        subst hb
        exact h1
      · exact ih h3 h

theorem goodFields_length {fs : List (List Nat × Sch)} {es : List (Value × Value)}
    (hg : goodFields fs es = true) : fs.length = es.length := by
  induction fs generalizing es with
  | nil => cases es <;> simp [goodFields] at hg ⊢
  | cons f fs ih =>
    cases es with
    | nil =>
      obtain ⟨name, tv⟩ := f
      simp [goodFields] at hg
    | cons e es =>
      obtain ⟨name, tv⟩ := f
      obtain ⟨k, v⟩ := e
      simp [goodFields] at hg
      simp [ih hg.2]

theorem goodFields_zip {fs : List (List Nat × Sch)} {es : List (Value × Value)}
    {nt : List Nat × Sch} {kv : Value × Value}
    (hg : goodFields fs es = true) (h : (nt, kv) ∈ List.zip fs es) :
    kv.1 = Value.strV nt.1 ∧ utf8WellFormed nt.1 = true ∧
      STRING_DELIMITER ∉ nt.1 ∧ good nt.2 kv.2 = true := by
  induction fs generalizing es with
  | nil => cases es <;> simp [List.zip] at h
  | cons f fs ih =>
    cases es with
    | nil => simp [List.zip] at h
    | cons e es =>
      obtain ⟨name, tv⟩ := f
      obtain ⟨k, v⟩ := e
      simp [goodFields] at hg
      obtain ⟨⟨⟨⟨hk, hut⟩, hnd⟩, hgv⟩, hrest⟩ := hg
      simp [List.zip] at h
      rcases h with ⟨h1, h2⟩ | h
      · subst h1
        subst h2
        refine ⟨?_, hut, hnd, hgv⟩
        cases k <;> simp [isStrKey] at hk <;> simp [hk]
      · exact ih hrest h

theorem tuple_elements_encode (dV : Sch → Dm Value) (ts : List Sch) :
    ∀ (vs : List Value) (first : Bool) (r : List Nat),
    ts.length = vs.length →
    (∀ x ∈ List.zip ts vs,
      (∀ r', dV x.1 (encodeV x.2 ++ r') = DResult.ok x.2 r') ∧
      encodeV x.2 ≠ []) →
    (first = true → headOk vs = true) →
    tuple_elements dV ts first (encodeSeqBody vs first ++ SEQ_DELIMITER :: r) =
      DResult.ok vs (SEQ_DELIMITER :: r) := by
  induction ts with
  | nil =>
    intro vs first r hlen H _
    cases vs with
    | nil => simp [tuple_elements, encodeSeqBody, dok]
    | cons v vs => simp at hlen
  | cons t ts ih =>
    intro vs first r hlen H hhd
    cases vs with
    | nil => simp at hlen
    | cons v vs =>
      obtain ⟨hdv, hnil⟩ := H (t, v) (by rw [List.zip_cons_cons]; simp)
      obtain ⟨b, tail, hb⟩ := List.exists_cons_of_ne_nil hnil
      have hrest := ih vs false r (by simpa using hlen)
        (fun x hx => H x (by rw [List.zip_cons_cons]; exact List.mem_cons_of_mem _ hx))
        (fun hc => absurd hc (by decide))
      have helem : dV t (b :: (tail ++ (encodeSeqBody vs false ++ SEQ_DELIMITER :: r))) =
          DResult.ok v (encodeSeqBody vs false ++ SEQ_DELIMITER :: r) := by
        have := hdv (encodeSeqBody vs false ++ SEQ_DELIMITER :: r)
        rw [hb] at this
        simpa using this
      have hsvd : ¬ (SEQ_VALUE_DELIMITER = SEQ_DELIMITER) := by decide
      cases first with
      | true =>
        have hbne : b ≠ SEQ_DELIMITER := by
          have h1 := hhd rfl
          simp only [headOk, hb] at h1
          simpa using h1
        have hinput2 : encodeSeqBody (v :: vs) true ++ SEQ_DELIMITER :: r =
            b :: (tail ++ (encodeSeqBody vs false ++ SEQ_DELIMITER :: r)) := by
          simp [encodeSeqBody, hb]
        rw [hinput2, tuple_elements]
        simp only [dbind, peek_byte, dok, hbne, helem, hrest, ite_true, ite_false, if_neg,
          not_false_eq_true, if_false]
      | false =>
        have hinput2 : encodeSeqBody (v :: vs) false ++ SEQ_DELIMITER :: r =
            SEQ_VALUE_DELIMITER ::
              (b :: (tail ++ (encodeSeqBody vs false ++ SEQ_DELIMITER :: r))) := by
          simp [encodeSeqBody, hb]
        rw [hinput2, tuple_elements]
        simp only [dbind, peek_byte, eat_byte, dok, hsvd, helem, hrest, ite_true,
          ite_false, if_neg, not_false_eq_true, if_false, Bool.false_eq_true]

theorem map_entries_encode (dk dv : Dm Value) (es : List (Value × Value)) :
    ∀ (first : Bool) (fuel : Nat) (r : List Nat),
    (∀ kv ∈ es, ∀ r', dk (encodeV kv.1 ++ r') = DResult.ok kv.1 r') →
    (∀ kv ∈ es, ∀ r', dv (encodeV kv.2 ++ r') = DResult.ok kv.2 r') →
    es.length < fuel →
    map_entries dk dv fuel first (encodeMapBody es first ++ MAP_DELIMITER :: r) =
      DResult.ok es (MAP_DELIMITER :: r) := by
  induction es with
  | nil =>
    intro first fuel r _ _ hf
    cases fuel with
    | zero => omega
    | succ fuel => simp [encodeMapBody, map_entries, dbind, peek_byte, dok]
  | cons e es ih =>
    intro first fuel r hk hv hf
    cases fuel with
    | zero => omega
    | succ fuel =>
      obtain ⟨k, v⟩ := e
      have hkk := hk (k, v) (by simp)
      have hvv := hv (k, v) (by simp)
      have hrest := ih false fuel r
        (fun kv hkv r' => hk kv (List.mem_cons_of_mem _ hkv) r')
        (fun kv hkv r' => hv kv (List.mem_cons_of_mem _ hkv) r')
        (by simp at hf ⊢; omega)
      have hkk2 := hkk (MAP_KEY_DELIMITER :: MAP_VALUE_DELIMITER ::
        (encodeV v ++ (MAP_VALUE_DELIMITER ::
          (encodeMapBody es false ++ MAP_DELIMITER :: r))))
      have hvv2 := hvv (MAP_VALUE_DELIMITER ::
        (encodeMapBody es false ++ MAP_DELIMITER :: r))
      have c1 : ¬ (MAP_KEY_DELIMITER = MAP_DELIMITER) := by decide
      have c2 : ¬ (MAP_VALUE_SEPARATOR = MAP_DELIMITER) := by decide
      cases first with
      | true =>
        have hinput2 : encodeMapBody ((k, v) :: es) true ++ MAP_DELIMITER :: r =
            MAP_KEY_DELIMITER ::
              (encodeV k ++ (MAP_KEY_DELIMITER :: MAP_VALUE_DELIMITER ::
                (encodeV v ++ (MAP_VALUE_DELIMITER ::
                  (encodeMapBody es false ++ MAP_DELIMITER :: r))))) := by
          simp [encodeMapBody]
        rw [hinput2, map_entries]
        simp only [dbind, peek_byte, eat_byte, dok, parse_unsigned_one_cons, hkk2, hvv2,
          hrest, c1, c2, ite_true, ite_false, if_neg, not_false_eq_true, if_false]
      | false =>
        have hinput2 : encodeMapBody ((k, v) :: es) false ++ MAP_DELIMITER :: r =
            MAP_VALUE_SEPARATOR :: MAP_KEY_DELIMITER ::
              (encodeV k ++ (MAP_KEY_DELIMITER :: MAP_VALUE_DELIMITER ::
                (encodeV v ++ (MAP_VALUE_DELIMITER ::
                  (encodeMapBody es false ++ MAP_DELIMITER :: r))))) := by
          simp [encodeMapBody]
        rw [hinput2, map_entries]
        simp only [dbind, peek_byte, eat_byte, dok, parse_unsigned_one_cons, hkk2, hvv2,
          hrest, c1, c2, ite_true, ite_false, if_neg, not_false_eq_true, if_false,
          Bool.false_eq_true]

theorem struct_fields_encode (dV : Sch → Dm Value) (fs : List (List Nat × Sch)) :
    ∀ (es : List (Value × Value)) (first : Bool) (r : List Nat),
    fs.length = es.length →
    (∀ x ∈ List.zip fs es,
      x.2.1 = Value.strV x.1.1 ∧ utf8WellFormed x.1.1 = true ∧
      STRING_DELIMITER ∉ x.1.1 ∧
      (∀ r', dV x.1.2 (encodeV x.2.2 ++ r') = DResult.ok x.2.2 r')) →
    struct_fields dV fs first (encodeMapBody es first ++ MAP_DELIMITER :: r) =
      DResult.ok es (MAP_DELIMITER :: r) := by
  induction fs with
  | nil =>
    intro es first r hlen H
    cases es with
    | nil => simp [struct_fields, encodeMapBody, dok]
    | cons e es => simp at hlen
  | cons f fs ih =>
    intro es first r hlen H
    cases es with
    | nil => simp at hlen
    | cons e es =>
      obtain ⟨name, tv⟩ := f
      obtain ⟨k, v⟩ := e
      obtain ⟨hkey, hut, hnd, hdv⟩ := H ((name, tv), (k, v)) (by rw [List.zip_cons_cons]; simp)
      simp only at hkey
      subst hkey
      have hrest := ih es false r (by simpa using hlen)
        (fun x hx => H x (by rw [List.zip_cons_cons]; exact List.mem_cons_of_mem _ hx))
      have hds := deserialize_str_encode name
        (MAP_KEY_DELIMITER :: MAP_VALUE_DELIMITER ::
          (encodeV v ++ (MAP_VALUE_DELIMITER ::
            (encodeMapBody es false ++ MAP_DELIMITER :: r)))) hut hnd
      have hvv2 := hdv (MAP_VALUE_DELIMITER ::
        (encodeMapBody es false ++ MAP_DELIMITER :: r))
      have c1 : ¬ (MAP_KEY_DELIMITER = MAP_DELIMITER) := by decide
      have c2 : ¬ (MAP_VALUE_SEPARATOR = MAP_DELIMITER) := by decide
      cases first with
      | true =>
        have hinput2 : encodeMapBody ((Value.strV name, v) :: es) true ++ MAP_DELIMITER :: r =
            MAP_KEY_DELIMITER ::
              (encodeV (Value.strV name) ++ (MAP_KEY_DELIMITER :: MAP_VALUE_DELIMITER ::
                (encodeV v ++ (MAP_VALUE_DELIMITER ::
                  (encodeMapBody es false ++ MAP_DELIMITER :: r))))) := by
          simp [encodeMapBody]
        rw [hinput2, struct_fields]
        simp only [dbind, peek_byte, eat_byte, dok, parse_unsigned_one_cons, hds, hvv2,
          hrest, c1, c2, keyBytes, ite_true, ite_false, if_neg, not_false_eq_true, if_false]
      | false =>
        have hinput2 : encodeMapBody ((Value.strV name, v) :: es) false ++ MAP_DELIMITER :: r =
            MAP_VALUE_SEPARATOR :: MAP_KEY_DELIMITER ::
              (encodeV (Value.strV name) ++ (MAP_KEY_DELIMITER :: MAP_VALUE_DELIMITER ::
                (encodeV v ++ (MAP_VALUE_DELIMITER ::
                  (encodeMapBody es false ++ MAP_DELIMITER :: r))))) := by
          simp [encodeMapBody]
        rw [hinput2, struct_fields]
        simp only [dbind, peek_byte, eat_byte, dok, parse_unsigned_one_cons, hds, hvv2,
          hrest, c1, c2, keyBytes, ite_true, ite_false, if_neg, not_false_eq_true, if_false,
          Bool.false_eq_true]

theorem decode_encode_good : ∀ (N : Nat) (t : Sch) (v : Value), sizeV v ≤ N →
    good t v = true → ∀ (fuel : Nat) (r : List Nat), sizeV v < fuel →
    decodeV fuel t (encodeV v ++ r) = DResult.ok v r := by
  intro N
  induction N with
  | zero =>
    intro t v hle _ fuel r _
    have := sizeV_pos v
    omega
  | succ N ih =>
    intro t v hle hg fuel r hf
    cases fuel with
    | zero =>
      have := sizeV_pos v
      omega
    | succ fuel =>
    cases v with
    | boolV b =>
      cases t <;> simp [good] at hg
      simp only [decodeV]
      rw [dbind_ok (parse_bool_encode b r)]
      rfl
    | unsV w' n =>
      cases t <;> simp [good] at hg
      rename_i w
      have hww : w = w' := by tauto
      have hor : w = 1 ∨ w = 2 ∨ w = 4 ∨ w = 8 := by tauto
      have hlt : n < 2 ^ (8 * w) := by tauto
      subst hww
      have h256 : n < 256 ^ w := by
        have hp : (256 : Nat) ^ w = 2 ^ (8 * w) := by
          rw [show (256 : Nat) = 2 ^ 8 by norm_num, ← pow_mul]
        omega
      simp only [decodeV, encodeV]
      rw [dbind_ok (parse_unsigned_le w n r hor h256)]
      rfl
    | sgnV w' z =>
      cases t <;> simp [good] at hg
      rename_i w
      have hww : w = w' := by tauto
      have hor : w = 1 ∨ w = 2 ∨ w = 4 ∨ w = 8 := by tauto
      have hlo : -(2 ^ (8 * w - 1) : Int) ≤ z := by tauto
      have hhi : z < (2 ^ (8 * w - 1) : Int) := by tauto
      subst hww
      simp only [decodeV, encodeV]
      rw [dbind_ok (parse_signed_le w z r hor hlo hhi)]
      rfl
    | f32V n =>
      cases t <;> simp [good] at hg
      simp only [decodeV, encodeV]
      rw [dbind_ok (parse_f32_le n r hg)]
      rfl
    | f64V n =>
      cases t <;> simp [good] at hg
      simp only [decodeV, encodeV]
      rw [dbind_ok (parse_f64_le n r hg)]
      rfl
    | charV n =>
      cases t <;> simp [good] at hg
      simp only [decodeV, encodeV]
      rw [dbind_ok (parse_char_le n r hg)]
      rfl
    | strV p =>
      cases t <;> simp [good] at hg
      obtain ⟨hut, hnd⟩ := hg
      have hnd' : STRING_DELIMITER ∉ p := by simpa using hnd
      simp only [decodeV]
      exact deserialize_str_encode p r hut hnd'
    | bytesV p => cases t <;> simp [good] at hg
    | unitV =>
      cases t <;> simp [good] at hg
      simp only [decodeV]
      exact deserialize_unit_encode r
    | noneV =>
      cases t <;> simp [good] at hg
      simp only [decodeV, encodeV]
      simp [deserialize_option, dbind, peek_byte, eat_byte, dok]
    | someV v' =>
      cases t <;> simp [good] at hg
      rename_i t'
      obtain ⟨hg', hhd⟩ := hg
      have hsz : sizeV v' ≤ N := by
        simp [sizeV] at hle
        omega
      have hne := good_ne_nil N t' v' hsz hg'
      obtain ⟨b, tail, hb⟩ := List.exists_cons_of_ne_nil hne
      have hbne : b ≠ UNIT := by
        rw [hb] at hhd
        simpa using hhd
      have hin := ih t' v' hsz hg' fuel r (by simp [sizeV] at hf; omega)
      have henc : encodeV (Value.someV v') = encodeV v' := by simp [encodeV]
      have hb2 : encodeV v' ++ r = b :: (tail ++ r) := by
        rw [hb]
        simp
      simp only [decodeV, deserialize_option]
      rw [henc, hb2]
      rw [dbind_ok (peek_byte_cons b _)]
      rw [if_neg hbne]
      rw [← hb2]
      rw [dbind_ok hin]
      rfl
    | seqV vs =>
      cases t <;> simp [good] at hg
      rename_i t'
      obtain ⟨hgl, hhd⟩ := hg
      have hsize : 2 + sizeVList vs ≤ N + 1 := by
        simpa [sizeV] using hle
      have hfuel : 2 + sizeVList vs < fuel + 1 := by
        simpa [sizeV] using hf
      have Hrt : ∀ u ∈ vs, ∀ r', decodeV fuel t' (encodeV u ++ r') = DResult.ok u r' := by
        intro u hu r'
        have hgu := goodList_mem hgl hu
        have hmem := sizeVList_mem hu
        exact ih t' u (by omega) hgu fuel r' (by omega)
      have Hne : ∀ u ∈ vs, encodeV u ≠ [] := by
        intro u hu
        have hgu := goodList_mem hgl hu
        have hmem := sizeVList_mem hu
        exact good_ne_nil N t' u (by omega) hgu
      have hlen := length_le_sizeVList vs
      have hloop := seq_elements_encode (decodeV fuel t') vs true fuel r Hrt Hne
        (fun _ => hhd) (by omega)
      have henc : encodeV (Value.seqV vs) ++ r =
          SEQ_DELIMITER :: (encodeSeqBody vs true ++ SEQ_DELIMITER :: r) := by
        simp [encodeV]
      have hvisit : (dbind (seq_elements (decodeV fuel t') fuel true)
          (fun ws => dok (Value.seqV ws)))
            (encodeSeqBody vs true ++ SEQ_DELIMITER :: r) =
          DResult.ok (Value.seqV vs) (SEQ_DELIMITER :: r) := by
        rw [dbind_ok hloop]
        rfl
      simp only [decodeV, deserialize_frame]
      rw [henc]
      rw [dbind_ok (parse_unsigned_one_cons _ _)]
      rw [if_pos rfl]
      rw [dbind_ok hvisit]
      rw [dbind_ok (parse_unsigned_one_cons _ _)]
      rw [if_pos rfl]
      rfl
    | mapV es =>
      cases t <;> simp [good] at hg
      rename_i tk tv
      have hsize : 2 + sizeVPairs es ≤ N + 1 := by
        simpa [sizeV] using hle
      have hfuel : 2 + sizeVPairs es < fuel + 1 := by
        simpa [sizeV] using hf
      have Hk : ∀ kv ∈ es, ∀ r', decodeV fuel tk (encodeV kv.1 ++ r') = DResult.ok kv.1 r' := by
        intro kv hkv r'
        obtain ⟨k, v⟩ := kv
        obtain ⟨hgk, -⟩ := goodPairs_mem hg hkv
        have hmem := sizeVPairs_mem hkv
        exact ih tk k (by omega) hgk fuel r' (by omega)
      have Hv : ∀ kv ∈ es, ∀ r', decodeV fuel tv (encodeV kv.2 ++ r') = DResult.ok kv.2 r' := by
        intro kv hkv r'
        obtain ⟨k, v⟩ := kv
        obtain ⟨-, hgv⟩ := goodPairs_mem hg hkv
        have hmem := sizeVPairs_mem hkv
        exact ih tv v (by omega) hgv fuel r' (by omega)
      have hlen := length_le_sizeVPairs es
      have hloop := map_entries_encode (decodeV fuel tk) (decodeV fuel tv) es true fuel r
        Hk Hv (by omega)
      have henc : encodeV (Value.mapV es) ++ r =
          MAP_DELIMITER :: (encodeMapBody es true ++ MAP_DELIMITER :: r) := by
        simp [encodeV]
      have hvisit : (dbind (map_entries (decodeV fuel tk) (decodeV fuel tv) fuel true)
          (fun ws => dok (Value.mapV ws)))
            (encodeMapBody es true ++ MAP_DELIMITER :: r) =
          DResult.ok (Value.mapV es) (MAP_DELIMITER :: r) := by
        rw [dbind_ok hloop]
        rfl
      simp only [decodeV, deserialize_frame]
      rw [henc]
      rw [dbind_ok (parse_unsigned_one_cons _ _)]
      rw [if_pos rfl]
      rw [dbind_ok hvisit]
      rw [dbind_ok (parse_unsigned_one_cons _ _)]
      rw [if_pos rfl]
      rfl
    | enumV idx p =>
      cases t <;> simp [good] at hg
      rename_i vars
      obtain ⟨hidx, hgv⟩ := hg
      have henc : encodeV (Value.enumV idx p) ++ r =
          ENUM_DELIMITER :: (leBytes 4 idx ++ (encodePayload p ++ r)) := by
        simp [encodeV]
      have hidx256 : idx < 256 ^ 4 := by
        norm_num
        omega
      simp only [decodeV]
      rw [henc]
      rw [dbind_ok (parse_unsigned_one_cons _ _)]
      rw [if_pos rfl]
      rw [dbind_ok (parse_unsigned_le 4 idx (encodePayload p ++ r) (by norm_num) hidx256)]
      cases hv : vars[idx]? with
      | none =>
        rw [hv] at hgv
        simp [goodVariant] at hgv
      | some var =>
        rw [hv] at hgv
        cases var with
        | vUnit =>
          cases p with
          | some v' => simp [goodVariant] at hgv
          | none =>
            simp [deserialize_variant, encodePayload, dok]
        | vNewtype t' =>
          cases p with
          | none => simp [goodVariant] at hgv
          | some v' =>
            simp only [goodVariant] at hgv
            have hsz : sizeV v' ≤ N := by
              simp [sizeV, sizeVPayload] at hle
              omega
            have hin := ih t' v' hsz hgv fuel r
              (by simp [sizeV, sizeVPayload] at hf; omega)
            simp only [deserialize_variant, encodePayload]
            rw [dbind_ok hin]
            rfl
        | vTuple ts =>
          cases p with
          | none => simp [goodVariant] at hgv
          | some pv =>
            cases pv <;> simp [goodVariant] at hgv
            rename_i vs
            obtain ⟨hgt, hhd⟩ := hgv
            have hsize : 4 + sizeVList vs ≤ N + 1 := by
              simp [sizeV, sizeVPayload] at hle
              omega
            have hfuel : 4 + sizeVList vs < fuel + 1 := by
              simp [sizeV, sizeVPayload] at hf
              omega
            have H : ∀ x ∈ List.zip ts vs,
                (∀ r', decodeV fuel x.1 (encodeV x.2 ++ r') = DResult.ok x.2 r') ∧
                encodeV x.2 ≠ [] := by
              intro x hx
              have hgx := goodTuple_zip hgt hx
              have hmemv : x.2 ∈ vs := (List.of_mem_zip hx).2
              have hmem := sizeVList_mem hmemv
              refine ⟨fun r' => ih x.1 x.2 (by omega) hgx fuel r' (by omega), ?_⟩
              exact good_ne_nil N x.1 x.2 (by omega) hgx
            have hloop := tuple_elements_encode (decodeV fuel) ts vs true r
              (goodTuple_length hgt) H (fun _ => hhd)
            have henc2 : encodePayload (some (Value.seqV vs)) ++ r =
                SEQ_DELIMITER :: (encodeSeqBody vs true ++ SEQ_DELIMITER :: r) := by
              simp [encodePayload, encodeV]
            have hframe : deserialize_frame SEQ_DELIMITER Error.ExpectedSeqDelimiter
                (tuple_elements (decodeV fuel) ts true)
                (SEQ_DELIMITER :: (encodeSeqBody vs true ++ SEQ_DELIMITER :: r)) =
                DResult.ok vs r := by
              simp only [deserialize_frame]
              rw [dbind_ok (parse_unsigned_one_cons _ _)]
              rw [if_pos rfl]
              rw [dbind_ok hloop]
              rw [dbind_ok (parse_unsigned_one_cons _ _)]
              rw [if_pos rfl]
              rfl
            simp only [deserialize_variant]
            rw [henc2]
            rw [dbind_ok hframe]
            rfl
        | vStruct fs =>
          cases p with
          | none => simp [goodVariant] at hgv
          | some pv =>
            cases pv <;> simp [goodVariant] at hgv
            rename_i es
            have hsize : 4 + sizeVPairs es ≤ N + 1 := by
              simp [sizeV, sizeVPayload] at hle
              omega
            have hfuel : 4 + sizeVPairs es < fuel + 1 := by
              simp [sizeV, sizeVPayload] at hf
              omega
            have H : ∀ x ∈ List.zip fs es,
                x.2.1 = Value.strV x.1.1 ∧ utf8WellFormed x.1.1 = true ∧
                STRING_DELIMITER ∉ x.1.1 ∧
                (∀ r', decodeV fuel x.1.2 (encodeV x.2.2 ++ r') = DResult.ok x.2.2 r') := by
              intro x hx
              obtain ⟨hk, hut, hnd, hgx⟩ := goodFields_zip hgv hx
              have hmemv : x.2 ∈ es := (List.of_mem_zip hx).2
              have hmem : sizeV x.2.2 ≤ sizeVPairs es := by
                have hp : (x.2.1, x.2.2) ∈ es := by simpa using hmemv
                exact (sizeVPairs_mem hp).2
              exact ⟨hk, hut, hnd,
                fun r' => ih x.1.2 x.2.2 (by omega) hgx fuel r' (by omega)⟩
            have hloop := struct_fields_encode (decodeV fuel) fs es true r
              (goodFields_length hgv) H
            have henc2 : encodePayload (some (Value.mapV es)) ++ r =
                MAP_DELIMITER :: (encodeMapBody es true ++ MAP_DELIMITER :: r) := by
              simp [encodePayload, encodeV]
            have hframe : deserialize_frame MAP_DELIMITER Error.ExpectedMapDelimiter
                (struct_fields (decodeV fuel) fs true)
                (MAP_DELIMITER :: (encodeMapBody es true ++ MAP_DELIMITER :: r)) =
                DResult.ok es r := by
              simp only [deserialize_frame]
              rw [dbind_ok (parse_unsigned_one_cons _ _)]
              rw [if_pos rfl]
              rw [dbind_ok hloop]
              rw [dbind_ok (parse_unsigned_one_cons _ _)]
              rw [if_pos rfl]
              rfl
            simp only [deserialize_variant]
            rw [henc2]
            rw [dbind_ok hframe]
            rfl

/-! Cursor monotonicity: every operation leaves a suffix of its input. -/

theorem suff_refl (s : List Nat) : Suff s s := ⟨[], rfl⟩

theorem suff_trans {a b c : List Nat} (h1 : Suff a b) (h2 : Suff b c) : Suff a c := by
  obtain ⟨x, hx⟩ := h1
  obtain ⟨y, hy⟩ := h2
  exact ⟨y ++ x, by rw [List.append_assoc, hx, hy]⟩

theorem suff_drop (n : Nat) (s : List Nat) : Suff (s.drop n) s :=
  ⟨s.take n, List.take_append_drop n s⟩

theorem suff_nil (s : List Nat) : Suff [] s := ⟨s, by simp⟩

theorem suff_tail (b : Nat) (s : List Nat) : Suff s (b :: s) := ⟨[b], rfl⟩

theorem mono_dok {α : Type} (a : α) : Mono (dok a) := by
  intro s s' h
  simp [dok, resultState] at h
  rw [← h]
  exact suff_refl s

theorem mono_derr {α : Type} (e : Error) : Mono (derr e : Dm α) := by
  intro s s' h
  simp [derr, resultState] at h
  rw [← h]
  exact suff_refl s

theorem mono_dbind {α β : Type} {m : Dm α} {f : α → Dm β}
    (hm : Mono m) (hf : ∀ a, Mono (f a)) : Mono (dbind m f) := by
  intro s s' h
  rw [dbind_apply] at h
  cases hres : m s with
  | ok a s1 =>
    rw [hres] at h
    have h1 : Suff s1 s := hm s s1 (by rw [hres]; rfl)
    exact suff_trans (hf a s1 s' h) h1
  | err e s1 =>
    rw [hres] at h
    simp [resultState] at h
    rw [← h]
    exact hm s s1 (by rw [hres]; rfl)
  | fatal =>
    rw [hres] at h
    simp [resultState] at h

theorem mono_peek_byte : Mono peek_byte := by
  intro s s' h
  cases s <;> simp [peek_byte, resultState] at h <;> rw [← h] <;> exact suff_refl _

theorem mono_eat_byte : Mono eat_byte := by
  intro s s' h
  cases s with
  | nil =>
    simp [eat_byte, resultState] at h
    rw [← h]
    exact suff_refl _
  | cons b rest =>
    simp [eat_byte, resultState] at h
    rw [← h]
    exact suff_tail b rest

theorem mono_eat_bytes (n : Nat) : Mono (eat_bytes n) := by
  intro s s' h
  simp only [eat_bytes] at h
  by_cases hn : n ≤ s.length
  · rw [if_pos hn] at h
    simp [resultState] at h
    rw [← h]
    exact suff_drop n s
  · rw [if_neg hn] at h
    simp [resultState] at h

theorem mono_parse_unsigned (w : Nat) : Mono (parse_unsigned w) := by
  intro s s' h
  simp only [parse_unsigned] at h
  by_cases hlen : s.length < w
  · rw [if_pos hlen] at h
    simp [resultState] at h
    rw [← h]
    exact suff_refl s
  · rw [if_neg hlen] at h
    match w with
    | 1 => exact mono_dbind mono_eat_byte (fun b => mono_dok b) s s' h
    | 2 => exact mono_dbind (mono_eat_bytes 2) (fun bs => mono_dok (fromLE bs)) s s' h
    | 4 => exact mono_dbind (mono_eat_bytes 4) (fun bs => mono_dok (fromLE bs)) s s' h
    | 8 => exact mono_dbind (mono_eat_bytes 8) (fun bs => mono_dok (fromLE bs)) s s' h
    | 0 => simp [resultState] at h; rw [← h]; exact suff_refl _
    | 3 => simp [resultState] at h; rw [← h]; exact suff_refl _
    | 5 => simp [resultState] at h; rw [← h]; exact suff_refl _
    | 6 => simp [resultState] at h; rw [← h]; exact suff_refl _
    | 7 => simp [resultState] at h; rw [← h]; exact suff_refl _
    | (n + 9) => simp [resultState] at h; rw [← h]; exact suff_refl _

theorem mono_parse_signed (w : Nat) : Mono (parse_signed w) := by
  intro s s' h
  simp only [parse_signed] at h
  by_cases hlen : s.length < w
  · rw [if_pos hlen] at h
    simp [resultState] at h
    rw [← h]
    exact suff_refl s
  · rw [if_neg hlen] at h
    match w with
    | 1 => exact mono_dbind mono_eat_byte (fun b => mono_dok _) s s' h
    | 2 => exact mono_dbind (mono_eat_bytes 2) (fun bs => mono_dok _) s s' h
    | 4 => exact mono_dbind (mono_eat_bytes 4) (fun bs => mono_dok _) s s' h
    | 8 => exact mono_dbind (mono_eat_bytes 8) (fun bs => mono_dok _) s s' h
    | 0 => simp [resultState] at h; rw [← h]; exact suff_refl _
    | 3 => simp [resultState] at h; rw [← h]; exact suff_refl _
    | 5 => simp [resultState] at h; rw [← h]; exact suff_refl _
    | 6 => simp [resultState] at h; rw [← h]; exact suff_refl _
    | 7 => simp [resultState] at h; rw [← h]; exact suff_refl _
    | (n + 9) => simp [resultState] at h; rw [← h]; exact suff_refl _

theorem mono_parse_bool : Mono parse_bool :=
  mono_dbind mono_eat_byte (fun b => mono_dok _)

theorem mono_parse_f32 : Mono parse_f32 :=
  mono_dbind (mono_eat_bytes 4) (fun bs => mono_dok _)

theorem mono_parse_f64 : Mono parse_f64 :=
  mono_dbind (mono_eat_bytes 8) (fun bs => mono_dok _)

theorem mono_parse_char : Mono parse_char := by
  apply mono_dbind (mono_parse_unsigned 4)
  intro n s s' h
  simp only [] at h
  by_cases hv : validScalar n
  · rw [if_pos hv] at h
    simp [resultState] at h
    rw [← h]
    exact suff_refl s
  · rw [if_neg hv] at h
    simp [resultState] at h

theorem mono_parse_str_loop : Mono parse_str_loop := by
  intro s
  induction s with
  | nil =>
    intro s' h
    simp [parse_str_loop, resultState] at h
    rw [← h]
    exact suff_refl _
  | cons b rest ih =>
    intro s' h
    simp only [parse_str_loop] at h
    by_cases hb : b = STRING_DELIMITER
    · rw [if_pos hb] at h
      simp [resultState] at h
      rw [← h]
      exact suff_tail b rest
    · rw [if_neg hb] at h
      cases hres : parse_str_loop rest with
      | ok bs s1 =>
        rw [hres] at h
        simp [resultState] at h
        rw [← h]
        exact suff_trans (ih s1 (by rw [hres]; rfl)) (suff_tail b rest)
      | err e s1 =>
        rw [hres] at h
        simp [resultState] at h
        rw [← h]
        exact suff_trans (ih s1 (by rw [hres]; rfl)) (suff_tail b rest)
      | fatal =>
        rw [hres] at h
        simp [resultState] at h

theorem mono_parse_bytes : Mono parse_bytes := by
  intro s
  induction s with
  | nil =>
    intro s' h
    simp [parse_bytes, resultState] at h
    rw [← h]
    exact suff_refl _
  | cons b rest ih =>
    intro s' h
    simp only [parse_bytes] at h
    by_cases hb : b = STRING_DELIMITER
    · rw [if_pos hb] at h
      simp [resultState] at h
      rw [← h]
      exact suff_tail b rest
    · rw [if_neg hb] at h
      cases hres : parse_bytes rest with
      | ok bs s1 =>
        rw [hres] at h
        simp [resultState] at h
        rw [← h]
        exact suff_trans (ih s1 (by rw [hres]; rfl)) (suff_tail b rest)
      | err e s1 =>
        rw [hres] at h
        simp [resultState] at h
        rw [← h]
        exact suff_trans (ih s1 (by rw [hres]; rfl)) (suff_tail b rest)
      | fatal =>
        rw [hres] at h
        simp [resultState] at h

theorem mono_parse_str : Mono parse_str := by
  apply mono_dbind mono_parse_str_loop
  intro bs s s' h
  by_cases hu : utf8WellFormed bs
  · simp only [if_pos hu] at h
    exact mono_dok bs s s' h
  · simp only [if_neg hu] at h
    exact mono_derr Error.ConversionError s s' h

theorem mono_deserialize_str : Mono deserialize_str := by
  apply mono_dbind (mono_parse_unsigned 1)
  intro b
  by_cases hb : b = STRING_DELIMITER
  · simp only [deserialize_str, if_pos hb]
    exact mono_dbind mono_parse_str (fun bs => mono_dok _)
  · simp only [deserialize_str, if_neg hb]
    exact mono_derr _

theorem mono_deserialize_bytes : Mono deserialize_bytes := by
  apply mono_dbind (mono_parse_unsigned 1)
  intro b
  by_cases hb : b = BYTE_DELIMITER
  · simp only [deserialize_bytes, if_pos hb]
    intro s s' h
    cases hres : parse_bytes s with
    | ok bs s1 =>
      simp [hres, resultState] at h
      subst h
      exact mono_parse_bytes s _ (by rw [hres]; rfl)
    | err e s1 =>
      simp [hres, resultState] at h
      subst h
      exact mono_parse_bytes s _ (by rw [hres]; rfl)
    | fatal =>
      simp [hres, resultState] at h
  · simp only [deserialize_bytes, if_neg hb]
    exact mono_derr _

theorem mono_deserialize_unit : Mono deserialize_unit := by
  apply mono_dbind (mono_parse_unsigned 1)
  intro b
  by_cases hb : b = UNIT
  · simp only [deserialize_unit, if_pos hb]
    exact mono_dok _
  · simp only [deserialize_unit, if_neg hb]
    exact mono_derr _

theorem mono_deserialize_option {d : Dm Value} (hd : Mono d) :
    Mono (deserialize_option d) := by
  apply mono_dbind mono_peek_byte
  intro b
  by_cases hb : b = UNIT
  · simp only [deserialize_option, if_pos hb]
    exact mono_dbind mono_eat_byte (fun _ => mono_dok _)
  · simp only [deserialize_option, if_neg hb]
    exact mono_dbind hd (fun v => mono_dok _)

theorem mono_deserialize_frame {α : Type} {delim : Nat} {e : Error} {visit : Dm α}
    (hv : Mono visit) : Mono (deserialize_frame delim e visit) := by
  apply mono_dbind (mono_parse_unsigned 1)
  intro b
  by_cases hb : b = delim
  · simp only [deserialize_frame, if_pos hb]
    apply mono_dbind hv
    intro a
    apply mono_dbind (mono_parse_unsigned 1)
    intro c
    by_cases hc : c = delim
    · simp only [if_pos hc]
      exact mono_dok _
    · simp only [if_neg hc]
      exact mono_derr _
  · simp only [deserialize_frame, if_neg hb]
    exact mono_derr _

theorem mono_seq_elements {d : Dm Value} (hd : Mono d) :
    ∀ (fuel : Nat) (first : Bool), Mono (seq_elements d fuel first) := by
  intro fuel
  induction fuel with
  | zero => intro first; exact mono_derr _
  | succ fuel ih =>
    intro first
    apply mono_dbind mono_peek_byte
    intro b
    by_cases hb : b = SEQ_DELIMITER
    · simp only [seq_elements, if_pos hb]
      exact mono_dok _
    · simp only [seq_elements, if_neg hb]
      apply mono_dbind
      · cases first with
        | true => simp only [ite_true]; exact mono_dok _
        | false =>
          simp only [Bool.false_eq_true, ite_false]
          apply mono_dbind mono_eat_byte
          intro c
          by_cases hc : c = SEQ_VALUE_DELIMITER
          · simp only [if_pos hc]; exact mono_dok _
          · simp only [if_neg hc]; exact mono_derr _
      · intro _
        exact mono_dbind hd (fun v => mono_dbind (ih false) (fun vs => mono_dok _))

theorem mono_tuple_elements {dV : Sch → Dm Value} (hd : ∀ t, Mono (dV t)) :
    ∀ (ts : List Sch) (first : Bool), Mono (tuple_elements dV ts first) := by
  intro ts
  induction ts with
  | nil => intro first; exact mono_dok _
  | cons t ts ih =>
    intro first
    apply mono_dbind mono_peek_byte
    intro b
    by_cases hb : b = SEQ_DELIMITER
    · simp only [tuple_elements, if_pos hb]
      exact mono_derr _
    · simp only [tuple_elements, if_neg hb]
      apply mono_dbind
      · cases first with
        | true => simp only [ite_true]; exact mono_dok _
        | false =>
          simp only [Bool.false_eq_true, ite_false]
          apply mono_dbind mono_eat_byte
          intro c
          by_cases hc : c = SEQ_VALUE_DELIMITER
          · simp only [if_pos hc]; exact mono_dok _
          · simp only [if_neg hc]; exact mono_derr _
      · intro _
        exact mono_dbind (hd t) (fun v => mono_dbind (ih false) (fun vs => mono_dok _))

theorem mono_map_entries {dk dv : Dm Value} (hk : Mono dk) (hv : Mono dv) :
    ∀ (fuel : Nat) (first : Bool), Mono (map_entries dk dv fuel first) := by
  intro fuel
  induction fuel with
  | zero => intro first; exact mono_derr _
  | succ fuel ih =>
    intro first
    apply mono_dbind mono_peek_byte
    intro b
    by_cases hb : b = MAP_DELIMITER
    · simp only [map_entries, if_pos hb]
      exact mono_dok _
    · simp only [map_entries, if_neg hb]
      apply mono_dbind
      · cases first with
        | true => simp only [ite_true]; exact mono_dok _
        | false =>
          simp only [Bool.false_eq_true, ite_false]
          apply mono_dbind mono_eat_byte
          intro c
          by_cases hc : c = MAP_VALUE_SEPARATOR
          · simp only [if_pos hc]; exact mono_dok _
          · simp only [if_neg hc]; exact mono_derr _
      · intro _
        apply mono_dbind (mono_parse_unsigned 1)
        intro c
        by_cases hc : c = MAP_KEY_DELIMITER
        · simp only [if_pos hc]
          apply mono_dbind hk
          intro k
          apply mono_dbind (mono_parse_unsigned 1)
          intro c2
          by_cases hc2 : c2 = MAP_KEY_DELIMITER
          · simp only [if_pos hc2]
            apply mono_dbind mono_eat_byte
            intro c3
            by_cases hc3 : c3 = MAP_VALUE_DELIMITER
            · simp only [if_pos hc3]
              apply mono_dbind hv
              intro v
              apply mono_dbind mono_eat_byte
              intro c4
              by_cases hc4 : c4 = MAP_VALUE_DELIMITER
              · simp only [if_pos hc4]
                exact mono_dbind (ih false) (fun es => mono_dok _)
              · simp only [if_neg hc4]; exact mono_derr _
            · simp only [if_neg hc3]; exact mono_derr _
          · simp only [if_neg hc2]; exact mono_derr _
        · simp only [if_neg hc]; exact mono_derr _

theorem mono_struct_fields {dV : Sch → Dm Value} (hd : ∀ t, Mono (dV t)) :
    ∀ (fs : List (List Nat × Sch)) (first : Bool), Mono (struct_fields dV fs first) := by
  intro fs
  induction fs with
  | nil => intro first; exact mono_dok _
  | cons f fs ih =>
    obtain ⟨name, tv⟩ := f
    intro first
    apply mono_dbind mono_peek_byte
    intro b
    by_cases hb : b = MAP_DELIMITER
    · simp only [struct_fields, if_pos hb]
      exact mono_derr _
    · simp only [struct_fields, if_neg hb]
      apply mono_dbind
      · cases first with
        | true => simp only [ite_true]; exact mono_dok _
        | false =>
          simp only [Bool.false_eq_true, ite_false]
          apply mono_dbind mono_eat_byte
          intro c
          by_cases hc : c = MAP_VALUE_SEPARATOR
          · simp only [if_pos hc]; exact mono_dok _
          · simp only [if_neg hc]; exact mono_derr _
      · intro _
        apply mono_dbind (mono_parse_unsigned 1)
        intro c
        by_cases hc : c = MAP_KEY_DELIMITER
        · simp only [if_pos hc]
          apply mono_dbind mono_deserialize_str
          intro k
          by_cases hk : keyBytes k = name
          · simp only [if_pos hk]
            apply mono_dbind (mono_parse_unsigned 1)
            intro c2
            by_cases hc2 : c2 = MAP_KEY_DELIMITER
            · simp only [if_pos hc2]
              apply mono_dbind mono_eat_byte
              intro c3
              by_cases hc3 : c3 = MAP_VALUE_DELIMITER
              · simp only [if_pos hc3]
                apply mono_dbind (hd tv)
                intro v
                apply mono_dbind mono_eat_byte
                intro c4
                by_cases hc4 : c4 = MAP_VALUE_DELIMITER
                · simp only [if_pos hc4]
                  exact mono_dbind (ih false) (fun es => mono_dok _)
                · simp only [if_neg hc4]; exact mono_derr _
              · simp only [if_neg hc3]; exact mono_derr _
            · simp only [if_neg hc2]; exact mono_derr _
          · simp only [if_neg hk]; exact mono_derr _
        · simp only [if_neg hc]; exact mono_derr _

theorem mono_deserialize_variant {dV : Sch → Dm Value} (hd : ∀ t, Mono (dV t))
    (idx : Nat) : ∀ (ov : Option Var), Mono (deserialize_variant dV idx ov) := by
  intro ov
  cases ov with
  | none => exact mono_derr _
  | some var =>
    cases var with
    | vUnit => exact mono_dok _
    | vNewtype t' =>
      exact mono_dbind (hd t') (fun v => mono_dok _)
    | vTuple ts =>
      exact mono_dbind (mono_deserialize_frame (mono_tuple_elements hd ts true))
        (fun vs => mono_dok _)
    | vStruct fs =>
      exact mono_dbind (mono_deserialize_frame (mono_struct_fields hd fs true))
        (fun es => mono_dok _)

theorem mono_decodeV : ∀ (fuel : Nat) (t : Sch), Mono (decodeV fuel t) := by
  intro fuel
  induction fuel with
  | zero => intro t; exact mono_derr _
  | succ fuel ih =>
    intro t
    cases t with
    | bool => exact mono_dbind mono_parse_bool (fun b => mono_dok _)
    | uns w => exact mono_dbind (mono_parse_unsigned w) (fun n => mono_dok _)
    | sgn w => exact mono_dbind (mono_parse_signed w) (fun z => mono_dok _)
    | f32 => exact mono_dbind mono_parse_f32 (fun n => mono_dok _)
    | f64 => exact mono_dbind mono_parse_f64 (fun n => mono_dok _)
    | char => exact mono_dbind mono_parse_char (fun n => mono_dok _)
    | str => exact mono_deserialize_str
    | bytes => exact mono_deserialize_bytes
    | unit => exact mono_deserialize_unit
    | option t' => exact mono_deserialize_option (ih t')
    | seq t' =>
      exact mono_deserialize_frame
        (mono_dbind (mono_seq_elements (ih t') fuel true) (fun vs => mono_dok _))
    | map tk tv =>
      exact mono_deserialize_frame
        (mono_dbind (mono_map_entries (ih tk) (ih tv) fuel true) (fun es => mono_dok _))
    | enum vars =>
      apply mono_dbind (mono_parse_unsigned 1)
      intro b
      by_cases hb : b = ENUM_DELIMITER
      · simp only [if_pos hb]
        apply mono_dbind (mono_parse_unsigned 4)
        intro idx
        exact mono_deserialize_variant ih idx _
      · simp only [if_neg hb]
        exact mono_derr _

/-! Truncation: decoding a proper prefix of a well-formed encoding. -/

theorem pref_nil (b : List Nat) : Pref [] b := ⟨b, rfl⟩

theorem pref_length {p b : List Nat} (h : Pref p b) : p.length ≤ b.length := by
  obtain ⟨c, hc⟩ := h
  rw [← hc]
  simp

theorem pref_proper_length {p b : List Nat} (h : Pref p b) (hne : p ≠ b) :
    p.length < b.length := by
  obtain ⟨c, hc⟩ := h
  cases c with
  | nil => simp at hc; exact absurd hc hne
  | cons x xs =>
    rw [← hc]
    simp

theorem pref_append_cases {q x y : List Nat} (h : Pref q (x ++ y)) :
    Pref q x ∨ ∃ q', q = x ++ q' ∧ Pref q' y := by
  induction x generalizing q with
  | nil =>
    right
    exact ⟨q, by simp, by simpa using h⟩
  | cons b x ih =>
    cases q with
    | nil => left; exact pref_nil _
    | cons c q =>
      obtain ⟨d, hd⟩ := h
      simp at hd
      obtain ⟨hcb, hrest⟩ := hd
      subst hcb
      rcases ih ⟨d, hrest⟩ with hq | ⟨q', hq', hp⟩
      · left
        obtain ⟨e, he⟩ := hq
        exact ⟨e, by simp [he]⟩
      · right
        exact ⟨q', by simp [hq'], hp⟩

theorem pref_cons_cases {q : List Nat} {b : Nat} {rest : List Nat}
    (h : Pref q (b :: rest)) :
    q = [] ∨ ∃ q', q = b :: q' ∧ Pref q' rest := by
  cases q with
  | nil => left; rfl
  | cons c q =>
    obtain ⟨d, hd⟩ := h
    simp at hd
    obtain ⟨hcb, hrest⟩ := hd
    subst hcb
    right
    exact ⟨q, rfl, ⟨d, hrest⟩⟩

theorem pref_of_le {q x y : List Nat} (h : Pref q (x ++ y)) (hl : q.length ≤ x.length) :
    Pref q x := by
  rcases pref_append_cases h with hq | ⟨q', hq', hp⟩
  · exact hq
  · subst hq'
    rw [List.length_append] at hl
    have hq0 : q'.length = 0 := by omega
    have hq'nil : q' = [] := List.length_eq_zero.mp hq0
    subst hq'nil
    exact ⟨[], by simp⟩

theorem pref_mem {q x : List Nat} {a : Nat} (h : Pref q x) (ha : a ∈ q) : a ∈ x := by
  obtain ⟨c, hc⟩ := h
  rw [← hc]
  exact List.mem_append_left c ha

theorem pref_nil_right {q : List Nat} (h : Pref q []) : q = [] := by
  obtain ⟨c, hc⟩ := h
  cases q with
  | nil => rfl
  | cons b q => simp at hc

theorem tuple_elements_encode_any (dV : Sch → Dm Value) (ts : List Sch) :
    ∀ (vs : List Value) (first : Bool) (r : List Nat),
    ts.length = vs.length →
    (∀ x ∈ List.zip ts vs,
      (∀ r', dV x.1 (encodeV x.2 ++ r') = DResult.ok x.2 r') ∧
      encodeV x.2 ≠ [] ∧ (encodeV x.2).head? ≠ some SEQ_DELIMITER) →
    tuple_elements dV ts first (encodeSeqBody vs first ++ r) =
      DResult.ok vs r := by
  induction ts with
  | nil =>
    intro vs first r hlen H
    cases vs with
    | nil => simp [tuple_elements, encodeSeqBody, dok]
    | cons v vs => simp at hlen
  | cons t ts ih =>
    intro vs first r hlen H
    cases vs with
    | nil => simp at hlen
    | cons v vs =>
      obtain ⟨hdv, hnil, hhead⟩ := H (t, v) (by rw [List.zip_cons_cons]; simp)
      obtain ⟨b, tail, hb⟩ := List.exists_cons_of_ne_nil hnil
      have hbne : b ≠ SEQ_DELIMITER := by
        rw [hb] at hhead
        simpa using hhead
      have hrest := ih vs false r (by simpa using hlen)
        (fun x hx => H x (by rw [List.zip_cons_cons]; exact List.mem_cons_of_mem _ hx))
      have helem : dV t (b :: (tail ++ (encodeSeqBody vs false ++ r))) =
          DResult.ok v (encodeSeqBody vs false ++ r) := by
        have := hdv (encodeSeqBody vs false ++ r)
        rw [hb] at this
        simpa using this
      have hsvd : ¬ (SEQ_VALUE_DELIMITER = SEQ_DELIMITER) := by decide
      cases first with
      | true =>
        have hinput2 : encodeSeqBody (v :: vs) true ++ r =
            b :: (tail ++ (encodeSeqBody vs false ++ r)) := by
          simp [encodeSeqBody, hb]
        rw [hinput2, tuple_elements]
        simp only [dbind, peek_byte, dok, hbne, helem, hrest, ite_true, ite_false, if_neg,
          not_false_eq_true, if_false]
      | false =>
        have hinput2 : encodeSeqBody (v :: vs) false ++ r =
            SEQ_VALUE_DELIMITER ::
              (b :: (tail ++ (encodeSeqBody vs false ++ r))) := by
          simp [encodeSeqBody, hb]
        rw [hinput2, tuple_elements]
        simp only [dbind, peek_byte, eat_byte, dok, hbne, hsvd, helem, hrest, ite_true,
          ite_false, if_neg, not_false_eq_true, if_false, Bool.false_eq_true]

theorem struct_fields_encode_any (dV : Sch → Dm Value) (fs : List (List Nat × Sch)) :
    ∀ (es : List (Value × Value)) (first : Bool) (r : List Nat),
    fs.length = es.length →
    (∀ x ∈ List.zip fs es,
      x.2.1 = Value.strV x.1.1 ∧ utf8WellFormed x.1.1 = true ∧
      STRING_DELIMITER ∉ x.1.1 ∧
      (∀ r', dV x.1.2 (encodeV x.2.2 ++ r') = DResult.ok x.2.2 r')) →
    struct_fields dV fs first (encodeMapBody es first ++ r) =
      DResult.ok es r := by
  induction fs with
  | nil =>
    intro es first r hlen H
    cases es with
    | nil => simp [struct_fields, encodeMapBody, dok]
    | cons e es => simp at hlen
  | cons f fs ih =>
    intro es first r hlen H
    cases es with
    | nil => simp at hlen
    | cons e es =>
      obtain ⟨name, tv⟩ := f
      obtain ⟨k, v⟩ := e
      obtain ⟨hkey, hut, hnd, hdv⟩ := H ((name, tv), (k, v)) (by rw [List.zip_cons_cons]; simp)
      simp only at hkey
      subst hkey
      have hrest := ih es false r (by simpa using hlen)
        (fun x hx => H x (by rw [List.zip_cons_cons]; exact List.mem_cons_of_mem _ hx))
      have hds := deserialize_str_encode name
        (MAP_KEY_DELIMITER :: MAP_VALUE_DELIMITER ::
          (encodeV v ++ (MAP_VALUE_DELIMITER ::
            (encodeMapBody es false ++ r)))) hut hnd
      have hvv2 := hdv (MAP_VALUE_DELIMITER ::
        (encodeMapBody es false ++ r))
      have c1 : ¬ (MAP_KEY_DELIMITER = MAP_DELIMITER) := by decide
      have c2 : ¬ (MAP_VALUE_SEPARATOR = MAP_DELIMITER) := by decide
      cases first with
      | true =>
        have hinput2 : encodeMapBody ((Value.strV name, v) :: es) true ++ r =
            MAP_KEY_DELIMITER ::
              (encodeV (Value.strV name) ++ (MAP_KEY_DELIMITER :: MAP_VALUE_DELIMITER ::
                (encodeV v ++ (MAP_VALUE_DELIMITER ::
                  (encodeMapBody es false ++ r))))) := by
          simp [encodeMapBody]
        rw [hinput2, struct_fields]
        simp only [dbind, peek_byte, eat_byte, dok, parse_unsigned_one_cons, hds, hvv2,
          hrest, c1, c2, keyBytes, ite_true, ite_false, if_neg, not_false_eq_true, if_false]
      | false =>
        have hinput2 : encodeMapBody ((Value.strV name, v) :: es) false ++ r =
            MAP_VALUE_SEPARATOR :: MAP_KEY_DELIMITER ::
              (encodeV (Value.strV name) ++ (MAP_KEY_DELIMITER :: MAP_VALUE_DELIMITER ::
                (encodeV v ++ (MAP_VALUE_DELIMITER ::
                  (encodeMapBody es false ++ r))))) := by
          simp [encodeMapBody]
        rw [hinput2, struct_fields]
        simp only [dbind, peek_byte, eat_byte, dok, parse_unsigned_one_cons, hds, hvv2,
          hrest, c1, c2, keyBytes, ite_true, ite_false, if_neg, not_false_eq_true, if_false,
          Bool.false_eq_true]

theorem deserialize_str_prefix_err (p0 : List Nat)
    (hnd : STRING_DELIMITER ∉ p0) :
    ∀ (p : List Nat), Pref p (encodeV (Value.strV p0)) → p ≠ encodeV (Value.strV p0) →
    ∃ e s', deserialize_str p = DResult.err e s' ∧ truncErr e = true := by
  intro p hp hne
  have henc : encodeV (Value.strV p0) = STRING_DELIMITER :: (p0 ++ [STRING_DELIMITER]) := by
    simp [encodeV]
  rw [henc] at hp hne
  rcases pref_cons_cases hp with hq | ⟨q, hq, hpq⟩
  · subst hq
    refine ⟨Error.UnexpectedEOF, [], ?_, by decide⟩
    rw [deserialize_str, dbind_err (parse_unsigned_empty (by norm_num))]
  · subst hq
    have hqne : q ≠ p0 ++ [STRING_DELIMITER] := by
      intro hc
      rw [hc] at hne
      exact hne rfl
    have hql : q.length ≤ p0.length := by
      have := pref_proper_length hpq hqne
      simp at this ⊢
      omega
    have hqp : Pref q p0 := pref_of_le (by simpa using hpq) hql
    have hqnd : STRING_DELIMITER ∉ q := fun hc => hnd (pref_mem hqp hc)
    refine ⟨Error.NoByte, [], ?_, by decide⟩
    rw [deserialize_str, dbind_ok (parse_unsigned_one_cons _ _)]
    rw [if_pos rfl, parse_str]
    have h1 : dbind parse_str_loop
        (fun bs => if utf8WellFormed bs = true then dok bs
          else derr Error.ConversionError) q = DResult.err Error.NoByte [] :=
      dbind_err (parse_str_loop_no_delim q hqnd)
    rw [dbind_err h1]

theorem seq_elements_trunc (d : Dm Value) (vs : List Value) :
    ∀ (first : Bool) (q : List Nat) (fuel : Nat),
    (∀ u ∈ vs, ∀ r', d (encodeV u ++ r') = DResult.ok u r') →
    (∀ u ∈ vs, ∀ p, Pref p (encodeV u) → p ≠ encodeV u →
      ∃ e s', d p = DResult.err e s' ∧ truncErr e = true) →
    (∀ u ∈ vs, encodeV u ≠ []) →
    (first = true → headOk vs = true) →
    vs.length < fuel →
    Pref q (encodeSeqBody vs first ++ [SEQ_DELIMITER]) →
    q ≠ encodeSeqBody vs first ++ [SEQ_DELIMITER] →
    ∃ e s', seq_elements d fuel first q = DResult.err e s' ∧ truncErr e = true := by
  induction vs with
  | nil =>
    intro first q fuel _ _ _ _ hfuel hp hne
    cases fuel with
    | zero => omega
    | succ fuel =>
      have hq : q = [] := by
        rcases pref_cons_cases (by simpa [encodeSeqBody] using hp) with hq | ⟨q', hq', hpq'⟩
        · exact hq
        · have := pref_nil_right hpq'
          subst this
          rw [hq'] at hne
          simp [encodeSeqBody] at hne
      subst hq
      refine ⟨Error.NoByte, [], ?_, by decide⟩
      rw [seq_elements, dbind_err peek_byte_nil]
  | cons u vs ih =>
    intro first q fuel Hrt Herr Hne Hhd hfuel hp hne
    cases fuel with
    | zero => omega
    | succ fuel =>
      have hnil := Hne u (by simp)
      obtain ⟨b, tail, hb⟩ := List.exists_cons_of_ne_nil hnil
      have Hrt' := fun w hw => Hrt w (List.mem_cons_of_mem _ hw)
      have Herr' := fun w hw => Herr w (List.mem_cons_of_mem _ hw)
      have Hne' := fun w hw => Hne w (List.mem_cons_of_mem _ hw)
      have Hhd' : false = true → headOk vs = true := fun hc => absurd hc (by decide)
      have hfuel' : vs.length < fuel := by
        simp at hfuel
        omega
      have hsvd : ¬ (SEQ_VALUE_DELIMITER = SEQ_DELIMITER) := by decide
      -- the three possible positions of the cut inside one element step,
      -- shared between the first and later element shapes
      have hstep : ∀ q1, Pref q1 (encodeV u ++ (encodeSeqBody vs false ++ [SEQ_DELIMITER])) →
          q1 ≠ encodeV u ++ (encodeSeqBody vs false ++ [SEQ_DELIMITER]) →
          ∃ e s', (dbind d (fun v =>
            dbind (seq_elements d fuel false) (fun ws => dok (v :: ws)))) q1 =
              DResult.err e s' ∧ truncErr e = true := by
        intro q1 hp1 hne1
        rcases pref_append_cases hp1 with hq | ⟨q', hq', hpq'⟩
        · by_cases hqe : q1 = encodeV u
          · subst hqe
            obtain ⟨e, s', herr, htr⟩ := ih false [] fuel Hrt' Herr' Hne' Hhd' hfuel'
              (pref_nil _) (by simp [encodeSeqBody])
            refine ⟨e, s', ?_, htr⟩
            have hd2 : d (encodeV u) = DResult.ok u [] := by
              have := Hrt u (by simp) []
              simpa using this
            rw [dbind_ok hd2, dbind_err herr]
          · obtain ⟨e, s', herr, htr⟩ := Herr u (by simp) q1 hq hqe
            refine ⟨e, s', ?_, htr⟩
            rw [dbind_err herr]
        · have hq'ne : q' ≠ encodeSeqBody vs false ++ [SEQ_DELIMITER] := by
            intro hc
            apply hne1
            rw [hq', hc]
          obtain ⟨e, s', herr, htr⟩ := ih false q' fuel Hrt' Herr' Hne' Hhd' hfuel' hpq' hq'ne
          refine ⟨e, s', ?_, htr⟩
          have hd2 : d q1 = DResult.ok u q' := by
            rw [hq']
            exact Hrt u (by simp) q'
          rw [dbind_ok hd2, dbind_err herr]
      cases first with
      | true =>
        have hbne : b ≠ SEQ_DELIMITER := by
          have h1 := Hhd rfl
          simp only [headOk, hb] at h1
          simpa using h1
        have hbody : encodeSeqBody (u :: vs) true ++ [SEQ_DELIMITER] =
            encodeV u ++ (encodeSeqBody vs false ++ [SEQ_DELIMITER]) := by
          simp [encodeSeqBody]
        rw [hbody] at hp hne
        rcases pref_cons_cases (hb ▸ hp) with hq0 | ⟨q2, hq2, -⟩
        · subst hq0
          refine ⟨Error.NoByte, [], ?_, by decide⟩
          rw [seq_elements, dbind_err peek_byte_nil]
        · obtain ⟨e, s', herr, htr⟩ := hstep q hp hne
          refine ⟨e, s', ?_, htr⟩
          rw [hq2, seq_elements]
          rw [dbind_ok (peek_byte_cons b _)]
          rw [if_neg hbne]
          simp only [ite_true]
          rw [dbind_ok (dok_apply 0 _)]
          rw [hq2] at herr
          exact herr
      | false =>
        have hbody : encodeSeqBody (u :: vs) false ++ [SEQ_DELIMITER] =
            SEQ_VALUE_DELIMITER ::
              (encodeV u ++ (encodeSeqBody vs false ++ [SEQ_DELIMITER])) := by
          simp [encodeSeqBody]
        rw [hbody] at hp hne
        rcases pref_cons_cases hp with hq0 | ⟨q1, hq1, hpq1⟩
        · subst hq0
          refine ⟨Error.NoByte, [], ?_, by decide⟩
          rw [seq_elements, dbind_err peek_byte_nil]
        · have hq1ne : q1 ≠ encodeV u ++ (encodeSeqBody vs false ++ [SEQ_DELIMITER]) := by
            intro hc
            apply hne
            rw [hq1, hc]
          obtain ⟨e, s', herr, htr⟩ := hstep q1 hpq1 hq1ne
          refine ⟨e, s', ?_, htr⟩
          rw [hq1, seq_elements]
          rw [dbind_ok (peek_byte_cons SEQ_VALUE_DELIMITER _)]
          rw [if_neg hsvd]
          simp only [Bool.false_eq_true, ite_false]
          have hskip : dbind eat_byte (fun c =>
              if c = SEQ_VALUE_DELIMITER then dok 0
              else derr Error.ExpectedSeqValueDelimiter)
              (SEQ_VALUE_DELIMITER :: q1) = DResult.ok 0 q1 := by
            rw [dbind_ok (eat_byte_cons _ _), if_pos rfl]
            rfl
          rw [dbind_ok hskip]
          exact herr

theorem tuple_elements_trunc (dV : Sch → Dm Value) (ts : List Sch) :
    ∀ (vs : List Value) (first : Bool) (q : List Nat),
    ts.length = vs.length →
    (∀ x ∈ List.zip ts vs,
      (∀ r', dV x.1 (encodeV x.2 ++ r') = DResult.ok x.2 r') ∧
      (∀ p, Pref p (encodeV x.2) → p ≠ encodeV x.2 →
        ∃ e s', dV x.1 p = DResult.err e s' ∧ truncErr e = true) ∧
      encodeV x.2 ≠ []) →
    (first = true → headOk vs = true) →
    Pref q (encodeSeqBody vs first ++ [SEQ_DELIMITER]) →
    q ≠ encodeSeqBody vs first ++ [SEQ_DELIMITER] →
    (∃ e s', tuple_elements dV ts first q = DResult.err e s' ∧ truncErr e = true) ∨
    (q = encodeSeqBody vs first ∧
      tuple_elements dV ts first q = DResult.ok vs []) := by
  induction ts with
  | nil =>
    intro vs first q hlen H _ hp hne
    cases vs with
    | nil =>
      have hq : q = [] := by
        rcases pref_cons_cases (by simpa [encodeSeqBody] using hp) with hq | ⟨q', hq', hpq'⟩
        · exact hq
        · have := pref_nil_right hpq'
          subst this
          rw [hq'] at hne
          simp [encodeSeqBody] at hne
      subst hq
      right
      exact ⟨by simp [encodeSeqBody], by simp [tuple_elements, dok]⟩
    | cons v vs => simp at hlen
  | cons t ts ih =>
    intro vs first q hlen H Hhd hp hne
    cases vs with
    | nil => simp at hlen
    | cons u vs =>
      obtain ⟨Hrtu, Herru, hnil⟩ := H (t, u) (by rw [List.zip_cons_cons]; simp)
      obtain ⟨b, tail, hb⟩ := List.exists_cons_of_ne_nil hnil
      have H' := fun x hx => H x (by rw [List.zip_cons_cons]; exact List.mem_cons_of_mem _ hx)
      have Hhd' : false = true → headOk vs = true := fun hc => absurd hc (by decide)
      have hlen' : ts.length = vs.length := by simpa using hlen
      have hsvd : ¬ (SEQ_VALUE_DELIMITER = SEQ_DELIMITER) := by decide
      have hstep : ∀ q1, Pref q1 (encodeV u ++ (encodeSeqBody vs false ++ [SEQ_DELIMITER])) →
          q1 ≠ encodeV u ++ (encodeSeqBody vs false ++ [SEQ_DELIMITER]) →
          (∃ e s', (dbind (dV t) (fun v =>
              dbind (tuple_elements dV ts false) (fun ws => dok (v :: ws)))) q1 =
                DResult.err e s' ∧ truncErr e = true) ∨
          (q1 = encodeV u ++ encodeSeqBody vs false ∧
            (dbind (dV t) (fun v =>
              dbind (tuple_elements dV ts false) (fun ws => dok (v :: ws)))) q1 =
                DResult.ok (u :: vs) []) := by
        intro q1 hp1 hne1
        rcases pref_append_cases hp1 with hq | ⟨q', hq', hpq'⟩
        · by_cases hqe : q1 = encodeV u
          · subst hqe
            have hd2 : dV t (encodeV u) = DResult.ok u [] := by
              have := Hrtu []
              simpa using this
            rcases ih vs false [] hlen' H' Hhd' (pref_nil _) (by simp [encodeSeqBody]) with
              ⟨e, s', herr, htr⟩ | ⟨hqbody, hok⟩
            · left
              refine ⟨e, s', ?_, htr⟩
              rw [dbind_ok hd2, dbind_err herr]
            · right
              constructor
              · rw [← hqbody]
                simp
              · rw [dbind_ok hd2, dbind_ok hok]
                rfl
          · obtain ⟨e, s', herr, htr⟩ := Herru q1 hq hqe
            left
            refine ⟨e, s', ?_, htr⟩
            rw [dbind_err herr]
        · have hq'ne : q' ≠ encodeSeqBody vs false ++ [SEQ_DELIMITER] := by
            intro hc
            apply hne1
            rw [hq', hc]
          have hd2 : dV t q1 = DResult.ok u q' := by
            rw [hq']
            exact Hrtu q'
          rcases ih vs false q' hlen' H' Hhd' hpq' hq'ne with
            ⟨e, s', herr, htr⟩ | ⟨hqbody, hok⟩
          · left
            refine ⟨e, s', ?_, htr⟩
            rw [dbind_ok hd2, dbind_err herr]
          · right
            constructor
            · rw [hq', hqbody]
            · rw [dbind_ok hd2, dbind_ok hok]
              rfl
      cases first with
      | true =>
        have hbne : b ≠ SEQ_DELIMITER := by
          have h1 := Hhd rfl
          simp only [headOk, hb] at h1
          simpa using h1
        have hbody : encodeSeqBody (u :: vs) true ++ [SEQ_DELIMITER] =
            encodeV u ++ (encodeSeqBody vs false ++ [SEQ_DELIMITER]) := by
          simp [encodeSeqBody]
        rw [hbody] at hp hne
        rcases pref_cons_cases (hb ▸ hp) with hq0 | ⟨q2, hq2, -⟩
        · subst hq0
          left
          refine ⟨Error.NoByte, [], ?_, by decide⟩
          rw [tuple_elements, dbind_err peek_byte_nil]
        · have heval : tuple_elements dV (t :: ts) true q =
              (dbind (dV t) (fun v =>
                dbind (tuple_elements dV ts false) (fun ws => dok (v :: ws)))) q := by
            rw [hq2, tuple_elements]
            rw [dbind_ok (peek_byte_cons b _)]
            rw [if_neg hbne]
            simp only [ite_true]
            rw [dbind_ok (dok_apply 0 _)]
          rcases hstep q hp hne with ⟨e, s', herr, htr⟩ | ⟨hqbody, hok⟩
          · left
            exact ⟨e, s', by rw [heval]; exact herr, htr⟩
          · right
            constructor
            · rw [hqbody]
              simp [encodeSeqBody]
            · rw [heval]
              exact hok
      | false =>
        have hbody : encodeSeqBody (u :: vs) false ++ [SEQ_DELIMITER] =
            SEQ_VALUE_DELIMITER ::
              (encodeV u ++ (encodeSeqBody vs false ++ [SEQ_DELIMITER])) := by
          simp [encodeSeqBody]
        rw [hbody] at hp hne
        rcases pref_cons_cases hp with hq0 | ⟨q1, hq1, hpq1⟩
        · subst hq0
          left
          refine ⟨Error.NoByte, [], ?_, by decide⟩
          rw [tuple_elements, dbind_err peek_byte_nil]
        · have hq1ne : q1 ≠ encodeV u ++ (encodeSeqBody vs false ++ [SEQ_DELIMITER]) := by
            intro hc
            apply hne
            rw [hq1, hc]
          have heval : tuple_elements dV (t :: ts) false q =
              (dbind (dV t) (fun v =>
                dbind (tuple_elements dV ts false) (fun ws => dok (v :: ws)))) q1 := by
            rw [hq1, tuple_elements]
            rw [dbind_ok (peek_byte_cons SEQ_VALUE_DELIMITER _)]
            rw [if_neg hsvd]
            simp only [Bool.false_eq_true, ite_false]
            have hskip : dbind eat_byte (fun c =>
                if c = SEQ_VALUE_DELIMITER then dok 0
                else derr Error.ExpectedSeqValueDelimiter)
                (SEQ_VALUE_DELIMITER :: q1) = DResult.ok 0 q1 := by
              rw [dbind_ok (eat_byte_cons _ _), if_pos rfl]
              rfl
            rw [dbind_ok hskip]
          rcases hstep q1 hpq1 hq1ne with ⟨e, s', herr, htr⟩ | ⟨hqbody, hok⟩
          · left
            exact ⟨e, s', by rw [heval]; exact herr, htr⟩
          · right
            constructor
            · rw [hq1, hqbody]
              simp [encodeSeqBody]
            · rw [heval]
              exact hok

theorem map_entries_trunc (dk dv : Dm Value) (es : List (Value × Value)) :
    ∀ (first : Bool) (q : List Nat) (fuel : Nat),
    (∀ kv ∈ es, ∀ r', dk (encodeV kv.1 ++ r') = DResult.ok kv.1 r') →
    (∀ kv ∈ es, ∀ p, Pref p (encodeV kv.1) → p ≠ encodeV kv.1 →
      ∃ e s', dk p = DResult.err e s' ∧ truncErr e = true) →
    (∀ kv ∈ es, ∀ r', dv (encodeV kv.2 ++ r') = DResult.ok kv.2 r') →
    (∀ kv ∈ es, ∀ p, Pref p (encodeV kv.2) → p ≠ encodeV kv.2 →
      ∃ e s', dv p = DResult.err e s' ∧ truncErr e = true) →
    es.length < fuel →
    Pref q (encodeMapBody es first ++ [MAP_DELIMITER]) →
    q ≠ encodeMapBody es first ++ [MAP_DELIMITER] →
    ∃ e s', map_entries dk dv fuel first q = DResult.err e s' ∧ truncErr e = true := by
  induction es with
  | nil =>
    intro first q fuel _ _ _ _ hfuel hp hne
    cases fuel with
    | zero => omega
    | succ fuel =>
      have hq : q = [] := by
        rcases pref_cons_cases (by simpa [encodeMapBody] using hp) with hq | ⟨q', hq', hpq'⟩
        · exact hq
        · have := pref_nil_right hpq'
          subst this
          rw [hq'] at hne
          simp [encodeMapBody] at hne
      subst hq
      refine ⟨Error.NoByte, [], ?_, by decide⟩
      rw [map_entries, dbind_err peek_byte_nil]
  | cons e es ih =>
    intro first q fuel Hrtk Herrk Hrtv Herrv hfuel hp hne
    cases fuel with
    | zero => omega
    | succ fuel =>
      obtain ⟨k, v⟩ := e
      have Hrtk1 := Hrtk (k, v) (by simp)
      have Herrk1 := Herrk (k, v) (by simp)
      have Hrtv1 := Hrtv (k, v) (by simp)
      have Herrv1 := Herrv (k, v) (by simp)
      have Hrtk' := fun kv hkv => Hrtk kv (List.mem_cons_of_mem _ hkv)
      have Herrk' := fun kv hkv => Herrk kv (List.mem_cons_of_mem _ hkv)
      have Hrtv' := fun kv hkv => Hrtv kv (List.mem_cons_of_mem _ hkv)
      have Herrv' := fun kv hkv => Herrv kv (List.mem_cons_of_mem _ hkv)
      have hfuel' : es.length < fuel := by
        simp at hfuel
        omega
      have c1 : ¬ (MAP_KEY_DELIMITER = MAP_DELIMITER) := by decide
      have c2 : ¬ (MAP_VALUE_SEPARATOR = MAP_DELIMITER) := by decide
      have hstep : ∀ q1,
          Pref q1 (MAP_KEY_DELIMITER :: (encodeV k ++
            (MAP_KEY_DELIMITER :: MAP_VALUE_DELIMITER :: (encodeV v ++
              (MAP_VALUE_DELIMITER :: (encodeMapBody es false ++ [MAP_DELIMITER])))))) →
          q1 ≠ MAP_KEY_DELIMITER :: (encodeV k ++
            (MAP_KEY_DELIMITER :: MAP_VALUE_DELIMITER :: (encodeV v ++
              (MAP_VALUE_DELIMITER :: (encodeMapBody es false ++ [MAP_DELIMITER]))))) →
          ∃ e s', (dbind (parse_unsigned 1) (fun c =>
            if c = MAP_KEY_DELIMITER then
              dbind dk (fun k =>
                dbind (parse_unsigned 1) (fun c2 =>
                  if c2 = MAP_KEY_DELIMITER then
                    dbind eat_byte (fun c3 =>
                      if c3 = MAP_VALUE_DELIMITER then
                        dbind dv (fun v =>
                          dbind eat_byte (fun c4 =>
                            if c4 = MAP_VALUE_DELIMITER then
                              dbind (map_entries dk dv fuel false)
                                (fun es => dok ((k, v) :: es))
                            else derr Error.ExpectedMapValueDelimiter))
                      else derr Error.ExpectedMapValueDelimiter)
                  else derr Error.ExpectedMapKeyDelimiter))
            else derr Error.ExpectedMapKeyDelimiter)) q1 =
              DResult.err e s' ∧ truncErr e = true := by
        intro q1 hp1 hne1
        rcases pref_cons_cases hp1 with hq0 | ⟨q2, hq2, hpq2⟩
        · subst hq0
          refine ⟨Error.UnexpectedEOF, [], ?_, by decide⟩
          rw [dbind_err (parse_unsigned_empty (by norm_num))]
        · subst hq2
          have hne2 : q2 ≠ encodeV k ++
              (MAP_KEY_DELIMITER :: MAP_VALUE_DELIMITER :: (encodeV v ++
                (MAP_VALUE_DELIMITER :: (encodeMapBody es false ++ [MAP_DELIMITER])))) := by
            intro hc
            apply hne1
            rw [hc]
          rcases pref_append_cases hpq2 with hq | ⟨q3, hq3, hpq3⟩
          · by_cases hqe : q2 = encodeV k
            · subst hqe
              have hdk0 : dk (encodeV k) = DResult.ok k [] := by
                have := Hrtk1 []
                simpa using this
              refine ⟨Error.UnexpectedEOF, [], ?_, by decide⟩
              rw [dbind_ok (parse_unsigned_one_cons _ _), if_pos rfl]
              rw [dbind_ok hdk0]
              rw [dbind_err (parse_unsigned_empty (by norm_num))]
            · obtain ⟨e, s', herr, htr⟩ := Herrk1 q2 hq hqe
              refine ⟨e, s', ?_, htr⟩
              rw [dbind_ok (parse_unsigned_one_cons _ _), if_pos rfl]
              rw [dbind_err herr]
          · subst hq3
            have hdkq : dk (encodeV k ++ q3) = DResult.ok k q3 := Hrtk1 q3
            have hne3 : q3 ≠ MAP_KEY_DELIMITER :: MAP_VALUE_DELIMITER :: (encodeV v ++
                (MAP_VALUE_DELIMITER :: (encodeMapBody es false ++ [MAP_DELIMITER]))) := by
              intro hc
              apply hne2
              rw [hc]
            rcases pref_cons_cases hpq3 with hq0 | ⟨q4, hq4, hpq4⟩
            · subst hq0
              refine ⟨Error.UnexpectedEOF, [], ?_, by decide⟩
              rw [dbind_ok (parse_unsigned_one_cons _ _), if_pos rfl]
              rw [dbind_ok hdkq]
              rw [dbind_err (parse_unsigned_empty (by norm_num))]
            · subst hq4
              have hne4 : q4 ≠ MAP_VALUE_DELIMITER :: (encodeV v ++
                  (MAP_VALUE_DELIMITER :: (encodeMapBody es false ++ [MAP_DELIMITER]))) := by
                intro hc
                apply hne3
                rw [hc]
              rcases pref_cons_cases hpq4 with hq0 | ⟨q5, hq5, hpq5⟩
              · subst hq0
                refine ⟨Error.NoByte, [], ?_, by decide⟩
                rw [dbind_ok (parse_unsigned_one_cons _ _), if_pos rfl]
                rw [dbind_ok hdkq]
                rw [dbind_ok (parse_unsigned_one_cons _ _), if_pos rfl]
                rw [dbind_err eat_byte_nil]
              · subst hq5
                have hne5 : q5 ≠ encodeV v ++
                    (MAP_VALUE_DELIMITER :: (encodeMapBody es false ++ [MAP_DELIMITER])) := by
                  intro hc
                  apply hne4
                  rw [hc]
                have heval1 : ∀ (res : Dm (List (Value × Value))),
                    (dbind (parse_unsigned 1) (fun c =>
                      if c = MAP_KEY_DELIMITER then
                        dbind dk (fun k =>
                          dbind (parse_unsigned 1) (fun c2 =>
                            if c2 = MAP_KEY_DELIMITER then
                              dbind eat_byte (fun c3 =>
                                if c3 = MAP_VALUE_DELIMITER then
                                  dbind dv (fun v =>
                                    dbind eat_byte (fun c4 =>
                                      if c4 = MAP_VALUE_DELIMITER then
                                        dbind res (fun es => dok ((k, v) :: es))
                                      else derr Error.ExpectedMapValueDelimiter))
                                else derr Error.ExpectedMapValueDelimiter)
                            else derr Error.ExpectedMapKeyDelimiter))
                      else derr Error.ExpectedMapKeyDelimiter))
                      (MAP_KEY_DELIMITER :: (encodeV k ++
                        (MAP_KEY_DELIMITER :: MAP_VALUE_DELIMITER :: q5))) =
                    (dbind dv (fun v =>
                      dbind eat_byte (fun c4 =>
                        if c4 = MAP_VALUE_DELIMITER then
                          dbind res (fun es => dok ((k, v) :: es))
                        else derr Error.ExpectedMapValueDelimiter))) q5 := by
                  intro res
                  rw [dbind_ok (parse_unsigned_one_cons _ _), if_pos rfl]
                  rw [dbind_ok (Hrtk1 (MAP_KEY_DELIMITER :: MAP_VALUE_DELIMITER :: q5))]
                  rw [dbind_ok (parse_unsigned_one_cons _ _), if_pos rfl]
                  rw [dbind_ok (eat_byte_cons _ _), if_pos rfl]
                rcases pref_append_cases hpq5 with hq | ⟨q6, hq6, hpq6⟩
                · by_cases hqe : q5 = encodeV v
                  · subst hqe
                    have hdv0 : dv (encodeV v) = DResult.ok v [] := by
                      have := Hrtv1 []
                      simpa using this
                    refine ⟨Error.NoByte, [], ?_, by decide⟩
                    rw [heval1]
                    rw [dbind_ok hdv0]
                    rw [dbind_err eat_byte_nil]
                  · obtain ⟨e, s', herr, htr⟩ := Herrv1 q5 hq hqe
                    refine ⟨e, s', ?_, htr⟩
                    rw [heval1]
                    rw [dbind_err herr]
                · subst hq6
                  have hne6 : q6 ≠ MAP_VALUE_DELIMITER ::
                      (encodeMapBody es false ++ [MAP_DELIMITER]) := by
                    intro hc
                    apply hne5
                    rw [hc]
                  have hdvq : dv (encodeV v ++ q6) = DResult.ok v q6 := Hrtv1 q6
                  rcases pref_cons_cases hpq6 with hq0 | ⟨q7, hq7, hpq7⟩
                  · subst hq0
                    refine ⟨Error.NoByte, [], ?_, by decide⟩
                    rw [heval1]
                    rw [dbind_ok hdvq]
                    rw [dbind_err eat_byte_nil]
                  · subst hq7
                    have hne7 : q7 ≠ encodeMapBody es false ++ [MAP_DELIMITER] := by
                      intro hc
                      apply hne6
                      rw [hc]
                    obtain ⟨e, s', herr, htr⟩ :=
                      ih false q7 fuel Hrtk' Herrk' Hrtv' Herrv' hfuel' hpq7 hne7
                    refine ⟨e, s', ?_, htr⟩
                    rw [heval1]
                    rw [dbind_ok hdvq]
                    rw [dbind_ok (eat_byte_cons _ _), if_pos rfl]
                    rw [dbind_err herr]
      cases first with
      | true =>
        have hbody : encodeMapBody ((k, v) :: es) true ++ [MAP_DELIMITER] =
            MAP_KEY_DELIMITER :: (encodeV k ++
              (MAP_KEY_DELIMITER :: MAP_VALUE_DELIMITER :: (encodeV v ++
                (MAP_VALUE_DELIMITER :: (encodeMapBody es false ++ [MAP_DELIMITER]))))) := by
          simp [encodeMapBody]
        rw [hbody] at hp hne
        obtain ⟨e, s', herr, htr⟩ := hstep q hp hne
        rcases pref_cons_cases hp with hq0 | ⟨q2, hq2, -⟩
        · subst hq0
          refine ⟨Error.NoByte, [], ?_, by decide⟩
          rw [map_entries, dbind_err peek_byte_nil]
        · refine ⟨e, s', ?_, htr⟩
          rw [hq2, map_entries]
          rw [dbind_ok (peek_byte_cons MAP_KEY_DELIMITER _)]
          rw [if_neg c1]
          simp only [ite_true]
          rw [dbind_ok (dok_apply 0 _)]
          rw [hq2] at herr
          exact herr
      | false =>
        have hbody : encodeMapBody ((k, v) :: es) false ++ [MAP_DELIMITER] =
            MAP_VALUE_SEPARATOR :: (MAP_KEY_DELIMITER :: (encodeV k ++
              (MAP_KEY_DELIMITER :: MAP_VALUE_DELIMITER :: (encodeV v ++
                (MAP_VALUE_DELIMITER :: (encodeMapBody es false ++ [MAP_DELIMITER])))))) := by
          simp [encodeMapBody]
        rw [hbody] at hp hne
        rcases pref_cons_cases hp with hq0 | ⟨q1, hq1, hpq1⟩
        · subst hq0
          refine ⟨Error.NoByte, [], ?_, by decide⟩
          rw [map_entries, dbind_err peek_byte_nil]
        · have hq1ne : q1 ≠ MAP_KEY_DELIMITER :: (encodeV k ++
              (MAP_KEY_DELIMITER :: MAP_VALUE_DELIMITER :: (encodeV v ++
                (MAP_VALUE_DELIMITER :: (encodeMapBody es false ++ [MAP_DELIMITER]))))) := by
            intro hc
            apply hne
            rw [hq1, hc]
          obtain ⟨e, s', herr, htr⟩ := hstep q1 hpq1 hq1ne
          refine ⟨e, s', ?_, htr⟩
          rw [hq1, map_entries]
          rw [dbind_ok (peek_byte_cons MAP_VALUE_SEPARATOR _)]
          rw [if_neg c2]
          simp only [Bool.false_eq_true, ite_false]
          have hskip : dbind eat_byte (fun c =>
              if c = MAP_VALUE_SEPARATOR then dok 0
              else derr Error.ExpectedMapValueSeparator)
              (MAP_VALUE_SEPARATOR :: q1) = DResult.ok 0 q1 := by
            rw [dbind_ok (eat_byte_cons _ _), if_pos rfl]
            rfl
          rw [dbind_ok hskip]
          exact herr

theorem struct_fields_trunc (dV : Sch → Dm Value) (fs : List (List Nat × Sch)) :
    ∀ (es : List (Value × Value)) (first : Bool) (q : List Nat),
    fs.length = es.length →
    (∀ x ∈ List.zip fs es,
      x.2.1 = Value.strV x.1.1 ∧ utf8WellFormed x.1.1 = true ∧
      STRING_DELIMITER ∉ x.1.1 ∧
      (∀ r', dV x.1.2 (encodeV x.2.2 ++ r') = DResult.ok x.2.2 r') ∧
      (∀ p, Pref p (encodeV x.2.2) → p ≠ encodeV x.2.2 →
        ∃ e s', dV x.1.2 p = DResult.err e s' ∧ truncErr e = true)) →
    Pref q (encodeMapBody es first ++ [MAP_DELIMITER]) →
    q ≠ encodeMapBody es first ++ [MAP_DELIMITER] →
    (∃ e s', struct_fields dV fs first q = DResult.err e s' ∧ truncErr e = true) ∨
    (q = encodeMapBody es first ∧ struct_fields dV fs first q = DResult.ok es []) := by
  induction fs with
  | nil =>
    intro es first q hlen H hp hne
    cases es with
    | nil =>
      have hq : q = [] := by
        rcases pref_cons_cases (by simpa [encodeMapBody] using hp) with hq | ⟨q', hq', hpq'⟩
        · exact hq
        · have := pref_nil_right hpq'
          subst this
          rw [hq'] at hne
          simp [encodeMapBody] at hne
      subst hq
      right
      exact ⟨by simp [encodeMapBody], by simp [struct_fields, dok]⟩
    | cons e es => simp at hlen
  | cons f fs ih =>
    intro es first q hlen H hp hne
    cases es with
    | nil => simp at hlen
    | cons e es =>
      obtain ⟨name, tv⟩ := f
      obtain ⟨k, v⟩ := e
      obtain ⟨hkey, hut, hnd, Hrtv1, Herrv1⟩ := H ((name, tv), (k, v))
        (by rw [List.zip_cons_cons]; simp)
      simp only at hkey
      subst hkey
      have H' := fun x hx => H x (by rw [List.zip_cons_cons]; exact List.mem_cons_of_mem _ hx)
      have hlen' : fs.length = es.length := by simpa using hlen
      have c1 : ¬ (MAP_KEY_DELIMITER = MAP_DELIMITER) := by decide
      have c2 : ¬ (MAP_VALUE_SEPARATOR = MAP_DELIMITER) := by decide
      have hkeyok : keyBytes (Value.strV name) = name := rfl
      have hdsenc : ∀ r', deserialize_str (encodeV (Value.strV name) ++ r') =
          DResult.ok (Value.strV name) r' := fun r' => deserialize_str_encode name r' hut hnd
      have hstep : ∀ q1,
          Pref q1 (MAP_KEY_DELIMITER :: (encodeV (Value.strV name) ++
            (MAP_KEY_DELIMITER :: MAP_VALUE_DELIMITER :: (encodeV v ++
              (MAP_VALUE_DELIMITER :: (encodeMapBody es false ++ [MAP_DELIMITER])))))) →
          q1 ≠ MAP_KEY_DELIMITER :: (encodeV (Value.strV name) ++
            (MAP_KEY_DELIMITER :: MAP_VALUE_DELIMITER :: (encodeV v ++
              (MAP_VALUE_DELIMITER :: (encodeMapBody es false ++ [MAP_DELIMITER]))))) →
          (∃ e s', (dbind (parse_unsigned 1) (fun c =>
            if c = MAP_KEY_DELIMITER then
              dbind deserialize_str (fun k =>
                if keyBytes k = name then
                  dbind (parse_unsigned 1) (fun c2 =>
                    if c2 = MAP_KEY_DELIMITER then
                      dbind eat_byte (fun c3 =>
                        if c3 = MAP_VALUE_DELIMITER then
                          dbind (dV tv) (fun v =>
                            dbind eat_byte (fun c4 =>
                              if c4 = MAP_VALUE_DELIMITER then
                                dbind (struct_fields dV fs false)
                                  (fun es => dok ((k, v) :: es))
                              else derr Error.ExpectedMapValueDelimiter))
                        else derr Error.ExpectedMapValueDelimiter)
                    else derr Error.ExpectedMapKeyDelimiter)
                else derr Error.UnknownField)
            else derr Error.ExpectedMapKeyDelimiter)) q1 =
              DResult.err e s' ∧ truncErr e = true) ∨
          (q1 = MAP_KEY_DELIMITER :: (encodeV (Value.strV name) ++
            (MAP_KEY_DELIMITER :: MAP_VALUE_DELIMITER :: (encodeV v ++
              (MAP_VALUE_DELIMITER :: encodeMapBody es false)))) ∧
            (dbind (parse_unsigned 1) (fun c =>
            if c = MAP_KEY_DELIMITER then
              dbind deserialize_str (fun k =>
                if keyBytes k = name then
                  dbind (parse_unsigned 1) (fun c2 =>
                    if c2 = MAP_KEY_DELIMITER then
                      dbind eat_byte (fun c3 =>
                        if c3 = MAP_VALUE_DELIMITER then
                          dbind (dV tv) (fun v =>
                            dbind eat_byte (fun c4 =>
                              if c4 = MAP_VALUE_DELIMITER then
                                dbind (struct_fields dV fs false)
                                  (fun es => dok ((k, v) :: es))
                              else derr Error.ExpectedMapValueDelimiter))
                        else derr Error.ExpectedMapValueDelimiter)
                    else derr Error.ExpectedMapKeyDelimiter)
                else derr Error.UnknownField)
            else derr Error.ExpectedMapKeyDelimiter)) q1 =
              DResult.ok ((Value.strV name, v) :: es) []) := by
        intro q1 hp1 hne1
        rcases pref_cons_cases hp1 with hq0 | ⟨q2, hq2, hpq2⟩
        · subst hq0
          left
          refine ⟨Error.UnexpectedEOF, [], ?_, by decide⟩
          rw [dbind_err (parse_unsigned_empty (by norm_num))]
        · subst hq2
          have hne2 : q2 ≠ encodeV (Value.strV name) ++
              (MAP_KEY_DELIMITER :: MAP_VALUE_DELIMITER :: (encodeV v ++
                (MAP_VALUE_DELIMITER :: (encodeMapBody es false ++ [MAP_DELIMITER])))) := by
            intro hc
            apply hne1
            rw [hc]
          rcases pref_append_cases hpq2 with hq | ⟨q3, hq3, hpq3⟩
          · by_cases hqe : q2 = encodeV (Value.strV name)
            · subst hqe
              have hds0 : deserialize_str (encodeV (Value.strV name)) =
                  DResult.ok (Value.strV name) [] := by
                have := hdsenc []
                simpa using this
              left
              refine ⟨Error.UnexpectedEOF, [], ?_, by decide⟩
              rw [dbind_ok (parse_unsigned_one_cons _ _), if_pos rfl]
              rw [dbind_ok hds0, if_pos hkeyok]
              rw [dbind_err (parse_unsigned_empty (by norm_num))]
            · obtain ⟨e, s', herr, htr⟩ := deserialize_str_prefix_err name hnd q2 hq hqe
              left
              refine ⟨e, s', ?_, htr⟩
              rw [dbind_ok (parse_unsigned_one_cons _ _), if_pos rfl]
              rw [dbind_err herr]
          · subst hq3
            have hne3 : q3 ≠ MAP_KEY_DELIMITER :: MAP_VALUE_DELIMITER :: (encodeV v ++
                (MAP_VALUE_DELIMITER :: (encodeMapBody es false ++ [MAP_DELIMITER]))) := by
              intro hc
              apply hne2
              rw [hc]
            rcases pref_cons_cases hpq3 with hq0 | ⟨q4, hq4, hpq4⟩
            · subst hq0
              left
              refine ⟨Error.UnexpectedEOF, [], ?_, by decide⟩
              rw [dbind_ok (parse_unsigned_one_cons _ _), if_pos rfl]
              rw [dbind_ok (hdsenc [])]
              rw [if_pos hkeyok]
              rw [dbind_err (parse_unsigned_empty (by norm_num))]
            · subst hq4
              have hne4 : q4 ≠ MAP_VALUE_DELIMITER :: (encodeV v ++
                  (MAP_VALUE_DELIMITER :: (encodeMapBody es false ++ [MAP_DELIMITER]))) := by
                intro hc
                apply hne3
                rw [hc]
              rcases pref_cons_cases hpq4 with hq0 | ⟨q5, hq5, hpq5⟩
              · subst hq0
                left
                refine ⟨Error.NoByte, [], ?_, by decide⟩
                rw [dbind_ok (parse_unsigned_one_cons _ _), if_pos rfl]
                rw [dbind_ok (hdsenc [MAP_KEY_DELIMITER])]
                rw [if_pos hkeyok]
                rw [dbind_ok (parse_unsigned_one_cons _ _), if_pos rfl]
                rw [dbind_err eat_byte_nil]
              · subst hq5
                have hne5 : q5 ≠ encodeV v ++
                    (MAP_VALUE_DELIMITER :: (encodeMapBody es false ++ [MAP_DELIMITER])) := by
                  intro hc
                  apply hne4
                  rw [hc]
                have heval1 : ∀ (res : Dm (List (Value × Value))),
                    (dbind (parse_unsigned 1) (fun c =>
                      if c = MAP_KEY_DELIMITER then
                        dbind deserialize_str (fun k =>
                          if keyBytes k = name then
                            dbind (parse_unsigned 1) (fun c2 =>
                              if c2 = MAP_KEY_DELIMITER then
                                dbind eat_byte (fun c3 =>
                                  if c3 = MAP_VALUE_DELIMITER then
                                    dbind (dV tv) (fun v =>
                                      dbind eat_byte (fun c4 =>
                                        if c4 = MAP_VALUE_DELIMITER then
                                          dbind res (fun es => dok ((k, v) :: es))
                                        else derr Error.ExpectedMapValueDelimiter))
                                  else derr Error.ExpectedMapValueDelimiter)
                              else derr Error.ExpectedMapKeyDelimiter)
                          else derr Error.UnknownField)
                      else derr Error.ExpectedMapKeyDelimiter))
                      (MAP_KEY_DELIMITER :: (encodeV (Value.strV name) ++
                        (MAP_KEY_DELIMITER :: MAP_VALUE_DELIMITER :: q5))) =
                    (dbind (dV tv) (fun v =>
                      dbind eat_byte (fun c4 =>
                        if c4 = MAP_VALUE_DELIMITER then
                          dbind res (fun es => dok ((Value.strV name, v) :: es))
                        else derr Error.ExpectedMapValueDelimiter))) q5 := by
                  intro res
                  rw [dbind_ok (parse_unsigned_one_cons _ _), if_pos rfl]
                  rw [dbind_ok (hdsenc (MAP_KEY_DELIMITER :: MAP_VALUE_DELIMITER :: q5))]
                  rw [if_pos hkeyok]
                  rw [dbind_ok (parse_unsigned_one_cons _ _), if_pos rfl]
                  rw [dbind_ok (eat_byte_cons _ _), if_pos rfl]
                rcases pref_append_cases hpq5 with hq | ⟨q6, hq6, hpq6⟩
                · by_cases hqe : q5 = encodeV v
                  · subst hqe
                    have hdv0 : dV tv (encodeV v) = DResult.ok v [] := by
                      have := Hrtv1 []
                      simpa using this
                    left
                    refine ⟨Error.NoByte, [], ?_, by decide⟩
                    rw [heval1]
                    rw [dbind_ok hdv0]
                    rw [dbind_err eat_byte_nil]
                  · obtain ⟨e, s', herr, htr⟩ := Herrv1 q5 hq hqe
                    left
                    refine ⟨e, s', ?_, htr⟩
                    rw [heval1]
                    rw [dbind_err herr]
                · subst hq6
                  have hne6 : q6 ≠ MAP_VALUE_DELIMITER ::
                      (encodeMapBody es false ++ [MAP_DELIMITER]) := by
                    intro hc
                    apply hne5
                    rw [hc]
                  have hdvq : dV tv (encodeV v ++ q6) = DResult.ok v q6 := Hrtv1 q6
                  rcases pref_cons_cases hpq6 with hq0 | ⟨q7, hq7, hpq7⟩
                  · subst hq0
                    left
                    refine ⟨Error.NoByte, [], ?_, by decide⟩
                    rw [heval1]
                    rw [dbind_ok hdvq]
                    rw [dbind_err eat_byte_nil]
                  · subst hq7
                    have hne7 : q7 ≠ encodeMapBody es false ++ [MAP_DELIMITER] := by
                      intro hc
                      apply hne6
                      rw [hc]
                    rcases ih es false q7 hlen' H' hpq7 hne7 with
                      ⟨e, s', herr, htr⟩ | ⟨hqbody, hok⟩
                    · left
                      refine ⟨e, s', ?_, htr⟩
                      rw [heval1]
                      rw [dbind_ok hdvq]
                      rw [dbind_ok (eat_byte_cons _ _), if_pos rfl]
                      rw [dbind_err herr]
                    · right
                      constructor
                      · rw [hqbody]
                      · rw [heval1]
                        rw [dbind_ok hdvq]
                        rw [dbind_ok (eat_byte_cons _ _), if_pos rfl]
                        rw [dbind_ok hok]
                        rfl
      cases first with
      | true =>
        have hbody : encodeMapBody ((Value.strV name, v) :: es) true ++ [MAP_DELIMITER] =
            MAP_KEY_DELIMITER :: (encodeV (Value.strV name) ++
              (MAP_KEY_DELIMITER :: MAP_VALUE_DELIMITER :: (encodeV v ++
                (MAP_VALUE_DELIMITER :: (encodeMapBody es false ++ [MAP_DELIMITER]))))) := by
          simp [encodeMapBody]
        rw [hbody] at hp hne
        rcases pref_cons_cases hp with hq0 | ⟨q2, hq2, -⟩
        · subst hq0
          left
          refine ⟨Error.NoByte, [], ?_, by decide⟩
          rw [struct_fields, dbind_err peek_byte_nil]
        · have heval : struct_fields dV ((name, tv) :: fs) true q =
              (dbind (parse_unsigned 1) (fun c =>
                if c = MAP_KEY_DELIMITER then
                  dbind deserialize_str (fun k =>
                    if keyBytes k = name then
                      dbind (parse_unsigned 1) (fun c2 =>
                        if c2 = MAP_KEY_DELIMITER then
                          dbind eat_byte (fun c3 =>
                            if c3 = MAP_VALUE_DELIMITER then
                              dbind (dV tv) (fun v =>
                                dbind eat_byte (fun c4 =>
                                  if c4 = MAP_VALUE_DELIMITER then
                                    dbind (struct_fields dV fs false)
                                      (fun es => dok ((k, v) :: es))
                                  else derr Error.ExpectedMapValueDelimiter))
                            else derr Error.ExpectedMapValueDelimiter)
                        else derr Error.ExpectedMapKeyDelimiter)
                    else derr Error.UnknownField)
                else derr Error.ExpectedMapKeyDelimiter)) q := by
            rw [hq2, struct_fields]
            rw [dbind_ok (peek_byte_cons MAP_KEY_DELIMITER _)]
            rw [if_neg c1]
            simp only [ite_true]
            rw [dbind_ok (dok_apply 0 _)]
          rcases hstep q hp hne with ⟨e, s', herr, htr⟩ | ⟨hqbody, hok⟩
          · left
            exact ⟨e, s', by rw [heval]; exact herr, htr⟩
          · right
            constructor
            · rw [hqbody]
              simp [encodeMapBody]
            · rw [heval]
              exact hok
      | false =>
        have hbody : encodeMapBody ((Value.strV name, v) :: es) false ++ [MAP_DELIMITER] =
            MAP_VALUE_SEPARATOR :: (MAP_KEY_DELIMITER :: (encodeV (Value.strV name) ++
              (MAP_KEY_DELIMITER :: MAP_VALUE_DELIMITER :: (encodeV v ++
                (MAP_VALUE_DELIMITER :: (encodeMapBody es false ++ [MAP_DELIMITER])))))) := by
          simp [encodeMapBody]
        rw [hbody] at hp hne
        rcases pref_cons_cases hp with hq0 | ⟨q1, hq1, hpq1⟩
        · subst hq0
          left
          refine ⟨Error.NoByte, [], ?_, by decide⟩
          rw [struct_fields, dbind_err peek_byte_nil]
        · have hq1ne : q1 ≠ MAP_KEY_DELIMITER :: (encodeV (Value.strV name) ++
              (MAP_KEY_DELIMITER :: MAP_VALUE_DELIMITER :: (encodeV v ++
                (MAP_VALUE_DELIMITER :: (encodeMapBody es false ++ [MAP_DELIMITER]))))) := by
            intro hc
            apply hne
            rw [hq1, hc]
          have heval : struct_fields dV ((name, tv) :: fs) false q =
              (dbind (parse_unsigned 1) (fun c =>
                if c = MAP_KEY_DELIMITER then
                  dbind deserialize_str (fun k =>
                    if keyBytes k = name then
                      dbind (parse_unsigned 1) (fun c2 =>
                        if c2 = MAP_KEY_DELIMITER then
                          dbind eat_byte (fun c3 =>
                            if c3 = MAP_VALUE_DELIMITER then
                              dbind (dV tv) (fun v =>
                                dbind eat_byte (fun c4 =>
                                  if c4 = MAP_VALUE_DELIMITER then
                                    dbind (struct_fields dV fs false)
                                      (fun es => dok ((k, v) :: es))
                                  else derr Error.ExpectedMapValueDelimiter))
                            else derr Error.ExpectedMapValueDelimiter)
                        else derr Error.ExpectedMapKeyDelimiter)
                    else derr Error.UnknownField)
                else derr Error.ExpectedMapKeyDelimiter)) q1 := by
            rw [hq1, struct_fields]
            rw [dbind_ok (peek_byte_cons MAP_VALUE_SEPARATOR _)]
            rw [if_neg c2]
            simp only [Bool.false_eq_true, ite_false]
            have hskip : dbind eat_byte (fun c =>
                if c = MAP_VALUE_SEPARATOR then dok 0
                else derr Error.ExpectedMapValueSeparator)
                (MAP_VALUE_SEPARATOR :: q1) = DResult.ok 0 q1 := by
              rw [dbind_ok (eat_byte_cons _ _), if_pos rfl]
              rfl
            rw [dbind_ok hskip]
          rcases hstep q1 hpq1 hq1ne with ⟨e, s', herr, htr⟩ | ⟨hqbody, hok⟩
          · left
            exact ⟨e, s', by rw [heval]; exact herr, htr⟩
          · right
            constructor
            · rw [hq1, hqbody]
              simp [encodeMapBody]
            · rw [heval]
              exact hok

theorem parse_signed_short {w : Nat} {s : List Nat} (h : s.length < w) :
    parse_signed w s = DResult.err Error.UnexpectedEOF s := by
  simp [parse_signed, h]

theorem floatFreeList_mem {vs : List Value} {u : Value}
    (h : floatFreeList vs = true) (hu : u ∈ vs) : floatFree u = true := by
  induction vs with
  | nil => cases hu
  | cons w vs ih =>
    simp [floatFreeList] at h
    rcases List.mem_cons.mp hu with hu | hu
    · subst hu
      exact h.1
    · exact ih h.2 hu

theorem floatFreePairs_mem {es : List (Value × Value)} {k v : Value}
    (h : floatFreePairs es = true) (hkv : (k, v) ∈ es) :
    floatFree k = true ∧ floatFree v = true := by
  induction es with
  | nil => cases hkv
  | cons e es ih =>
    obtain ⟨k', v'⟩ := e
    simp [floatFreePairs] at h
    obtain ⟨⟨ha, hb⟩, hrest⟩ := h
    rcases List.mem_cons.mp hkv with hkv | hkv
    · rw [Prod.mk.injEq] at hkv
      obtain ⟨h1, h2⟩ := hkv
      subst h1
      subst h2
      exact ⟨ha, hb⟩
    · exact ih hrest hkv

theorem pref_singleton {p : List Nat} {x : Nat} (h : Pref p [x]) (hne : p ≠ [x]) :
    p = [] := by
  rcases pref_cons_cases h with h0 | ⟨q, hq, hpq⟩
  · exact h0
  · have := pref_nil_right hpq
    subst this
    exact absurd hq hne

theorem decode_prefix_trunc : ∀ (N : Nat) (t : Sch) (v : Value), sizeV v ≤ N →
    good t v = true → floatFree v = true →
    ∀ (p : List Nat), Pref p (encodeV v) → p ≠ encodeV v →
    ∀ (fuel : Nat), sizeV v < fuel →
    ∃ e s', decodeV fuel t p = DResult.err e s' ∧ truncErr e = true := by
  intro N
  induction N with
  | zero =>
    intro t v hle _ _ p _ _ fuel _
    have := sizeV_pos v
    omega
  | succ N ih =>
    intro t v hle hg hff p hp hne fuel hf
    cases fuel with
    | zero =>
      have := sizeV_pos v
      omega
    | succ fuel =>
    cases v with
    | boolV b =>
      cases t <;> simp [good] at hg
      have hp0 : p = [] := by
        cases b <;> exact pref_singleton (by simpa [encodeV] using hp) (by simpa [encodeV] using hne)
      subst hp0
      refine ⟨Error.NoByte, [], ?_, by decide⟩
      have hpb : parse_bool [] = DResult.err Error.NoByte [] := rfl
      simp only [decodeV]
      rw [dbind_err hpb]
    | unsV w' n =>
      cases t <;> simp [good] at hg
      rename_i w2
      obtain ⟨⟨hww, -⟩, -⟩ := hg
      subst hww
      have hlen : p.length < w2 := by
        have h1 := pref_proper_length (by simpa [encodeV] using hp) (by simpa [encodeV] using hne)
        rw [leBytes_length] at h1
        exact h1
      refine ⟨Error.UnexpectedEOF, p, ?_, by decide⟩
      simp only [decodeV]
      rw [dbind_err (parse_unsigned_short hlen)]
    | sgnV w' z =>
      cases t <;> simp [good] at hg
      rename_i w2
      obtain ⟨⟨⟨hww, -⟩, -⟩, -⟩ := hg
      subst hww
      have hlen : p.length < w2 := by
        have h1 := pref_proper_length (by simpa [encodeV] using hp) (by simpa [encodeV] using hne)
        rw [leBytes_length] at h1
        exact h1
      refine ⟨Error.UnexpectedEOF, p, ?_, by decide⟩
      simp only [decodeV]
      rw [dbind_err (parse_signed_short hlen)]
    | f32V n => simp [floatFree] at hff
    | f64V n => simp [floatFree] at hff
    | charV n =>
      cases t <;> simp [good] at hg
      have hlen : p.length < 4 := by
        have h1 := pref_proper_length (by simpa [encodeV] using hp) (by simpa [encodeV] using hne)
        rw [leBytes_length] at h1
        exact h1
      refine ⟨Error.UnexpectedEOF, p, ?_, by decide⟩
      simp only [decodeV, parse_char]
      rw [dbind_err (dbind_err (parse_unsigned_short hlen))]
    | strV p0 =>
      cases t <;> simp [good] at hg
      obtain ⟨hut, hnd⟩ := hg
      have hnd' : STRING_DELIMITER ∉ p0 := by simpa using hnd
      obtain ⟨e, s', herr, htr⟩ := deserialize_str_prefix_err p0 hnd' p hp hne
      refine ⟨e, s', ?_, htr⟩
      simp only [decodeV]
      exact herr
    | bytesV p0 => cases t <;> simp [good] at hg
    | unitV =>
      cases t <;> simp [good] at hg
      have hp0 : p = [] := pref_singleton (by simpa [encodeV] using hp) (by simpa [encodeV] using hne)
      subst hp0
      refine ⟨Error.UnexpectedEOF, [], ?_, by decide⟩
      simp only [decodeV, deserialize_unit]
      rw [dbind_err (parse_unsigned_empty (by norm_num))]
    | noneV =>
      cases t <;> simp [good] at hg
      have hp0 : p = [] := pref_singleton (by simpa [encodeV] using hp) (by simpa [encodeV] using hne)
      subst hp0
      refine ⟨Error.NoByte, [], ?_, by decide⟩
      simp only [decodeV, deserialize_option]
      rw [dbind_err peek_byte_nil]
    | someV v' =>
      cases t <;> simp [good] at hg
      rename_i t'
      obtain ⟨hg', hhd⟩ := hg
      have hff' : floatFree v' = true := by simpa [floatFree] using hff
      have hsz : sizeV v' ≤ N := by
        simp [sizeV] at hle
        omega
      have hne2 := good_ne_nil N t' v' hsz hg'
      obtain ⟨b, tail, hb⟩ := List.exists_cons_of_ne_nil hne2
      have hbne : b ≠ UNIT := by
        rw [hb] at hhd
        simpa using hhd
      have henc : encodeV (Value.someV v') = encodeV v' := by simp [encodeV]
      rw [henc] at hp hne
      rcases pref_cons_cases (hb ▸ hp) with hq0 | ⟨q, hq, -⟩
      · subst hq0
        refine ⟨Error.NoByte, [], ?_, by decide⟩
        simp only [decodeV, deserialize_option]
        rw [dbind_err peek_byte_nil]
      · obtain ⟨e, s', herr, htr⟩ := ih t' v' hsz hg' hff' p hp hne fuel
          (by simp [sizeV] at hf; omega)
        refine ⟨e, s', ?_, htr⟩
        simp only [decodeV, deserialize_option]
        rw [hq]
        rw [dbind_ok (peek_byte_cons b _)]
        rw [if_neg hbne]
        rw [← hq]
        rw [dbind_err herr]
    | seqV vs =>
      cases t <;> simp [good] at hg
      rename_i t'
      obtain ⟨hgl, hhd⟩ := hg
      have hsize : 2 + sizeVList vs ≤ N + 1 := by
        simpa [sizeV] using hle
      have hfuel2 : 2 + sizeVList vs < fuel + 1 := by
        simpa [sizeV] using hf
      have hffl : floatFreeList vs = true := by simpa [floatFree] using hff
      have Hrt : ∀ u ∈ vs, ∀ r', decodeV fuel t' (encodeV u ++ r') = DResult.ok u r' := by
        intro u hu r'
        have hgu := goodList_mem hgl hu
        have hmem := sizeVList_mem hu
        exact decode_encode_good N t' u (by omega) hgu fuel r' (by omega)
      have Herr : ∀ u ∈ vs, ∀ q, Pref q (encodeV u) → q ≠ encodeV u →
          ∃ e s', decodeV fuel t' q = DResult.err e s' ∧ truncErr e = true := by
        intro u hu q hq hqe
        have hgu := goodList_mem hgl hu
        have hmem := sizeVList_mem hu
        exact ih t' u (by omega) hgu (floatFreeList_mem hffl hu) q hq hqe fuel (by omega)
      have Hne : ∀ u ∈ vs, encodeV u ≠ [] := by
        intro u hu
        have hgu := goodList_mem hgl hu
        have hmem := sizeVList_mem hu
        exact good_ne_nil N t' u (by omega) hgu
      have hlenv := length_le_sizeVList vs
      have henc : encodeV (Value.seqV vs) =
          SEQ_DELIMITER :: (encodeSeqBody vs true ++ [SEQ_DELIMITER]) := by
        simp [encodeV]
      rw [henc] at hp hne
      rcases pref_cons_cases hp with hq0 | ⟨q, hq, hpq⟩
      · subst hq0
        refine ⟨Error.UnexpectedEOF, [], ?_, by decide⟩
        simp only [decodeV, deserialize_frame]
        rw [dbind_err (parse_unsigned_empty (by norm_num))]
      · have hqne : q ≠ encodeSeqBody vs true ++ [SEQ_DELIMITER] := by
          intro hc
          apply hne
          rw [hq, hc]
        obtain ⟨e, s', herr, htr⟩ := seq_elements_trunc (decodeV fuel t') vs true q fuel
          Hrt Herr Hne (fun _ => hhd) (by omega) hpq hqne
        refine ⟨e, s', ?_, htr⟩
        simp only [decodeV, deserialize_frame]
        rw [hq]
        rw [dbind_ok (parse_unsigned_one_cons _ _)]
        rw [if_pos rfl]
        rw [dbind_err (dbind_err herr)]
    | mapV es =>
      cases t <;> simp [good] at hg
      rename_i tk tv
      have hsize : 2 + sizeVPairs es ≤ N + 1 := by
        simpa [sizeV] using hle
      have hfuel2 : 2 + sizeVPairs es < fuel + 1 := by
        simpa [sizeV] using hf
      have hffp : floatFreePairs es = true := by simpa [floatFree] using hff
      have Hrtk : ∀ kv ∈ es, ∀ r', decodeV fuel tk (encodeV kv.1 ++ r') = DResult.ok kv.1 r' := by
        intro kv hkv r'
        obtain ⟨k, v⟩ := kv
        obtain ⟨hgk, -⟩ := goodPairs_mem hg hkv
        have hmem := sizeVPairs_mem hkv
        exact decode_encode_good N tk k (by omega) hgk fuel r' (by omega)
      have Herrk : ∀ kv ∈ es, ∀ q, Pref q (encodeV kv.1) → q ≠ encodeV kv.1 →
          ∃ e s', decodeV fuel tk q = DResult.err e s' ∧ truncErr e = true := by
        intro kv hkv q hq hqe
        obtain ⟨k, v⟩ := kv
        obtain ⟨hgk, -⟩ := goodPairs_mem hg hkv
        have hmem := sizeVPairs_mem hkv
        exact ih tk k (by omega) hgk (floatFreePairs_mem hffp hkv).1 q hq hqe fuel (by omega)
      have Hrtv : ∀ kv ∈ es, ∀ r', decodeV fuel tv (encodeV kv.2 ++ r') = DResult.ok kv.2 r' := by
        intro kv hkv r'
        obtain ⟨k, v⟩ := kv
        obtain ⟨-, hgv⟩ := goodPairs_mem hg hkv
        have hmem := sizeVPairs_mem hkv
        exact decode_encode_good N tv v (by omega) hgv fuel r' (by omega)
      have Herrv : ∀ kv ∈ es, ∀ q, Pref q (encodeV kv.2) → q ≠ encodeV kv.2 →
          ∃ e s', decodeV fuel tv q = DResult.err e s' ∧ truncErr e = true := by
        intro kv hkv q hq hqe
        obtain ⟨k, v⟩ := kv
        obtain ⟨-, hgv⟩ := goodPairs_mem hg hkv
        have hmem := sizeVPairs_mem hkv
        exact ih tv v (by omega) hgv (floatFreePairs_mem hffp hkv).2 q hq hqe fuel (by omega)
      have hlenv := length_le_sizeVPairs es
      have henc : encodeV (Value.mapV es) =
          MAP_DELIMITER :: (encodeMapBody es true ++ [MAP_DELIMITER]) := by
        simp [encodeV]
      rw [henc] at hp hne
      rcases pref_cons_cases hp with hq0 | ⟨q, hq, hpq⟩
      · subst hq0
        refine ⟨Error.UnexpectedEOF, [], ?_, by decide⟩
        simp only [decodeV, deserialize_frame]
        rw [dbind_err (parse_unsigned_empty (by norm_num))]
      · have hqne : q ≠ encodeMapBody es true ++ [MAP_DELIMITER] := by
          intro hc
          apply hne
          rw [hq, hc]
        obtain ⟨e, s', herr, htr⟩ := map_entries_trunc (decodeV fuel tk) (decodeV fuel tv)
          es true q fuel Hrtk Herrk Hrtv Herrv (by omega) hpq hqne
        refine ⟨e, s', ?_, htr⟩
        simp only [decodeV, deserialize_frame]
        rw [hq]
        rw [dbind_ok (parse_unsigned_one_cons _ _)]
        rw [if_pos rfl]
        rw [dbind_err (dbind_err herr)]
    | enumV idx pay =>
      cases t <;> simp [good] at hg
      rename_i vars
      obtain ⟨hidx, hgv⟩ := hg
      have hidx256 : idx < 256 ^ 4 := by
        norm_num
        omega
      have henc : encodeV (Value.enumV idx pay) =
          ENUM_DELIMITER :: (leBytes 4 idx ++ encodePayload pay) := by
        simp [encodeV]
      rw [henc] at hp hne
      have hffpay : floatFreePayload pay = true := by simpa [floatFree] using hff
      have hstep : ∀ q', Pref q' (encodePayload pay) → q' ≠ encodePayload pay →
          ∃ e s', deserialize_variant (decodeV fuel) idx vars[idx]? q' =
            DResult.err e s' ∧ truncErr e = true := by
        intro q' hpq' hq'ne
        cases hv : vars[idx]? with
        | none =>
          rw [hv] at hgv
          simp [goodVariant] at hgv
        | some var =>
          rw [hv] at hgv
          cases var with
          | vUnit =>
            cases pay with
            | some v' => simp [goodVariant] at hgv
            | none =>
              have := pref_nil_right (by simpa [encodePayload] using hpq')
              subst this
              simp [encodePayload] at hq'ne
          | vNewtype t' =>
            cases pay with
            | none => simp [goodVariant] at hgv
            | some v' =>
              simp only [goodVariant] at hgv
              have hff' : floatFree v' = true := by
                simpa [floatFreePayload] using hffpay
              have hsz : sizeV v' ≤ N := by
                simp [sizeV, sizeVPayload] at hle
                omega
              have hpq2 : Pref q' (encodeV v') := by simpa [encodePayload] using hpq'
              have hq'ne2 : q' ≠ encodeV v' := by simpa [encodePayload] using hq'ne
              obtain ⟨e, s', herr, htr⟩ := ih t' v' hsz hgv hff' q' hpq2 hq'ne2 fuel
                (by simp [sizeV, sizeVPayload] at hf; omega)
              refine ⟨e, s', ?_, htr⟩
              simp only [deserialize_variant]
              rw [dbind_err herr]
          | vTuple ts =>
            cases pay with
            | none => simp [goodVariant] at hgv
            | some pv =>
              cases pv <;> simp [goodVariant] at hgv
              rename_i vs
              obtain ⟨hgt, hhd⟩ := hgv
              have hsize : 4 + sizeVList vs ≤ N + 1 := by
                simp [sizeV, sizeVPayload] at hle
                omega
              have hfuel2 : 4 + sizeVList vs < fuel + 1 := by
                simp [sizeV, sizeVPayload] at hf
                omega
              have hffl : floatFreeList vs = true := by
                simpa [floatFreePayload, floatFree] using hffpay
              have H : ∀ x ∈ List.zip ts vs,
                  (∀ r', decodeV fuel x.1 (encodeV x.2 ++ r') = DResult.ok x.2 r') ∧
                  (∀ q, Pref q (encodeV x.2) → q ≠ encodeV x.2 →
                    ∃ e s', decodeV fuel x.1 q = DResult.err e s' ∧ truncErr e = true) ∧
                  encodeV x.2 ≠ [] := by
                intro x hx
                have hgx := goodTuple_zip hgt hx
                have hmemv : x.2 ∈ vs := (List.of_mem_zip hx).2
                have hmem := sizeVList_mem hmemv
                refine ⟨fun r' => decode_encode_good N x.1 x.2 (by omega) hgx fuel r' (by omega),
                  fun q hq hqe => ih x.1 x.2 (by omega) hgx (floatFreeList_mem hffl hmemv)
                    q hq hqe fuel (by omega),
                  good_ne_nil N x.1 x.2 (by omega) hgx⟩
              have hpenc : encodePayload (some (Value.seqV vs)) =
                  SEQ_DELIMITER :: (encodeSeqBody vs true ++ [SEQ_DELIMITER]) := by
                simp [encodePayload, encodeV]
              rw [hpenc] at hpq' hq'ne
              rcases pref_cons_cases hpq' with hq0 | ⟨q2, hq2, hpq2⟩
              · subst hq0
                refine ⟨Error.UnexpectedEOF, [], ?_, by decide⟩
                simp only [deserialize_variant, deserialize_frame]
                rw [dbind_err (dbind_err (parse_unsigned_empty (by norm_num)))]
              · have hq2ne : q2 ≠ encodeSeqBody vs true ++ [SEQ_DELIMITER] := by
                  intro hc
                  apply hq'ne
                  rw [hq2, hc]
                rcases tuple_elements_trunc (decodeV fuel) ts vs true q2
                    (goodTuple_length hgt) H (fun _ => hhd) hpq2 hq2ne with
                  ⟨e, s', herr, htr⟩ | ⟨hqbody, hok⟩
                · refine ⟨e, s', ?_, htr⟩
                  have hframe : deserialize_frame SEQ_DELIMITER Error.ExpectedSeqDelimiter
                      (tuple_elements (decodeV fuel) ts true) (SEQ_DELIMITER :: q2) =
                      DResult.err e s' := by
                    simp only [deserialize_frame]
                    rw [dbind_ok (parse_unsigned_one_cons _ _)]
                    rw [if_pos rfl]
                    rw [dbind_err herr]
                  simp only [deserialize_variant]
                  rw [hq2]
                  rw [dbind_err hframe]
                · refine ⟨Error.UnexpectedEOF, [], ?_, by decide⟩
                  have hframe : deserialize_frame SEQ_DELIMITER Error.ExpectedSeqDelimiter
                      (tuple_elements (decodeV fuel) ts true) (SEQ_DELIMITER :: q2) =
                      DResult.err Error.UnexpectedEOF [] := by
                    simp only [deserialize_frame]
                    rw [dbind_ok (parse_unsigned_one_cons _ _)]
                    rw [if_pos rfl]
                    rw [dbind_ok hok]
                    rw [dbind_err (parse_unsigned_empty (by norm_num))]
                  simp only [deserialize_variant]
                  rw [hq2]
                  rw [dbind_err hframe]
          | vStruct fs =>
            cases pay with
            | none => simp [goodVariant] at hgv
            | some pv =>
              cases pv <;> simp [goodVariant] at hgv
              rename_i es
              have hsize : 4 + sizeVPairs es ≤ N + 1 := by
                simp [sizeV, sizeVPayload] at hle
                omega
              have hfuel2 : 4 + sizeVPairs es < fuel + 1 := by
                simp [sizeV, sizeVPayload] at hf
                omega
              have hffp : floatFreePairs es = true := by
                simpa [floatFreePayload, floatFree] using hffpay
              have H : ∀ x ∈ List.zip fs es,
                  x.2.1 = Value.strV x.1.1 ∧ utf8WellFormed x.1.1 = true ∧
                  STRING_DELIMITER ∉ x.1.1 ∧
                  (∀ r', decodeV fuel x.1.2 (encodeV x.2.2 ++ r') = DResult.ok x.2.2 r') ∧
                  (∀ q, Pref q (encodeV x.2.2) → q ≠ encodeV x.2.2 →
                    ∃ e s', decodeV fuel x.1.2 q = DResult.err e s' ∧ truncErr e = true) := by
                intro x hx
                obtain ⟨hk, hut, hnd, hgx⟩ := goodFields_zip hgv hx
                have hmemv : x.2 ∈ es := (List.of_mem_zip hx).2
                have hmem : sizeV x.2.2 ≤ sizeVPairs es := by
                  have hpr : (x.2.1, x.2.2) ∈ es := by simpa using hmemv
                  exact (sizeVPairs_mem hpr).2
                have hmemff : floatFree x.2.2 = true := by
                  have hpr : (x.2.1, x.2.2) ∈ es := by simpa using hmemv
                  exact (floatFreePairs_mem hffp hpr).2
                exact ⟨hk, hut, hnd,
                  fun r' => decode_encode_good N x.1.2 x.2.2 (by omega) hgx fuel r' (by omega),
                  fun q hq hqe => ih x.1.2 x.2.2 (by omega) hgx hmemff q hq hqe fuel (by omega)⟩
              have hpenc : encodePayload (some (Value.mapV es)) =
                  MAP_DELIMITER :: (encodeMapBody es true ++ [MAP_DELIMITER]) := by
                simp [encodePayload, encodeV]
              rw [hpenc] at hpq' hq'ne
              rcases pref_cons_cases hpq' with hq0 | ⟨q2, hq2, hpq2⟩
              · subst hq0
                refine ⟨Error.UnexpectedEOF, [], ?_, by decide⟩
                simp only [deserialize_variant, deserialize_frame]
                rw [dbind_err (dbind_err (parse_unsigned_empty (by norm_num)))]
              · have hq2ne : q2 ≠ encodeMapBody es true ++ [MAP_DELIMITER] := by
                  intro hc
                  apply hq'ne
                  rw [hq2, hc]
                rcases struct_fields_trunc (decodeV fuel) fs es true q2
                    (goodFields_length hgv) H hpq2 hq2ne with
                  ⟨e, s', herr, htr⟩ | ⟨hqbody, hok⟩
                · refine ⟨e, s', ?_, htr⟩
                  have hframe : deserialize_frame MAP_DELIMITER Error.ExpectedMapDelimiter
                      (struct_fields (decodeV fuel) fs true) (MAP_DELIMITER :: q2) =
                      DResult.err e s' := by
                    simp only [deserialize_frame]
                    rw [dbind_ok (parse_unsigned_one_cons _ _)]
                    rw [if_pos rfl]
                    rw [dbind_err herr]
                  simp only [deserialize_variant]
                  rw [hq2]
                  rw [dbind_err hframe]
                · refine ⟨Error.UnexpectedEOF, [], ?_, by decide⟩
                  have hframe : deserialize_frame MAP_DELIMITER Error.ExpectedMapDelimiter
                      (struct_fields (decodeV fuel) fs true) (MAP_DELIMITER :: q2) =
                      DResult.err Error.UnexpectedEOF [] := by
                    simp only [deserialize_frame]
                    rw [dbind_ok (parse_unsigned_one_cons _ _)]
                    rw [if_pos rfl]
                    rw [dbind_ok hok]
                    rw [dbind_err (parse_unsigned_empty (by norm_num))]
                  simp only [deserialize_variant]
                  rw [hq2]
                  rw [dbind_err hframe]
      rcases pref_cons_cases hp with hq0 | ⟨q, hq, hpq⟩
      · subst hq0
        refine ⟨Error.UnexpectedEOF, [], ?_, by decide⟩
        simp only [decodeV]
        rw [dbind_err (parse_unsigned_empty (by norm_num))]
      · rcases pref_append_cases hpq with hqa | ⟨q', hq', hpq'⟩
        · by_cases hqe : q = leBytes 4 idx
          · by_cases hpe : encodePayload pay = []
            · exfalso
              apply hne
              rw [hq, hqe, hpe]
              simp
            · obtain ⟨e, s', herr, htr⟩ := hstep [] (pref_nil _) (fun hc => hpe hc.symm)
              refine ⟨e, s', ?_, htr⟩
              simp only [decodeV]
              rw [hq, hqe]
              have hidxin : leBytes 4 idx = leBytes 4 idx ++ [] := by simp
              rw [dbind_ok (parse_unsigned_one_cons _ _)]
              rw [if_pos rfl]
              rw [hidxin]
              rw [dbind_ok (parse_unsigned_le 4 idx [] (by norm_num) hidx256)]
              exact herr
          · have hlen : q.length < 4 := by
              have h1 := pref_proper_length hqa hqe
              rw [leBytes_length] at h1
              exact h1
            refine ⟨Error.UnexpectedEOF, q, ?_, by decide⟩
            simp only [decodeV]
            rw [hq]
            rw [dbind_ok (parse_unsigned_one_cons _ _)]
            rw [if_pos rfl]
            rw [dbind_err (parse_unsigned_short hlen)]
        · have hq'ne : q' ≠ encodePayload pay := by
            intro hc
            apply hne
            rw [hq, hq', hc]
          obtain ⟨e, s', herr, htr⟩ := hstep q' hpq' hq'ne
          refine ⟨e, s', ?_, htr⟩
          simp only [decodeV]
          rw [hq, hq']
          rw [dbind_ok (parse_unsigned_one_cons _ _)]
          rw [if_pos rfl]
          rw [dbind_ok (parse_unsigned_le 4 idx q' (by norm_num) hidx256)]
          exact herr

/-- Truncation safety of delimiter-free byte buffers: though their decode
uses the wrong terminator and cannot round-trip, every proper prefix of
their encoding fails with an end-of-input error — the scan finds no
`STRING_DELIMITER` and runs off the end of the prefix. -/
theorem bytes_prefix_trunc (p0 : List Nat) (hnd : STRING_DELIMITER ∉ p0)
    (p : List Nat) (hp : Pref p (encodeV (Value.bytesV p0)))
    (hne : p ≠ encodeV (Value.bytesV p0)) (fuel : Nat) (hf : 0 < fuel) :
    ∃ e s', decodeV fuel Sch.bytes p = DResult.err e s' ∧ truncErr e = true := by
  cases fuel with
  | zero => omega
  | succ fuel =>
  have henc : encodeV (Value.bytesV p0) =
      BYTE_DELIMITER :: (p0 ++ [BYTE_DELIMITER]) := by
    simp [encodeV]
  rw [henc] at hp hne
  rcases pref_cons_cases hp with hq | ⟨q, hq, hpq⟩
  · subst hq
    refine ⟨Error.UnexpectedEOF, [], ?_, by decide⟩
    have h0 : parse_unsigned 1 ([] : List Nat) = DResult.err Error.UnexpectedEOF [] :=
      parse_unsigned_empty (by norm_num)
    simp only [decodeV]
    simp [deserialize_bytes, dbind, h0]
  · have hqnd : STRING_DELIMITER ∉ q := by
      intro hc
      rcases List.mem_append.mp (pref_mem hpq hc) with h | h
      · exact hnd h
      · simp [STRING_DELIMITER, BYTE_DELIMITER] at h
    refine ⟨Error.NoByte, [], ?_, by decide⟩
    have hpb := parse_bytes_no_delim q hqnd
    simp only [decodeV]
    rw [hq]
    simp [deserialize_bytes, dbind, parse_unsigned_one_cons, hpb]

/-! The claims. -/

/-- C1: the round-trip law `decode(encode(v)) == v` as literally stated is
false — a present option whose payload encodes to a buffer starting with
the `UNIT` byte decodes as the absent option, because the encoding of
`Some` carries no marker byte. `Some(())` encodes to the single `UNIT`
byte and decodes to `None`. -/
theorem C1_round_trip_refuted :
    decodeV 5 (Sch.option Sch.unit) (encodeV (Value.someV Value.unitV)) =
      DResult.ok Value.noneV [] ∧
    Value.noneV ≠ Value.someV Value.unitV := by
  constructor
  · have h : encodeV (Value.someV Value.unitV) = [UNIT] := by simp [encodeV]
    rw [h]
    rfl
  · intro hc
    exact Value.noConfusion hc

/-- C1 (amended): the round-trip law holds for every value of the data
model whose encoding is unambiguous (`good`): byte buffers are excluded
(their decode scans for the wrong terminator), strings must not contain
the `STRING_DELIMITER` byte, a present option's payload encoding must not
begin with the `UNIT` byte, and a sequence's or tuple-variant's first
element's encoding must not begin with the `SEQ_DELIMITER` byte — later
elements are unrestricted, because the loop's end-of-sequence peek only
ever lands on the first element's leading byte. For such values, and any
fuel above the value's size, decoding the encoding yields exactly the
value with the whole input consumed. -/
theorem C1_round_trip (t : Sch) (v : Value) (h : good t v = true)
    (fuel : Nat) (hf : sizeV v < fuel) :
    decodeV fuel t (encodeV v) = DResult.ok v [] := by
  have h2 := decode_encode_good (sizeV v) t v le_rfl h fuel [] hf
  simpa using h2

/-- C1 witness: the amended round trip evaluated on a `u8` sequence whose
second element is the value `4` — its one-byte encoding IS the
`SEQ_DELIMITER` byte, and the round trip still holds, because only the
first element's leading byte is peeked against the closing delimiter. -/
theorem C1_round_trip_witness :
    good (Sch.seq (Sch.uns 1)) (Value.seqV [Value.unsV 1 7, Value.unsV 1 4]) = true ∧
    decodeV 7 (Sch.seq (Sch.uns 1))
      (encodeV (Value.seqV [Value.unsV 1 7, Value.unsV 1 4])) =
      DResult.ok (Value.seqV [Value.unsV 1 7, Value.unsV 1 4]) [] :=
  ⟨by simp [good, goodList, headOk, encodeV, leBytes, SEQ_DELIMITER],
   C1_round_trip (Sch.seq (Sch.uns 1)) (Value.seqV [Value.unsV 1 7, Value.unsV 1 4])
     (by simp [good, goodList, headOk, encodeV, leBytes, SEQ_DELIMITER]) 7
     (by simp [sizeV, sizeVList])⟩

/-- C2: truncation safety as literally stated is false on two counts.
A proper prefix of the encoding of `Some('\x03')` — the single byte
`0x03`, which is the `UNIT` constant — decodes successfully as the
absent option. And a proper prefix of the encoding of an `f64` sends
`parse_f64` through `eat_bytes(8)`, whose unguarded slice `data[..8]`
panics on four remaining bytes: the embedding's `fatal` result. -/
theorem C2_truncation_refuted :
    (Pref [3] (encodeV (Value.someV (Value.charV 3))) ∧
      [3] ≠ encodeV (Value.someV (Value.charV 3)) ∧
      decodeV 5 (Sch.option Sch.char) [3] = DResult.ok Value.noneV []) ∧
    (Pref [0, 0, 0, 0] (encodeV (Value.f64V 0)) ∧
      [0, 0, 0, 0] ≠ encodeV (Value.f64V 0) ∧
      decodeV 2 Sch.f64 [0, 0, 0, 0] = DResult.fatal) := by
  refine ⟨⟨⟨[0, 0, 0], ?_⟩, ?_, rfl⟩, ⟨[0, 0, 0, 0], ?_⟩, ?_, rfl⟩
  · simp only [encodeV]; rfl
  · simp only [encodeV]; decide
  · simp only [encodeV]; rfl
  · simp only [encodeV]; decide

/-- C2 (amended): for every float-free value in the truncation-safe class
`goodPfx` — the unambiguously encoded values (`good`, whose sequence and
tuple restriction touches only the first element's leading byte) plus the
delimiter-free byte buffers — decoding any proper prefix of its encoding
fails with one of the end-of-input errors (`NoByte`, `UnexpectedEOF` —
the spec's `EndOfInput`) or a required-delimiter mismatch error; it never
succeeds and never panics. Floats are excluded because
`parse_f32`/`parse_f64` read through the unguarded `eat_bytes` and panic
on short input; present options with a `UNIT`-initial payload encoding
are excluded because their prefixes can decode successfully. -/
theorem C2_truncation_safety (t : Sch) (v : Value) (h : goodPfx t v = true)
    (hff : floatFree v = true) (p : List Nat) (hp : Pref p (encodeV v))
    (hne : p ≠ encodeV v) (fuel : Nat) (hf : sizeV v < fuel) :
    ∃ e s', decodeV fuel t p = DResult.err e s' ∧ truncErr e = true := by
  have h2 : good t v = true ∨ bytesClean t v = true := by
    simpa [goodPfx, Bool.or_eq_true] using h
  rcases h2 with hgood | hbc
  · exact decode_prefix_trunc (sizeV v) t v le_rfl hgood hff p hp hne fuel hf
  · cases t <;> cases v <;> simp [bytesClean] at hbc
    rename_i p0
    have hpos := sizeV_pos (Value.bytesV p0)
    exact bytes_prefix_trunc p0 (by simpa using hbc) p hp hne fuel (by omega)

/-- C2 witness: the amended truncation safety evaluated on a proper
prefix of a `u16` encoding, on a proper prefix of the `u8`-sequence
encoding `[4, 7, 5, 4, 4]` (whose second element encodes to the
`SEQ_DELIMITER` byte), and on a proper prefix of a delimiter-free byte
buffer's encoding. -/
theorem C2_truncation_safety_witness :
    goodPfx (Sch.uns 2) (Value.unsV 2 5) = true ∧
    Pref [5] (encodeV (Value.unsV 2 5)) ∧
    (∃ e s', decodeV 2 (Sch.uns 2) [5] = DResult.err e s' ∧ truncErr e = true) ∧
    (∃ e s', decodeV 7 (Sch.seq (Sch.uns 1)) [4, 7, 5, 4] =
      DResult.err e s' ∧ truncErr e = true) ∧
    (∃ e s', decodeV 2 Sch.bytes [2, 2] = DResult.err e s' ∧ truncErr e = true) :=
  ⟨by simp [goodPfx, good],
   ⟨[0], by simp only [encodeV]; rfl⟩,
   C2_truncation_safety (Sch.uns 2) (Value.unsV 2 5) (by simp [goodPfx, good])
     (by simp [floatFree]) [5] ⟨[0], by simp only [encodeV]; rfl⟩
     (by simp only [encodeV]; decide) 2 (by simp [sizeV]),
   C2_truncation_safety (Sch.seq (Sch.uns 1))
     (Value.seqV [Value.unsV 1 7, Value.unsV 1 4])
     (by simp [goodPfx, good, goodList, headOk, encodeV, leBytes, SEQ_DELIMITER])
     (by simp [floatFree, floatFreeList]) [4, 7, 5, 4]
     ⟨[4], by simp only [encodeV, encodeSeqBody]; rfl⟩
     (by simp only [encodeV, encodeSeqBody]; decide) 7 (by simp [sizeV, sizeVList]),
   C2_truncation_safety Sch.bytes (Value.bytesV [2])
     (by simp [goodPfx, bytesClean, STRING_DELIMITER]) (by simp [floatFree]) [2, 2]
     ⟨[2], by simp only [encodeV]; rfl⟩ (by simp only [encodeV]; decide) 2
     (by simp [sizeV])⟩

/-- C8: decoding the four little-endian bytes of `0xD800` — a surrogate,
not a Unicode scalar value — reaches `char::from_u32(value).unwrap()`,
which panics: the embedding's `fatal` result, not a recoverable error.
The claim is right about what the code must do and the code does not do
it. -/
theorem C8_char_decode_aborts :
    validScalar 0xD800 = false ∧
    parse_char [0, 216, 0, 0] = DResult.fatal ∧
    decodeV 1 Sch.char [0, 216, 0, 0] = DResult.fatal :=
  ⟨by decide, rfl, rfl⟩

/-- C9: the trailing-bytes law as literally stated is false for the same
reason as the round-trip law: appending a suffix to the encoding of
`Some(())` still decodes as `None`, not as the encoded value. -/
theorem C9_trailing_refuted :
    decodeV 5 (Sch.option Sch.unit) (encodeV (Value.someV Value.unitV) ++ [0]) =
      DResult.ok Value.noneV [0] ∧
    (DResult.ok Value.noneV [0] : DResult Value) ≠
      DResult.ok (Value.someV Value.unitV) [0] := by
  constructor
  · have h : encodeV (Value.someV Value.unitV) = [UNIT] := by simp [encodeV]
    rw [h]
    rfl
  · simp

/-- C9 (amended): for every `good` (unambiguously encoded — with the
sequence and tuple restriction touching only the first element's leading
byte) value and any byte suffix, decoding the encoding followed by the
suffix succeeds, yields the value, and leaves exactly the suffix
unconsumed — trailing bytes are not an error. -/
theorem C9_trailing_bytes (t : Sch) (v : Value) (h : good t v = true)
    (s : List Nat) (fuel : Nat) (hf : sizeV v < fuel) :
    decodeV fuel t (encodeV v ++ s) = DResult.ok v s :=
  decode_encode_good (sizeV v) t v le_rfl h fuel s hf

/-- C9 witness: the amended trailing-bytes law evaluated with two
trailing bytes on the `u8` sequence whose second element encodes to the
`SEQ_DELIMITER` byte — the suffix is left unconsumed and the ambiguous
non-first element does no harm. -/
theorem C9_trailing_bytes_witness :
    good (Sch.seq (Sch.uns 1)) (Value.seqV [Value.unsV 1 7, Value.unsV 1 4]) = true ∧
    decodeV 7 (Sch.seq (Sch.uns 1))
      (encodeV (Value.seqV [Value.unsV 1 7, Value.unsV 1 4]) ++ [9, 9]) =
      DResult.ok (Value.seqV [Value.unsV 1 7, Value.unsV 1 4]) [9, 9] :=
  ⟨by simp [good, goodList, headOk, encodeV, leBytes, SEQ_DELIMITER],
   C9_trailing_bytes (Sch.seq (Sch.uns 1)) (Value.seqV [Value.unsV 1 7, Value.unsV 1 4])
     (by simp [good, goodList, headOk, encodeV, leBytes, SEQ_DELIMITER]) [9, 9] 7
     (by simp [sizeV, sizeVList])⟩

/-- C10: cursor monotonicity. `peek_byte` consumes nothing; `eat_byte`
consumes exactly the first byte (and keeps the state on empty input);
`eat_bytes n` consumes exactly `n` bytes when they are available; and
every parser and deserializer method — stated here for `parse_unsigned`,
`deserialize_str`, `deserialize_bytes` and the whole schema-driven
decoder — leaves, on success or error, a remaining input that is a
suffix of the input it started with: the cursor never moves backwards. -/
theorem C10_cursor_monotone :
    (∀ s r, resultState (peek_byte s) = some r → r = s) ∧
    (∀ b s, eat_byte (b :: s) = DResult.ok b s) ∧
    eat_byte [] = DResult.err Error.NoByte [] ∧
    (∀ n s, n ≤ s.length → eat_bytes n s = DResult.ok (s.take n) (s.drop n)) ∧
    (∀ w, Mono (parse_unsigned w)) ∧
    Mono deserialize_str ∧
    Mono deserialize_bytes ∧
    (∀ fuel t, Mono (decodeV fuel t)) := by
  refine ⟨?_, fun b s => rfl, rfl, ?_, mono_parse_unsigned, mono_deserialize_str,
    mono_deserialize_bytes, mono_decodeV⟩
  · intro s r h
    cases s with
    | nil =>
      simp [peek_byte, resultState] at h
      exact h
    | cons b rest =>
      simp [peek_byte, resultState] at h
      exact h.symm
  · intro n s h
    simp [eat_bytes, h]

/-- C10 witness: the monotonicity statement evaluated concretely — the
peek on `[5, 6]`, a two-byte `eat_bytes` on a three-byte input, and the
decoder on a one-byte boolean input, whose remaining input `[2]` is a
suffix of the starting input `[1, 2]`. -/
theorem C10_cursor_monotone_witness :
    ([5, 6] : List Nat) = [5, 6] ∧
    eat_bytes 2 [1, 2, 3] = DResult.ok [1, 2] [3] ∧
    Suff [2] [1, 2] :=
  ⟨C10_cursor_monotone.1 [5, 6] [5, 6] rfl,
   C10_cursor_monotone.2.2.2.1 2 [1, 2, 3] (by decide),
   C10_cursor_monotone.2.2.2.2.2.2.2 1 Sch.bool [1, 2] [2] rfl⟩

/-- C3: byte-buffer decode. The first byte must equal `BYTE_DELIMITER`
(else `ExpectedByteDelimiter`); the payload scan then accumulates bytes
until the first byte equal to `STRING_DELIMITER` — the string terminator,
not the byte terminator — so a payload may freely contain
`BYTE_DELIMITER` bytes yet the scan runs past a closing `BYTE_DELIMITER`
to the end of the input. -/
theorem C3_bytes_decode :
    (∀ b s, b ≠ BYTE_DELIMITER →
      deserialize_bytes (b :: s) = DResult.err Error.ExpectedByteDelimiter s) ∧
    (∀ payload rest, STRING_DELIMITER ∉ payload →
      deserialize_bytes (BYTE_DELIMITER :: (payload ++ STRING_DELIMITER :: rest)) =
        DResult.ok (Value.bytesV payload) rest) ∧
    (∀ payload, STRING_DELIMITER ∉ payload →
      parse_bytes (payload ++ [BYTE_DELIMITER]) = DResult.err Error.NoByte []) := by
  refine ⟨?_, ?_, ?_⟩
  · intro b s hb
    simp [deserialize_bytes, dbind, parse_unsigned_one_cons, hb, derr]
  · intro payload rest hnd
    have hpb := parse_bytes_encode payload rest hnd
    simp [deserialize_bytes, dbind, parse_unsigned_one_cons, hpb]
  · intro payload hnd
    have hnd2 : STRING_DELIMITER ∉ payload ++ [BYTE_DELIMITER] := by
      intro hc
      rcases List.mem_append.mp hc with h | h
      · exact hnd h
      · simp [STRING_DELIMITER, BYTE_DELIMITER] at h
    exact parse_bytes_no_delim _ hnd2

/-- C3 witness: a mismatched first byte errs; the payload
`[BYTE_DELIMITER]` is accumulated across the byte terminator and closed
by the string terminator; and a scan that meets only a `BYTE_DELIMITER`
runs to the end of the input. -/
theorem C3_bytes_decode_witness :
    deserialize_bytes [0] = DResult.err Error.ExpectedByteDelimiter [] ∧
    deserialize_bytes [BYTE_DELIMITER, BYTE_DELIMITER, STRING_DELIMITER] =
      DResult.ok (Value.bytesV [BYTE_DELIMITER]) [] ∧
    parse_bytes [0, BYTE_DELIMITER] = DResult.err Error.NoByte [] :=
  ⟨C3_bytes_decode.1 0 [] (by decide),
   C3_bytes_decode.2.1 [BYTE_DELIMITER] [] (by decide),
   C3_bytes_decode.2.2 [0] (by decide)⟩

/-- C6: option decode. The decoder for `Sch.option` is exactly
`deserialize_option` of the inner decoder; it peeks one byte; on `UNIT`
it consumes exactly that byte and yields the absent option; on any other
first byte it decodes the inner value directly from the current position,
no marker byte consumed, and wraps it as present; on empty input it errs
with `NoByte`. -/
theorem C6_option_decode :
    (∀ fuel t, decodeV (fuel + 1) (Sch.option t) =
      deserialize_option (decodeV fuel t)) ∧
    (∀ d s, deserialize_option d (UNIT :: s) = DResult.ok Value.noneV s) ∧
    (∀ (d : Dm Value) b s, b ≠ UNIT → deserialize_option d (b :: s) =
      dbind d (fun v => dok (Value.someV v)) (b :: s)) ∧
    (∀ d, deserialize_option d [] = DResult.err Error.NoByte []) := by
  refine ⟨fun fuel t => rfl, fun d s => rfl, ?_, fun d => rfl⟩
  intro d b s hb
  simp [deserialize_option, dbind, peek_byte, hb]

/-- C6 witness: the option decoder evaluated on a `UNIT`-initial buffer,
on a non-`UNIT` buffer and on the empty buffer. -/
theorem C6_option_decode_witness :
    decodeV 2 (Sch.option Sch.bool) = deserialize_option (decodeV 1 Sch.bool) ∧
    deserialize_option deserialize_unit [UNIT, 9] = DResult.ok Value.noneV [9] ∧
    deserialize_option deserialize_unit [UNIT + 1] =
      dbind deserialize_unit (fun v => dok (Value.someV v)) [UNIT + 1] :=
  ⟨C6_option_decode.1 1 Sch.bool,
   C6_option_decode.2.1 deserialize_unit [9],
   C6_option_decode.2.2.1 deserialize_unit (UNIT + 1) [] (by decide)⟩

/-- C7: string decode. The first byte must equal `STRING_DELIMITER` (else
`ExpectedStringDelimiter`); the payload is every byte up to the next
`STRING_DELIMITER`, which is consumed but not included; a payload that is
well-formed UTF-8 yields the string, one that is not fails with the
conversion error (the spec's `InvalidUtf8`, the code's
`ConversionError`). -/
theorem C7_str_decode :
    (∀ b s, b ≠ STRING_DELIMITER →
      deserialize_str (b :: s) = DResult.err Error.ExpectedStringDelimiter s) ∧
    (∀ p rest, STRING_DELIMITER ∉ p → utf8WellFormed p = true →
      deserialize_str (STRING_DELIMITER :: (p ++ STRING_DELIMITER :: rest)) =
        DResult.ok (Value.strV p) rest) ∧
    (∀ p rest, STRING_DELIMITER ∉ p → utf8WellFormed p = false →
      deserialize_str (STRING_DELIMITER :: (p ++ STRING_DELIMITER :: rest)) =
        DResult.err Error.ConversionError rest) := by
  refine ⟨?_, ?_, ?_⟩
  · intro b s hb
    simp [deserialize_str, dbind, parse_unsigned_one_cons, hb, derr]
  · intro p rest hnd hut
    have hloop := parse_str_loop_encode p rest hnd
    simp [deserialize_str, parse_str, dbind, parse_unsigned_one_cons, hloop, hut, dok]
  · intro p rest hnd hut
    have hloop := parse_str_loop_encode p rest hnd
    simp [deserialize_str, parse_str, dbind, parse_unsigned_one_cons, hloop, hut, derr]

/-- C7 witness: a mismatched first byte errs; the payload `"hi"` decodes
to its string; the lone byte `0xFF` is not well-formed UTF-8 and fails
with the conversion error at the position after the closing delimiter. -/
theorem C7_str_decode_witness :
    deserialize_str [0] = DResult.err Error.ExpectedStringDelimiter [] ∧
    deserialize_str [STRING_DELIMITER, 104, 105, STRING_DELIMITER] =
      DResult.ok (Value.strV [104, 105]) [] ∧
    deserialize_str [STRING_DELIMITER, 255, STRING_DELIMITER] =
      DResult.err Error.ConversionError [] :=
  ⟨C7_str_decode.1 0 [] (by decide),
   C7_str_decode.2.1 [104, 105] [] (by decide) (by decide),
   C7_str_decode.2.2 [255] [] (by decide) (by decide)⟩

/-- C4: map decode grammar. The leading byte must equal `MAP_DELIMITER`
(else `ExpectedMapDelimiter`); the entry loop peeks for `MAP_DELIMITER`
to detect end-of-map without consuming it; for every entry after the
first an eaten byte must equal `MAP_VALUE_SEPARATOR` (else
`ExpectedMapValueSeparator`); each key is bracketed by two required
`MAP_KEY_DELIMITER` bytes (else `ExpectedMapKeyDelimiter`), each value
by two required `MAP_VALUE_DELIMITER` bytes (else
`ExpectedMapValueDelimiter`); an empty map consumes its trailing
`MAP_DELIMITER`; and a full non-first entry consumes exactly its
separator, key frame and value frame before looping. The key and value
decoders enter as oracles: `dk` consumes `kenc` yielding `k`, `dv`
consumes `venc` yielding `v`. -/
theorem C4_map_grammar :
    (∀ tk tv fuel b s, b ≠ MAP_DELIMITER →
      decodeV (fuel + 1) (Sch.map tk tv) (b :: s) =
        DResult.err Error.ExpectedMapDelimiter s) ∧
    (∀ tk tv fuel s,
      decodeV (fuel + 2) (Sch.map tk tv) (MAP_DELIMITER :: MAP_DELIMITER :: s) =
        DResult.ok (Value.mapV []) s) ∧
    (∀ dk dv fuel first s,
      map_entries dk dv (fuel + 1) first (MAP_DELIMITER :: s) =
        DResult.ok [] (MAP_DELIMITER :: s)) ∧
    (∀ dk dv fuel b s, b ≠ MAP_DELIMITER → b ≠ MAP_VALUE_SEPARATOR →
      map_entries dk dv (fuel + 1) false (b :: s) =
        DResult.err Error.ExpectedMapValueSeparator s) ∧
    (∀ dk dv fuel b s, b ≠ MAP_DELIMITER → b ≠ MAP_KEY_DELIMITER →
      map_entries dk dv (fuel + 1) true (b :: s) =
        DResult.err Error.ExpectedMapKeyDelimiter s) ∧
    (∀ (dk dv : Dm Value) fuel k kenc b s,
      (∀ r, dk (kenc ++ r) = DResult.ok k r) → b ≠ MAP_KEY_DELIMITER →
      map_entries dk dv (fuel + 1) true
        (MAP_KEY_DELIMITER :: (kenc ++ (b :: s))) =
        DResult.err Error.ExpectedMapKeyDelimiter s) ∧
    (∀ (dk dv : Dm Value) fuel k kenc b s,
      (∀ r, dk (kenc ++ r) = DResult.ok k r) → b ≠ MAP_VALUE_DELIMITER →
      map_entries dk dv (fuel + 1) true
        (MAP_KEY_DELIMITER :: (kenc ++ (MAP_KEY_DELIMITER :: b :: s))) =
        DResult.err Error.ExpectedMapValueDelimiter s) ∧
    (∀ (dk dv : Dm Value) fuel k v kenc venc b s,
      (∀ r, dk (kenc ++ r) = DResult.ok k r) →
      (∀ r, dv (venc ++ r) = DResult.ok v r) → b ≠ MAP_VALUE_DELIMITER →
      map_entries dk dv (fuel + 1) true
        (MAP_KEY_DELIMITER :: (kenc ++ (MAP_KEY_DELIMITER :: MAP_VALUE_DELIMITER ::
          (venc ++ (b :: s))))) =
        DResult.err Error.ExpectedMapValueDelimiter s) ∧
    (∀ (dk dv : Dm Value) fuel k v kenc venc rest,
      (∀ r, dk (kenc ++ r) = DResult.ok k r) →
      (∀ r, dv (venc ++ r) = DResult.ok v r) →
      map_entries dk dv (fuel + 1) false
        (MAP_VALUE_SEPARATOR :: MAP_KEY_DELIMITER ::
          (kenc ++ (MAP_KEY_DELIMITER :: MAP_VALUE_DELIMITER ::
            (venc ++ (MAP_VALUE_DELIMITER :: rest))))) =
        dbind (map_entries dk dv fuel false)
          (fun es => dok ((k, v) :: es)) rest) := by
  have c1 : ¬ (MAP_KEY_DELIMITER = MAP_DELIMITER) := by decide
  have c2 : ¬ (MAP_VALUE_SEPARATOR = MAP_DELIMITER) := by decide
  refine ⟨?_, ?_, ?_, ?_, ?_, ?_, ?_, ?_, ?_⟩
  · intro tk tv fuel b s hb
    simp only [decodeV, deserialize_frame]
    rw [dbind_ok (parse_unsigned_one_cons b s), if_neg hb]
    rfl
  · intro tk tv fuel s
    have hunfold : decodeV (fuel + 2) (Sch.map tk tv) =
        deserialize_frame MAP_DELIMITER Error.ExpectedMapDelimiter
          (dbind (map_entries (decodeV (fuel + 1) tk) (decodeV (fuel + 1) tv)
            (fuel + 1) true) (fun es => dok (Value.mapV es))) := rfl
    rw [hunfold]
    simp only [deserialize_frame]
    rw [dbind_ok (parse_unsigned_one_cons _ _), if_pos rfl]
    have hme : map_entries (decodeV (fuel + 1) tk) (decodeV (fuel + 1) tv)
        (fuel + 1) true (MAP_DELIMITER :: s) = DResult.ok [] (MAP_DELIMITER :: s) := by
      simp [map_entries, dbind, peek_byte, dok]
    have hvisit : dbind (map_entries (decodeV (fuel + 1) tk) (decodeV (fuel + 1) tv)
        (fuel + 1) true) (fun es => dok (Value.mapV es)) (MAP_DELIMITER :: s) =
        DResult.ok (Value.mapV []) (MAP_DELIMITER :: s) := by
      rw [dbind_ok hme]
      rfl
    rw [dbind_ok hvisit]
    rw [dbind_ok (parse_unsigned_one_cons _ _), if_pos rfl]
    rfl
  · intro dk dv fuel first s
    simp [map_entries, dbind, peek_byte, dok]
  · intro dk dv fuel b s hb1 hb2
    rw [map_entries]
    simp only [dbind, peek_byte, eat_byte, dok, derr, hb1, hb2, ite_true, ite_false,
      if_neg, not_false_eq_true, if_false, Bool.false_eq_true]
  · intro dk dv fuel b s hb1 hb2
    rw [map_entries]
    simp only [dbind, peek_byte, eat_byte, dok, derr, parse_unsigned_one_cons, hb1, hb2,
      ite_true, ite_false, if_neg, not_false_eq_true, if_false]
  · intro dk dv fuel k kenc b s hk hb
    have hk2 := hk (b :: s)
    rw [map_entries]
    simp only [dbind, peek_byte, eat_byte, dok, derr, parse_unsigned_one_cons, hk2, c1,
      hb, ite_true, ite_false, if_neg, not_false_eq_true, if_false]
  · intro dk dv fuel k kenc b s hk hb
    have hk2 := hk (MAP_KEY_DELIMITER :: b :: s)
    rw [map_entries]
    simp only [dbind, peek_byte, eat_byte, dok, derr, parse_unsigned_one_cons, hk2, c1,
      hb, ite_true, ite_false, if_neg, not_false_eq_true, if_false]
  · intro dk dv fuel k v kenc venc b s hk hv hb
    have hk2 := hk (MAP_KEY_DELIMITER :: MAP_VALUE_DELIMITER :: (venc ++ (b :: s)))
    have hv2 := hv (b :: s)
    rw [map_entries]
    simp only [dbind, peek_byte, eat_byte, dok, derr, parse_unsigned_one_cons, hk2, hv2,
      c1, hb, ite_true, ite_false, if_neg, not_false_eq_true, if_false]
  · intro dk dv fuel k v kenc venc rest hk hv
    have hk2 := hk (MAP_KEY_DELIMITER :: MAP_VALUE_DELIMITER ::
      (venc ++ (MAP_VALUE_DELIMITER :: rest)))
    have hv2 := hv (MAP_VALUE_DELIMITER :: rest)
    rw [map_entries]
    simp only [dbind, peek_byte, eat_byte, dok, derr, parse_unsigned_one_cons, hk2, hv2,
      c1, c2, ite_true, ite_false, if_neg, not_false_eq_true, if_false, Bool.false_eq_true]

/-- C4 witness: the map grammar evaluated concretely — a mismatched
leading byte errs; the two-byte map `MAP_DELIMITER, MAP_DELIMITER`
decodes to the empty map; and a full non-first entry over unit key and
unit value consumes separator, key frame and value frame before
looping. -/
theorem C4_map_grammar_witness :
    decodeV 1 (Sch.map Sch.unit Sch.unit) [0] =
      DResult.err Error.ExpectedMapDelimiter [] ∧
    decodeV 2 (Sch.map Sch.unit Sch.unit) [MAP_DELIMITER, MAP_DELIMITER] =
      DResult.ok (Value.mapV []) [] ∧
    map_entries deserialize_unit deserialize_unit 2 false
      [MAP_VALUE_SEPARATOR, MAP_KEY_DELIMITER, UNIT, MAP_KEY_DELIMITER,
       MAP_VALUE_DELIMITER, UNIT, MAP_VALUE_DELIMITER, MAP_DELIMITER] =
      dbind (map_entries deserialize_unit deserialize_unit 1 false)
        (fun es => dok ((Value.unitV, Value.unitV) :: es)) [MAP_DELIMITER] :=
  ⟨C4_map_grammar.1 Sch.unit Sch.unit 0 0 [] (by decide),
   C4_map_grammar.2.1 Sch.unit Sch.unit 0 [],
   C4_map_grammar.2.2.2.2.2.2.2.2 deserialize_unit deserialize_unit 1
     Value.unitV Value.unitV [UNIT] [UNIT] [MAP_DELIMITER]
     (fun r => rfl) (fun r => rfl)⟩

/-- C5: sequence decode grammar. The leading byte must equal
`SEQ_DELIMITER` (else `ExpectedSeqDelimiter`); the element loop peeks —
a `SEQ_DELIMITER` stops it without consuming the byte; for every element
after the first an eaten byte must equal `SEQ_VALUE_DELIMITER` (else
`ExpectedSeqValueDelimiter`) before the element is decoded; the two-byte
input `SEQ_DELIMITER, SEQ_DELIMITER` decodes to the empty sequence, the
trailing delimiter consumed; and when the visitor leaves the cursor on a
byte other than `SEQ_DELIMITER` the closing read fails with
`ExpectedSeqDelimiter`. The element decoder enters as an oracle: `d`
consumes `b :: enc` yielding `v`. -/
theorem C5_seq_grammar :
    (∀ t fuel b s, b ≠ SEQ_DELIMITER →
      decodeV (fuel + 1) (Sch.seq t) (b :: s) =
        DResult.err Error.ExpectedSeqDelimiter s) ∧
    (∀ t fuel s,
      decodeV (fuel + 2) (Sch.seq t) (SEQ_DELIMITER :: SEQ_DELIMITER :: s) =
        DResult.ok (Value.seqV []) s) ∧
    (∀ d fuel first s,
      seq_elements d (fuel + 1) first (SEQ_DELIMITER :: s) =
        DResult.ok [] (SEQ_DELIMITER :: s)) ∧
    (∀ d fuel b s, b ≠ SEQ_DELIMITER → b ≠ SEQ_VALUE_DELIMITER →
      seq_elements d (fuel + 1) false (b :: s) =
        DResult.err Error.ExpectedSeqValueDelimiter s) ∧
    (∀ (d : Dm Value) fuel v b enc rest, b ≠ SEQ_DELIMITER →
      (∀ r, d ((b :: enc) ++ r) = DResult.ok v r) →
      seq_elements d (fuel + 1) true ((b :: enc) ++ rest) =
        dbind (seq_elements d fuel false) (fun vs => dok (v :: vs)) rest) ∧
    (∀ (d : Dm Value) fuel v b enc rest, b ≠ SEQ_DELIMITER →
      (∀ r, d ((b :: enc) ++ r) = DResult.ok v r) →
      seq_elements d (fuel + 1) false (SEQ_VALUE_DELIMITER :: ((b :: enc) ++ rest)) =
        dbind (seq_elements d fuel false) (fun vs => dok (v :: vs)) rest) ∧
    (∀ (α : Type) (visit : Dm α) a b s0 s, visit s0 = DResult.ok a (b :: s) →
      b ≠ SEQ_DELIMITER →
      deserialize_frame SEQ_DELIMITER Error.ExpectedSeqDelimiter visit
        (SEQ_DELIMITER :: s0) = DResult.err Error.ExpectedSeqDelimiter s) := by
  have c1 : ¬ (SEQ_VALUE_DELIMITER = SEQ_DELIMITER) := by decide
  refine ⟨?_, ?_, ?_, ?_, ?_, ?_, ?_⟩
  · intro t fuel b s hb
    simp only [decodeV, deserialize_frame]
    rw [dbind_ok (parse_unsigned_one_cons b s), if_neg hb]
    rfl
  · intro t fuel s
    have hunfold : decodeV (fuel + 2) (Sch.seq t) =
        deserialize_frame SEQ_DELIMITER Error.ExpectedSeqDelimiter
          (dbind (seq_elements (decodeV (fuel + 1) t) (fuel + 1) true)
            (fun vs => dok (Value.seqV vs))) := rfl
    rw [hunfold]
    simp only [deserialize_frame]
    rw [dbind_ok (parse_unsigned_one_cons _ _), if_pos rfl]
    have hse : seq_elements (decodeV (fuel + 1) t) (fuel + 1) true
        (SEQ_DELIMITER :: s) = DResult.ok [] (SEQ_DELIMITER :: s) := by
      simp [seq_elements, dbind, peek_byte, dok]
    have hvisit : dbind (seq_elements (decodeV (fuel + 1) t) (fuel + 1) true)
        (fun vs => dok (Value.seqV vs)) (SEQ_DELIMITER :: s) =
        DResult.ok (Value.seqV []) (SEQ_DELIMITER :: s) := by
      rw [dbind_ok hse]
      rfl
    rw [dbind_ok hvisit]
    rw [dbind_ok (parse_unsigned_one_cons _ _), if_pos rfl]
    rfl
  · intro d fuel first s
    simp [seq_elements, dbind, peek_byte, dok]
  · intro d fuel b s hb1 hb2
    rw [seq_elements]
    simp only [dbind, peek_byte, eat_byte, dok, derr, hb1, hb2, ite_true, ite_false,
      if_neg, not_false_eq_true, if_false, Bool.false_eq_true]
  · intro d fuel v b enc rest hb hd
    have hd2 := hd rest
    rw [seq_elements]
    simp only [List.cons_append] at hd2 ⊢
    simp only [dbind, peek_byte, eat_byte, dok, derr, hb, hd2, ite_true, ite_false,
      if_neg, not_false_eq_true, if_false]
  · intro d fuel v b enc rest hb hd
    have hd2 := hd rest
    rw [seq_elements]
    simp only [List.cons_append] at hd2 ⊢
    simp only [dbind, peek_byte, eat_byte, dok, derr, hb, c1, hd2, ite_true, ite_false,
      if_neg, not_false_eq_true, if_false, Bool.false_eq_true]
  · intro α visit a b s0 s hvisit hb
    simp only [deserialize_frame]
    rw [dbind_ok (parse_unsigned_one_cons _ _), if_pos rfl]
    rw [dbind_ok hvisit]
    rw [dbind_ok (parse_unsigned_one_cons _ _), if_neg hb]
    rfl

/-- C5 witness: the sequence grammar evaluated concretely — a mismatched
leading byte errs; the two-byte input decodes to the empty sequence; a
first element over the unit decoder consumes no separator; and a
visitor stopping on the byte `9` makes the closing read fail. -/
theorem C5_seq_grammar_witness :
    decodeV 1 (Sch.seq Sch.unit) [0] = DResult.err Error.ExpectedSeqDelimiter [] ∧
    decodeV 2 (Sch.seq Sch.unit) [SEQ_DELIMITER, SEQ_DELIMITER] =
      DResult.ok (Value.seqV []) [] ∧
    seq_elements deserialize_unit 2 true ([UNIT] ++ [SEQ_DELIMITER]) =
      dbind (seq_elements deserialize_unit 1 false)
        (fun vs => dok (Value.unitV :: vs)) [SEQ_DELIMITER] ∧
    deserialize_frame SEQ_DELIMITER Error.ExpectedSeqDelimiter (dok 0)
      [SEQ_DELIMITER, 9] = DResult.err Error.ExpectedSeqDelimiter [] :=
  ⟨C5_seq_grammar.1 Sch.unit 0 0 [] (by decide),
   C5_seq_grammar.2.1 Sch.unit 0 [],
   C5_seq_grammar.2.2.2.2.1 deserialize_unit 1 Value.unitV UNIT [] [SEQ_DELIMITER]
     (by decide) (fun r => rfl),
   C5_seq_grammar.2.2.2.2.2.2 Nat (dok 0) 0 9 [9] [] rfl (by decide)⟩
